import Mathlib

/-! # Threaded Game of Life (`tgol.c`): a shallow embedding and its properties

The C program keeps a toroidal board of characters (`'X'` alive, anything else
dead, `'-'` written for a dead cell), splits its rows between `nthids` worker
threads, lets every worker append the cells that must be written to two shared
buffers under a mutex, joins the workers and then commits the two buffers to
the board.

Embedding conventions.

* C `int` is `Int`, and an `int` operation whose result is not an `int` value
  is undefined.  One operation of the modelled functions can overflow on a
  board the program can load: the product `b->rows * b->cols` of `update_board`
  (source lines 38-39), formed in `int` before it is multiplied by
  `sizeof(Point)`; it is the checked operation `int_mul`.  The other results
  are bounded by the dimensions and by that product (`i + 1 ≤ rows`,
  `curr_thd * range ≤ rows`, `curr_death + curr_living ≤ rows * cols`).
* Every array access is checked: a read or write outside the allocated
  object, a read of heap memory that was never written, a division by zero
  and a variable length array of non-positive size make the embedded function
  return `none`.
* The only shared mutable state touched by a running worker are the two
  buffers with their counters, and every access to them is a critical section
  of the mutex.  A worker is therefore embedded as the sequence of critical
  sections it executes (`check_rows`), and `update_board` takes the scheduler's
  choices as an explicit argument `sched` that interleaves these sequences.
* What `main` exchanges with its environment is explicit: the command line is
  a list of strings, the board file is the list of the lines `getline` returns
  (each with its terminator), and the output is the list of the frames that
  `show_board` prints.  The messages of the validation functions, `sleep(1)`
  and the release of memory are left out.  A call of these functions ends in a
  `Run`: a returned value, `exit(EXIT_FAILURE)`, or undefined behaviour.
* Characters are those of the C locale; a file is taken to have fewer than
  `2^31` lines, `malloc` to succeed, and the conversion of `long` to `int` to
  reduce modulo `2^32`.
-/

namespace Tgol

/-! ## Data model -/

/-- Modelled from the spec: `Point` is declared in `tgol.h`, which is not among
the sources; the spec calls it a Transition `{row: int, col: int}` and `tgol.c`
uses exactly the members `.row` and `.col`. -/
structure Point where
  row : Int
  col : Int
deriving DecidableEq, Repr

/-- Modelled from the spec: `Board` is declared in `tgol.h`, which is not among
the sources; the spec gives it `rows`, `cols` and a 2D grid, and `tgol.c` also
reads `b->iterations`.  `board` is the `char**` grid: one list per allocated
row. -/
structure Board where
  rows : Int
  cols : Int
  iterations : Int
  board : List (List Char)
deriving DecidableEq, Repr

/-- Modelled from the spec: `Range` is declared in `tgol.h`, which is not among
the sources; it is the spec's RowRange, the half-open row interval
`[min_i, max_i)` of one worker together with the board pointer `b`. -/
structure Range where
  b : Board
  min_i : Int
  max_i : Int
deriving DecidableEq, Repr

/-- The process-wide variables of `tgol.c` lines 16-19.  A buffer is the list
of its allocated elements; `none` is an element that has not been written since
`malloc`.  The empty list stands for a pointer with no accessible element
(initial `NULL`, or freed). -/
structure Globals where
  dead : List (Option Point)
  alive : List (Option Point)
  curr_death : Int
  curr_living : Int
deriving DecidableEq, Repr

/-- The initial values of the global variables. -/
def Globals.init : Globals := ⟨[], [], 0, 0⟩

/-- One critical section of a worker: `dead[curr_death++] = p` or
`alive[curr_living++] = p`, executed while holding the mutex. -/
inductive Append where
  | dead (p : Point)
  | alive (p : Point)
deriving DecidableEq, Repr

/-! ## Checked memory access and counted loops -/

/-- The read `a[i]`; `none` outside the object. -/
def arr_get {α : Type} (a : List α) (i : Int) : Option α :=
  if 0 ≤ i then a[i.toNat]? else none

/-- The write `a[i] = v`; `none` outside the object. -/
def arr_set {α : Type} (a : List α) (i : Int) (v : α) : Option (List α) :=
  if 0 ≤ i ∧ i < (a.length : Int) then some (a.set i.toNat v) else none

/-- The read `b->board[i][j]`. -/
def board_get (b : Board) (i j : Int) : Option Char := do
  let line ← arr_get b.board i
  arr_get line j

/-- The write `b->board[i][j] = status`. -/
def board_set (b : Board) (i j : Int) (status : Char) : Option Board := do
  let line ← arr_get b.board i
  let line2 ← arr_set line j status
  let grid ← arr_set b.board i line2
  some ⟨b.rows, b.cols, b.iterations, grid⟩

/-- The values `lo, lo+1, ..., hi-1` taken by the counter of
`for (int i = lo; i < hi; i++)`. -/
def int_range (lo hi : Int) : List Int :=
  (List.range (hi - lo).toNat).map (fun (k : Nat) => lo + (k : Int))

/-- The loop `for (int i = lo; i < hi; i++) body`, with the state threaded
through the iterations and a failing iteration failing the loop. -/
def for_loop {σ : Type} (lo hi : Int) (body : Int → σ → Option σ) (s : σ) : Option σ :=
  (int_range lo hi).foldlM (fun s i => body i s) s

/-- The call `malloc(n * sizeof(Point))` for an `int` value `n`: `n` elements,
none of them written.  A negative `n` converts to a size that no allocation
satisfies: the result has no element. -/
def malloc (n : Int) : List (Option Point) :=
  List.replicate n.toNat none

/-- The product `x * y` of two `int` operands.  The result is an `int`; a
product outside `[-2^31, 2^31 - 1]` is a signed overflow, which is undefined. -/
def int_mul (x y : Int) : Option Int :=
  if -2147483648 ≤ x * y ∧ x * y ≤ 2147483647 then some (x * y) else none

/-! ## The functions of `tgol.c` -/

/-- Source lines 170-178. -/
def safe_wrap (i max_i : Int) : Int :=
  if i < 0 then max_i - 1
  else if i ≥ max_i then 0
  else i

/-- Source lines 114-120. -/
def make_point (i j : Int) : Point := ⟨i, j⟩

/-- Source lines 137-168: the eight reads, in source order. -/
def calculate_live_neighbors (b : Board) (i j : Int) : Option Int := do
  let live_neighbors : Int := 0
  let max_i := b.rows
  let max_j := b.cols
  let c1 ← board_get b (safe_wrap (i + 1) max_i) j
  let live_neighbors := if c1 = 'X' then live_neighbors + 1 else live_neighbors
  let c2 ← board_get b (safe_wrap (i - 1) max_i) j
  let live_neighbors := if c2 = 'X' then live_neighbors + 1 else live_neighbors
  let c3 ← board_get b i (safe_wrap (j + 1) max_j)
  let live_neighbors := if c3 = 'X' then live_neighbors + 1 else live_neighbors
  let c4 ← board_get b i (safe_wrap (j - 1) max_j)
  let live_neighbors := if c4 = 'X' then live_neighbors + 1 else live_neighbors
  let c5 ← board_get b (safe_wrap (i + 1) max_i) (safe_wrap (j + 1) max_j)
  let live_neighbors := if c5 = 'X' then live_neighbors + 1 else live_neighbors
  let c6 ← board_get b (safe_wrap (i + 1) max_i) (safe_wrap (j - 1) max_j)
  let live_neighbors := if c6 = 'X' then live_neighbors + 1 else live_neighbors
  let c7 ← board_get b (safe_wrap (i - 1) max_i) (safe_wrap (j + 1) max_j)
  let live_neighbors := if c7 = 'X' then live_neighbors + 1 else live_neighbors
  let c8 ← board_get b (safe_wrap (i - 1) max_i) (safe_wrap (j - 1) max_j)
  let live_neighbors := if c8 = 'X' then live_neighbors + 1 else live_neighbors
  some live_neighbors

/-- Source lines 54-70. -/
def prepare_thread_args (b : Board) (max_thds curr_thd range : Int) : Range :=
  let bottom := curr_thd * range
  let top := bottom + range
  if curr_thd = max_thds - 1 then ⟨b, bottom, b.rows⟩
  else ⟨b, bottom, top⟩

/-- Source lines 83-101, the branch taken for one cell inside `check_rows`:
the critical sections executed for a cell holding `cell` with `live_neighbors`
live neighbours (at most one). -/
def record_cell (cell : Char) (live_neighbors : Int) (curr_point : Point) : List Append :=
  if cell = 'X' then
    if live_neighbors < 2 ∨ live_neighbors > 3 then [Append.dead curr_point]
    else [Append.alive curr_point]
  else
    if live_neighbors = 3 then [Append.alive curr_point]
    else []

/-- Source lines 72-106: the critical sections executed by one worker, in
program order.  The worker only reads the board, which no thread writes before
all workers are joined. -/
def check_rows (args : Range) : Option (List Append) :=
  let b := args.b
  let lowest_row := args.min_i
  let highest_row := args.max_i
  for_loop lowest_row highest_row (fun i trace =>
    for_loop 0 b.cols (fun j trace => do
      let live_neighbors ← calculate_live_neighbors b i j
      let curr_point := make_point i j
      let cell ← board_get b i j
      some (trace ++ record_cell cell live_neighbors curr_point)) trace) []

/-- Executing one critical section on the global variables. -/
def Globals.append (g : Globals) : Append → Option Globals
  | Append.dead p => do
      let buf ← arr_set g.dead g.curr_death (some p)
      some ⟨buf, g.alive, g.curr_death + 1, g.curr_living⟩
  | Append.alive p => do
      let buf ← arr_set g.alive g.curr_living (some p)
      some ⟨g.dead, buf, g.curr_death, g.curr_living + 1⟩

/-- Source lines 108-112. -/
def reset_lifes_deaths (_g : Globals) : Globals := ⟨[], [], 0, 0⟩

/-- Source lines 128-135.  Reading an element of `points` that was never
written fails. -/
def update_cell_content (b : Board) (points : List (Option Point)) (num_p : Int)
    (status : Char) : Option Board :=
  for_loop 0 num_p (fun i b => do
    let currp ← (arr_get points i).join
    let currp_x := currp.row
    let currp_y := currp.col
    board_set b currp_x currp_y status) b

/-- Source lines 122-126. -/
def update_cells (b : Board) (dead : List (Option Point)) (num_dead : Int)
    (alive : List (Option Point)) (num_alive : Int) : Option Board := do
  let b ← update_cell_content b dead num_dead '-'
  update_cell_content b alive num_alive 'X'

/-- One execution order of the workers' critical sections.  `sched` lists the
worker that enters the mutex next (an entry naming a worker that has finished,
or no worker, is skipped); when `sched` is used up the remaining workers run to
completion in creation order.  Every interleaving of the workers' sequences is
the value at some `sched`. -/
def interleave : List Nat → List (List Append) → List Append
  | [], traces => traces.flatten
  | k :: ks, traces =>
    match traces[k]? with
    | some (e :: rest) => e :: interleave ks (traces.set k rest)
    | _ => interleave ks traces

/-- Source lines 38-49 of `update_board`: allocation of the buffers, creation
of the workers with their row ranges and the join of all of them.  The result
is the state of the global variables when the last worker has been joined.
The size of a buffer is `b->rows * b->cols * sizeof(Point)`, whose first
product is formed in `int`: when it overflows the call fails.  With
`nthids ≤ 0` the array `thread_ids[nthids]` has no valid size and
`b->rows / nthids` may divide by zero: the call fails.  The counters are not
touched before the workers run. -/
def run_workers (b : Board) (nthids : Int) (sched : List Nat) (g : Globals) :
    Option Globals :=
  (int_mul b.rows b.cols).bind (fun cells =>
    let g : Globals := ⟨malloc cells, malloc cells, g.curr_death, g.curr_living⟩
    if nthids ≤ 0 then none
    else do
      let range := Int.tdiv b.rows nthids
      let traces ← (int_range 0 nthids).mapM
        (fun i => check_rows (prepare_thread_args b nthids i range))
      (interleave sched traces).foldlM Globals.append g)

/-- Source lines 37-52. -/
def update_board (b : Board) (nthids : Int) (sched : List Nat) (g : Globals) :
    Option (Board × Globals) := do
  let g ← run_workers b nthids sched g
  let b ← update_cells b g.dead g.curr_death g.alive g.curr_living
  some (b, reset_lifes_deaths g)

/-- The call `update_board(b, nthids)` repeated `k` times; generation `t` runs
under the schedule `sched t`. -/
def update_board_times (nthids : Int) (sched : Nat → List Nat) :
    Nat → Board × Globals → Option (Board × Globals)
  | 0, s => some s
  | k + 1, s => do
      let s1 ← update_board_times nthids sched k s
      update_board s1.1 nthids (sched k) s1.2

/-- A board as `make_board` allocates it: `rows` lines of `cols` cells. -/
def Board.WF (b : Board) : Prop :=
  (b.board.length : Int) = b.rows ∧ ∀ line ∈ b.board, (line.length : Int) = b.cols

instance (b : Board) : Decidable b.WF := by
  unfold Board.WF; infer_instance

/-! ## The command line, the board file and `main` -/

/-- How a call ends: it returns a value, the program is terminated by
`exit(EXIT_FAILURE)`, or the behaviour is undefined (an access outside an
object, the use of a variable that was never assigned, an overflow). -/
inductive Run (α : Type) where
  | ok (a : α)
  | exit_failure
  | undefined
deriving DecidableEq, Repr

/-- Sequencing: the first call that does not return ends the run. -/
def Run.bind {α β : Type} (x : Run α) (f : α → Run β) : Run β :=
  match x with
  | Run.ok a => f a
  | Run.exit_failure => Run.exit_failure
  | Run.undefined => Run.undefined

instance : Monad Run where
  pure := Run.ok
  bind := Run.bind

/-- A checked access that fails is undefined behaviour. -/
def Run.ofOption {α : Type} : Option α → Run α
  | some a => Run.ok a
  | none => Run.undefined

/-- The C function `isdigit` on a character of the file or of an argument. -/
def is_digit (c : Char) : Bool := c.isDigit

/-- The C function `isspace`: space, `\t`, `\n`, `\v`, `\f`, `\r`. -/
def is_space (c : Char) : Bool :=
  c = ' ' || c = '\t' || c = '\n' || c = Char.ofNat 11 || c = Char.ofNat 12 || c = '\r'

/-- The string a character buffer holds for the C library: the characters
before the first NUL. -/
def c_str (buf : List Char) : List Char :=
  buf.takeWhile (fun c => c ≠ Char.ofNat 0)

/-- The value of a sequence of decimal digits. -/
def digits_val (ds : List Char) : Int :=
  ds.foldl (fun acc c => acc * 10 + ((c.toNat : Int) - 48)) 0

/-- The conversion `%d` of `sscanf(str, "%d", &num)`: white space is skipped,
then an optional sign and the longest run of decimal digits are converted.
`some none` when nothing is converted (`num` is left as it was), `none` when
the value does not fit an `int` (undefined). -/
def sscanf_d (str : List Char) : Option (Option Int) :=
  let s := str.dropWhile is_space
  let neg : Bool := s.head? = some '-'
  let s := if s.head? = some '-' ∨ s.head? = some '+' then s.tail else s
  let ds := s.takeWhile is_digit
  if ds = [] then some none
  else
    let v := if neg then - digits_val ds else digits_val ds
    if -2147483648 ≤ v ∧ v ≤ 2147483647 then some (some v) else none

/-- The call `strtol(str, NULL, 10)`: like `%d`, with 0 when nothing is
converted and the value clamped to the range of `long` (64 bits). -/
def strtol_10 (str : List Char) : Int :=
  let s := str.dropWhile is_space
  let neg : Bool := s.head? = some '-'
  let s := if s.head? = some '-' ∨ s.head? = some '+' then s.tail else s
  let ds := s.takeWhile is_digit
  let v := if neg then - digits_val ds else digits_val ds
  if v < -9223372036854775808 then -9223372036854775808
  else if v > 9223372036854775807 then 9223372036854775807
  else v

/-- The conversion of a `long` to `int`, reduced modulo `2^32`. -/
def long_to_int (x : Int) : Int :=
  (x + 2147483648) % 4294967296 - 2147483648

/-- The assignment `expected_lines = expected_lines + strtol(...)`: the sum is
formed in `long`, where an overflow is undefined, and converted to `int`. -/
def add_long_to_int (x y : Int) : Run Int :=
  if x + y < -9223372036854775808 ∨ x + y > 9223372036854775807 then Run.undefined
  else Run.ok (long_to_int (x + y))

/-- The tokens `strtok(line, " ")`, `strtok(NULL, " ")`, ... of a string: its
maximal runs of characters other than the space. -/
def strtok_space (s : List Char) : List (List Char) :=
  (s.splitOn ' ').filter (fun t => t ≠ [])

/-- The assignment `line[read-1] = '\0'` on the `read` characters returned by
`getline`: the last character is cut off.  `getline` never returns an empty
line; on one the write would be at index `-1`. -/
def strip_last (ln : List Char) : Option (List Char) :=
  if ln = [] then none else some ln.dropLast

/-- Source lines 339-348.  `num` has no value when `sscanf` converts nothing. -/
def arg_to_int (str : List Char) : Run Int := do
  let scanned ← Run.ofOption (sscanf_d str)
  let num ← Run.ofOption scanned
  if num < 1 ∨ num > 10 then Run.exit_failure
  else pure num

/-- Source lines 261-274, with `usage()` (lines 323-327) ending the program.
`file_exists` is the result of `access(argv[1], F_OK)`. -/
def validate_input (argv : List (List Char)) (file_exists : Bool) : Run Unit :=
  if argv.length ≠ 3 then Run.exit_failure
  else if ¬ (argv.getD 2 []).all is_digit then Run.exit_failure
  else if ¬ file_exists then Run.exit_failure
  else pure ()

/-- Source lines 286-311: the body of the `getline` loop of
`validate_input_file` for the line `ln` read as line number `curr_line`; the
result is the new value of `expected_lines`.  `file_format()` (lines 329-337)
ends the program. -/
def validate_line (curr_line expected_lines : Int) (ln : List Char) : Run Int := do
  let line ← Run.ofOption (strip_last ln)
  if curr_line < 3 ∧ ¬ line.all is_digit then Run.exit_failure
  else do
    let expected_lines ←
      (if curr_line = 3 then add_long_to_int expected_lines (strtol_10 (c_str line))
       else Run.ok expected_lines)
    (if curr_line > 3 ∧
        ¬ (strtok_space (c_str line)).all (fun tok => is_digit (tok.headD ' '))
     then Run.exit_failure
     else pure expected_lines)

/-- Source lines 285-312: the `getline` loop of `validate_input_file` over the
remaining lines of the file; the result is the final `curr_line` and
`expected_lines`. -/
def validate_lines : List (List Char) → Int → Int → Run (Int × Int)
  | [], curr_line, expected_lines => pure (curr_line, expected_lines)
  | ln :: rest, curr_line, expected_lines => do
      let expected_lines ← validate_line curr_line expected_lines ln
      validate_lines rest (curr_line + 1) expected_lines

/-- Source lines 276-321.  The file is given by the lines `getline` returns,
each with its line terminator. -/
def validate_input_file (lines : List (List Char)) : Run Unit := do
  let st ← validate_lines lines 0 4
  if st.1 ≠ st.2 then Run.exit_failure
  else pure ()

/-- The variable `Board board` of `main` while `set_up_board` fills it: a
member is `none` until it is assigned. -/
structure RawBoard where
  rows : Option Int
  cols : Option Int
  iterations : Option Int
  board : Option (List (List Char))
deriving DecidableEq, Repr

/-- Source lines 231-242: `rows` lines of `cols` cells `'-'` (no line for a
negative `rows`, no cell for a negative `cols`).  `malloc` is taken to
succeed. -/
def make_board (b : RawBoard) : Option RawBoard := do
  let rows ← b.rows
  let cols ← b.cols
  some ⟨b.rows, b.cols, b.iterations,
    some (List.replicate rows.toNat (List.replicate cols.toNat '-'))⟩

/-- Source lines 219-229.  `coords` has two elements, unassigned at first;
the number converted from a third token is written outside of it. -/
def set_board_cells (b : RawBoard) (line : List Char) : Option RawBoard := do
  let st ← (strtok_space line).foldlM (fun (st : Int × Option Int × Option Int) tok => do
    let scanned ← sscanf_d tok
    match scanned with
    | none => some (st.1 + 1, st.2.1, st.2.2)
    | some v =>
      if st.1 = 0 then some (st.1 + 1, some v, st.2.2)
      else if st.1 = 1 then some (st.1 + 1, st.2.1, some v)
      else none) ((0 : Int), none, none)
  let x ← st.2.1
  let y ← st.2.2
  let rows ← b.rows
  let cols ← b.cols
  let iterations ← b.iterations
  let grid ← b.board
  let b2 ← board_set ⟨rows, cols, iterations, grid⟩ x y 'X'
  some ⟨b.rows, b.cols, b.iterations, some b2.board⟩

/-- Source lines 194-204: the number on one of the first three lines is stored
in the board.  `num` has no value when `sscanf` converts nothing. -/
def set_up_number (curr_line : Int) (b : RawBoard) (line : List Char) : Option RawBoard := do
  let scanned ← sscanf_d line
  let num ← scanned
  if curr_line = 0 then some ⟨some num, b.cols, b.iterations, b.board⟩
  else if curr_line = 1 then some ⟨b.rows, some num, b.iterations, b.board⟩
  else if curr_line = 2 then some ⟨b.rows, b.cols, some num, b.board⟩
  else some b

/-- Source lines 192-212: the body of the `getline` loop of `set_up_board`. -/
def set_up_line (curr_line : Int) (b : RawBoard) (ln : List Char) : Option RawBoard := do
  let line ← strip_last ln
  let b ← (if curr_line < 3 then set_up_number curr_line b (c_str line) else some b)
  let b ← (if curr_line = 3 then make_board b else some b)
  (if curr_line > 3 then set_board_cells b (c_str line) else some b)

/-- Source lines 191-213: the `getline` loop of `set_up_board`. -/
def set_up_lines : List (List Char) → Int → RawBoard → Option RawBoard
  | [], _, b => some b
  | ln :: rest, curr_line, b => do
      let b ← set_up_line curr_line b ln
      set_up_lines rest (curr_line + 1) b

/-- Source lines 184-217, followed by the first use of the board in `main`:
every member must have been assigned. -/
def set_up_board (lines : List (List Char)) : Option Board := do
  let b ← set_up_lines lines 0 ⟨none, none, none, none⟩
  let rows ← b.rows
  let cols ← b.cols
  let iterations ← b.iterations
  let grid ← b.board
  some ⟨rows, cols, iterations, grid⟩

/-- Source lines 244-252: the text printed for a board. -/
def show_board (b : Board) : Option (List Char) := do
  let out ← for_loop 0 b.rows (fun i out => do
    let out ← for_loop 0 b.cols (fun j out => do
      let c ← board_get b i j
      some (out ++ [c])) out
    some (out ++ ['\n'])) []
  some (out ++ ['\n', '\n'])

/-- Source lines 29-33 of `main`: the generation loop.  The state is the
board, the global variables and the frames printed so far, one per call of
`show_board`; generation `i` runs under the execution order `sched i`.  The
bound `board.iterations` is not assigned by any statement of the loop. -/
def main_loop (board : Board) (ntids : Int) (sched : Nat → List Nat) (g : Globals) :
    Option (Board × Globals × List (List Char)) :=
  for_loop 0 board.iterations (fun i st => do
    let frame ← show_board st.1
    let st2 ← update_board st.1 ntids (sched i.toNat) st.2.1
    some (st2.1, st2.2, st.2.2 ++ [frame])) (board, g, [])

/-- Source lines 23-28 of `main`: the checks and the loading of the board.
`fs` gives, for the name of an existing file, the lines `getline` reads from
it. -/
def main_setup (argv : List (List Char)) (fs : List Char → Option (List (List Char))) :
    Run (Board × Int) := do
  validate_input argv (fs (argv.getD 1 [])).isSome
  let lines ← Run.ofOption (fs (argv.getD 1 []))
  validate_input_file lines
  let ntids ← arg_to_int (argv.getD 2 [])
  let board ← Run.ofOption (set_up_board lines)
  pure (board, ntids)

/-- Source lines 22-35. -/
def main (argv : List (List Char)) (fs : List Char → Option (List (List Char)))
    (sched : Nat → List Nat) : Run (Board × Globals × List (List Char)) := do
  let st ← main_setup argv fs
  Run.ofOption (main_loop st.1 st.2 sched Globals.init)

/-! ## Definitions used to state and prove the properties

None of the definitions below is called by the embedded program; they name
what it computes (the sum behind `calculate_live_neighbors`, the critical
sections of a generation, the content of a buffer) or restate a property in
the words of the specification (`moore_offsets`, `torus_count`). -/

/-- The contribution of one read to the neighbour count: 1 for `'X'`. -/
def live (o : Option Char) : Int := if o = some 'X' then 1 else 0

/-- The sum computed by `calculate_live_neighbors`, read by read. -/
def neighbor_sum (b : Board) (i j : Int) : Int :=
  live (board_get b (safe_wrap (i + 1) b.rows) j)
  + live (board_get b (safe_wrap (i - 1) b.rows) j)
  + live (board_get b i (safe_wrap (j + 1) b.cols))
  + live (board_get b i (safe_wrap (j - 1) b.cols))
  + live (board_get b (safe_wrap (i + 1) b.rows) (safe_wrap (j + 1) b.cols))
  + live (board_get b (safe_wrap (i + 1) b.rows) (safe_wrap (j - 1) b.cols))
  + live (board_get b (safe_wrap (i - 1) b.rows) (safe_wrap (j + 1) b.cols))
  + live (board_get b (safe_wrap (i - 1) b.rows) (safe_wrap (j - 1) b.cols))

/-- The critical sections executed for the cell `(i, j)`. -/
def cell_events (b : Board) (i j : Int) : List Append :=
  record_cell ((board_get b i j).getD '-') (neighbor_sum b i j) (make_point i j)

/-- The critical sections executed for row `i`, in column order. -/
def row_events (b : Board) (i : Int) : List Append :=
  (int_range 0 b.cols).flatMap (cell_events b i)

/-- The critical sections executed for all rows, in row order. -/
def board_events (b : Board) : List Append :=
  (int_range 0 b.rows).flatMap (row_events b)

/-- The argument record handed to worker `i` by `update_board`
(source lines 42-44). -/
def thread_args (b : Board) (nthids i : Int) : Range :=
  prepare_thread_args b nthids i (Int.tdiv b.rows nthids)

/-- The rows visited by worker `i`, in order. -/
def worker_rows (b : Board) (nthids i : Int) : List Int :=
  int_range (thread_args b nthids i).min_i (thread_args b nthids i).max_i

/-- The traces of the workers, in worker order. -/
def worker_traces (b : Board) (nthids : Int) : List (List Append) :=
  (int_range 0 nthids).map (fun i => (worker_rows b nthids i).flatMap (row_events b))

/-- The points appended to `dead` by a sequence of critical sections. -/
def dead_points (l : List Append) : List Point :=
  l.filterMap (fun e => match e with
    | Append.dead p => some p
    | Append.alive _ => none)

/-- The points appended to `alive` by a sequence of critical sections. -/
def alive_points (l : List Append) : List Point :=
  l.filterMap (fun e => match e with
    | Append.dead _ => none
    | Append.alive p => some p)

/-- A buffer whose first elements are the points `pts` and whose `k` remaining
elements were never written. -/
def buffer (pts : List Point) (k : Nat) : List (Option Point) :=
  pts.map some ++ List.replicate k none

/-- Writing `status` at each of the points, in order. -/
def write_points (status : Char) (pts : List Point) (b : Board) : Option Board :=
  pts.foldlM (fun b p => board_set b p.row p.col status) b

/-- The cell named by a critical section. -/
def Append.point : Append → Point
  | Append.dead p => p
  | Append.alive p => p

/-- The character a cell holds after a generation, given the character `c` it
held and its number `k` of live neighbours. -/
def next_char (c : Char) (k : Int) : Char :=
  if c = 'X' then (if k < 2 ∨ k > 3 then '-' else 'X')
  else (if k = 3 then 'X' else c)

/-- The content of cell `(i, j)` after a generation of board `b`. -/
def next_cell (b : Board) (i j : Int) : Option Char :=
  (board_get b i j).map (fun c => next_char c (neighbor_sum b i j))

/-- A 3x3 board whose middle row is alive. -/
def board_row3 : Board :=
  ⟨3, 3, 2, [['-', '-', '-'], ['X', 'X', 'X'], ['-', '-', '-']]⟩

/-- The 3x3 board with all cells dead. -/
def board_dead3 : Board :=
  ⟨3, 3, 2, [['-', '-', '-'], ['-', '-', '-'], ['-', '-', '-']]⟩

/-- The 3x3 board whose only live cell is `(0, 0)`. -/
def board_corner3 : Board :=
  ⟨3, 3, 2, [['X', '-', '-'], ['-', '-', '-'], ['-', '-', '-']]⟩

/-- The specification's Moore neighbourhood: the offsets `(di, dj)` in
`{-1,0,1} x {-1,0,1}` other than `(0, 0)`. -/
def moore_offsets : List (Int × Int) :=
  (List.product [-1, 0, 1] [-1, 0, 1]).filter (fun d => d ≠ (0, 0))

/-- The specification's neighbour count: the number of offsets whose cell,
with both coordinates reduced modulo the board size, is alive.  It is written
from the specification, not from `calculate_live_neighbors`. -/
def torus_count (b : Board) (row col : Int) : Int :=
  ((moore_offsets.countP (fun d =>
    board_get b ((row + d.1) % b.rows) ((col + d.2) % b.cols) = some 'X') : Nat) : Int)

/-- The cells evaluated by the `nthids` workers, worker by worker, each worker
going through its rows and all columns. -/
def visited_cells (b : Board) (nthids : Int) : List Point :=
  (int_range 0 nthids).flatMap (fun k =>
    (int_range (prepare_thread_args b nthids k (Int.tdiv b.rows nthids)).min_i
      (prepare_thread_args b nthids k (Int.tdiv b.rows nthids)).max_i).flatMap (fun i =>
        (int_range 0 b.cols).map (fun j => make_point i j)))

/-- The number 1 if `p` holds and 0 otherwise. -/
def ind (p : Prop) [Decidable p] : Int := if p then 1 else 0

/-- A 4x4 board with a 2x2 block at rows 1-2, columns 1-2. -/
def board_block4 : Board :=
  ⟨4, 4, 3, [['-', '-', '-', '-'], ['-', 'X', 'X', '-'], ['-', 'X', 'X', '-'],
    ['-', '-', '-', '-']]⟩

/-- A 4x5 board with a flat blinker in row 1, columns 1-3. -/
def board_blinker45 : Board :=
  ⟨4, 5, 2, [['-', '-', '-', '-', '-'], ['-', 'X', 'X', 'X', '-'], ['-', '-', '-', '-', '-'],
    ['-', '-', '-', '-', '-']]⟩

/-- The text of a string literal, as a list of characters. -/
def txt (s : String) : List Char := s.toList

/-- The character of the decimal digit `d`. -/
def digit_char (d : Nat) : Char := Char.ofNat (48 + d)

/-- The decimal numeral of a natural number. -/
def decimal_nat (n : Nat) : List Char :=
  if n = 0 then ['0'] else (Nat.digits 10 n).reverse.map digit_char

/-- The decimal numeral of an integer, as a command line argument spells it. -/
def decimal (n : Int) : List Char :=
  if n < 0 then '-' :: decimal_nat n.natAbs else decimal_nat n.toNat

/-- The board under construction once `make_board` has run: all members are
assigned and the grid is well formed. -/
def RawBoard.Built (b : RawBoard) (rows cols iterations : Int) : Prop :=
  ∃ grid, b = ⟨some rows, some cols, some iterations, some grid⟩ ∧
    (⟨rows, cols, iterations, grid⟩ : Board).WF

/-- The eight positions read by `calculate_live_neighbors` for the cell
`(i, j)`, in source order. -/
def neighbor_positions (b : Board) (i j : Int) : List Point :=
  [⟨safe_wrap (i + 1) b.rows, j⟩, ⟨safe_wrap (i - 1) b.rows, j⟩,
   ⟨i, safe_wrap (j + 1) b.cols⟩, ⟨i, safe_wrap (j - 1) b.cols⟩,
   ⟨safe_wrap (i + 1) b.rows, safe_wrap (j + 1) b.cols⟩,
   ⟨safe_wrap (i + 1) b.rows, safe_wrap (j - 1) b.cols⟩,
   ⟨safe_wrap (i - 1) b.rows, safe_wrap (j + 1) b.cols⟩,
   ⟨safe_wrap (i - 1) b.rows, safe_wrap (j - 1) b.cols⟩]

/-- A 1x3 board with one live cell. -/
def board_line3 : Board := ⟨1, 3, 1, [['X', '-', '-']]⟩

/-- The toroidal translation of a board by `(dr, dc)`: the cell `(i, j)` of the
result holds what the cell `((i - dr) mod rows, (j - dc) mod cols)` of `b`
holds.  It is not a function of the program; it states the symmetry of the
generation step. -/
def shift (dr dc : Int) (b : Board) : Board :=
  ⟨b.rows, b.cols, b.iterations,
    (int_range 0 b.rows).map (fun i => (int_range 0 b.cols).map (fun j =>
      (board_get b ((i - dr) % b.rows) ((j - dc) % b.cols)).getD '-'))⟩

/-- The board of `rows x cols` cells on which the cell `(i, j)` holds `'X'`
when `alive i j` and `'-'` otherwise.  It names a board too large to be listed
cell by cell. -/
def board_of (rows cols iterations : Int) (alive : Int → Int → Bool) : Board :=
  ⟨rows, cols, iterations,
    (int_range 0 rows).map (fun i => (int_range 0 cols).map (fun j =>
      if alive i j then 'X' else '-'))⟩

/-- A board of 46341 x 46341 cells, `2147488281` in all, one more row and
column than an `int` can count, whose only live cell is `(0, 0)`; one
generation is asked for. -/
def board_large : Board :=
  board_of 46341 46341 1 (fun i j => decide (i = 0 ∧ j = 0))

/-- A board of 9 rows and 238609295 columns, `2147483655` cells, whose only
live cell is `(0, 0)`: fewer rows than the ten workers `arg_to_int` allows. -/
def board_wide : Board :=
  board_of 9 238609295 1 (fun i j => decide (i = 0 ∧ j = 0))

/-- The board file that describes `board_large`: the lines `getline` reads
from a file holding rows, cols, iterations, the number of coordinate pairs and
the pair `0 0`. -/
def file_large : List (List Char) :=
  [txt "46341\n", txt "46341\n", txt "1\n", txt "1\n", txt "0 0\n"]

/-- The 46341 x 46341 board whose live cells are the 2x2 block at `(0, 0)`. -/
def board_large_block : Board :=
  board_of 46341 46341 1 (fun i j => decide ((i = 0 ∨ i = 0 + 1) ∧ (j = 0 ∨ j = 0 + 1)))

/-- The 46341 x 46341 board whose live cells are `(0,0)`, `(0,1)`, `(0,2)`. -/
def board_large_blinker : Board :=
  board_of 46341 46341 1 (fun i j => decide (i = 0 ∧ (0 ≤ j ∧ j ≤ 0 + 2)))

/-! # Lemmas -/

/-! ## Memory access lemmas -/

theorem arr_get_natCast {α : Type} (a : List α) (k : Nat) : arr_get a (k : Int) = a[k]? := by
  simp [arr_get]

theorem arr_get_of_nonneg {α : Type} (a : List α) (i : Int) (h : 0 ≤ i) :
    arr_get a i = a[i.toNat]? := by
  simp [arr_get, h]

theorem arr_get_neg {α : Type} (a : List α) (i : Int) (h : i < 0) : arr_get a i = none := by
  simp [arr_get, h]

theorem board_get_natCast (b : Board) (k m : Nat) :
    board_get b (k : Int) (m : Int) = (b.board[k]?).bind (fun ln => ln[m]?) := by
  simp only [board_get, arr_get_natCast]
  rfl

/-- In range, the read of a well-formed board succeeds. -/
theorem board_get_isSome (b : Board) (hwf : b.WF) (i j : Int)
    (hi0 : 0 ≤ i) (hi : i < b.rows) (hj0 : 0 ≤ j) (hj : j < b.cols) :
    ∃ c, board_get b i j = some c := by
  obtain ⟨hlen, hline⟩ := hwf
  have hk : i.toNat < b.board.length := by omega
  have hmem : b.board[i.toNat] ∈ b.board := List.getElem_mem hk
  have hm : j.toNat < (b.board[i.toNat]).length := by
    have := hline _ hmem
    omega
  refine ⟨(b.board[i.toNat])[j.toNat], ?_⟩
  simp [board_get, arr_get, hi0, hj0, List.getElem?_eq_getElem hk, List.getElem?_eq_getElem hm]

/-- Out of range, the read of a well-formed board fails. -/
theorem board_get_none (b : Board) (hwf : b.WF) (i j : Int)
    (h : ¬ (0 ≤ i ∧ i < b.rows ∧ 0 ≤ j ∧ j < b.cols)) :
    board_get b i j = none := by
  obtain ⟨hlen, hline⟩ := hwf
  by_cases hi0 : 0 ≤ i
  · by_cases hi : i < b.rows
    · have hk : i.toNat < b.board.length := by omega
      have hmem : b.board[i.toNat] ∈ b.board := List.getElem_mem hk
      have hl := hline _ hmem
      simp only [board_get, arr_get, hi0, if_true, List.getElem?_eq_getElem hk, Option.bind_eq_bind,
        Option.some_bind]
      by_cases hj0 : 0 ≤ j
      · have : (b.board[i.toNat]).length ≤ j.toNat := by omega
        simp [hj0, List.getElem?_eq_none this]
      · simp [hj0]
    · have : b.board.length ≤ i.toNat := by omega
      simp [board_get, arr_get, hi0, List.getElem?_eq_none this]
  · simp [board_get, arr_get, hi0]

/-- Two well-formed boards of the same size with the same cells are equal. -/
theorem board_ext (b b2 : Board) (hwf : b.WF) (hwf2 : b2.WF)
    (hr : b2.rows = b.rows) (hc : b2.cols = b.cols) (hit : b2.iterations = b.iterations)
    (hcell : ∀ i j : Int, 0 ≤ i → i < b.rows → 0 ≤ j → j < b.cols →
      board_get b2 i j = board_get b i j) : b2 = b := by
  obtain ⟨hlen, hline⟩ := hwf
  obtain ⟨hlen2, hline2⟩ := hwf2
  cases b with
  | mk rows cols iters grid =>
  cases b2 with
  | mk rows2 cols2 iters2 grid2 =>
  simp only at hr hc hit hlen hline hlen2 hline2 hcell
  subst hr hc hit
  congr 1
  apply List.ext_getElem?
  intro k
  by_cases hk : k < grid.length
  · have hk2 : k < grid2.length := by omega
    rw [List.getElem?_eq_getElem hk, List.getElem?_eq_getElem hk2]
    congr 1
    apply List.ext_getElem?
    intro m
    have hl := hline _ (List.getElem_mem hk)
    have hl2 := hline2 _ (List.getElem_mem hk2)
    by_cases hm : m < (grid[k]).length
    · have := hcell (k : Int) (m : Int) (by omega) (by omega) (by omega) (by omega)
      simpa [board_get_natCast, List.getElem?_eq_getElem hk, List.getElem?_eq_getElem hk2] using this
    · rw [List.getElem?_eq_none (by omega), List.getElem?_eq_none (by omega)]
  · rw [List.getElem?_eq_none (by omega), List.getElem?_eq_none (by omega)]

/-- The effect of one in-range write on a well-formed board. -/
theorem board_set_spec (b : Board) (hwf : b.WF) (i j : Int) (status : Char)
    (hi0 : 0 ≤ i) (hi : i < b.rows) (hj0 : 0 ≤ j) (hj : j < b.cols) :
    ∃ b2, board_set b i j status = some b2 ∧ b2.WF ∧ b2.rows = b.rows ∧ b2.cols = b.cols ∧
      b2.iterations = b.iterations ∧
      ∀ i2 j2 : Int, board_get b2 i2 j2 =
        if i2 = i ∧ j2 = j then some status else board_get b i2 j2 := by
  obtain ⟨hlen, hline⟩ := hwf
  have hk : i.toNat < b.board.length := by omega
  have hmem : b.board[i.toNat] ∈ b.board := List.getElem_mem hk
  have hl := hline _ hmem
  have hm : j.toNat < (b.board[i.toNat]).length := by omega
  have hjlt : j < ((b.board[i.toNat]).length : Int) := by omega
  have hilt : i < (b.board.length : Int) := by omega
  refine ⟨⟨b.rows, b.cols, b.iterations,
    b.board.set i.toNat ((b.board[i.toNat]).set j.toNat status)⟩, ?_, ?_, rfl, rfl, rfl, ?_⟩
  · simp [board_set, arr_get, arr_set, hi0, hj0, List.getElem?_eq_getElem hk, hjlt, hilt]
  · refine ⟨by simpa using hlen, ?_⟩
    intro line hin
    rcases List.mem_or_eq_of_mem_set hin with h | h
    · exact hline _ h
    · subst h
      simpa using hl
  · intro i2 j2
    by_cases hi2 : 0 ≤ i2
    · by_cases hj2 : 0 ≤ j2
      · simp only [board_get, arr_get, hi2, hj2, if_true, Option.bind_eq_bind]
        by_cases hii : i2 = i
        · subst hii
          rw [List.getElem?_set_self hk, List.getElem?_eq_getElem hk]
          simp only [Option.some_bind, true_and]
          by_cases hjj : j2 = j
          · subst hjj
            simp [List.getElem?_set_self hm]
          · have : j.toNat ≠ j2.toNat := by omega
            simp [hjj, List.getElem?_set_ne this]
        · have : i.toNat ≠ i2.toNat := by omega
          simp [hii, List.getElem?_set_ne this]
      · have : ¬ (j2 = j) := by omega
        simp [board_get, arr_get, hj2, this]
    · have : ¬ (i2 = i) := by omega
      simp [board_get, arr_get, hi2, this]

/-! ## Toroidal wrapping and neighbour counting -/

theorem safe_wrap_range (i max_i : Int) (hmax : 1 ≤ max_i) (_hlo : -1 ≤ i) (_hhi : i ≤ max_i) :
    0 ≤ safe_wrap i max_i ∧ safe_wrap i max_i < max_i := by
  unfold safe_wrap
  split_ifs <;> omega

theorem safe_wrap_eq_emod (i max_i : Int) (hmax : 1 ≤ max_i) (hlo : -1 ≤ i) (hhi : i ≤ max_i) :
    safe_wrap i max_i = i % max_i := by
  unfold safe_wrap
  split_ifs with h1 h2
  · have hi : i = (max_i - 1) + (-1) * max_i := by omega
    rw [hi, Int.add_mul_emod_self, Int.emod_eq_of_lt (by omega) (by omega)]
  · have hi : i = max_i := by omega
    rw [hi, Int.emod_self]
  · rw [Int.emod_eq_of_lt (by omega) (by omega)]

theorem live_range (o : Option Char) : 0 ≤ live o ∧ live o ≤ 1 := by
  unfold live; split_ifs <;> omega

theorem ite_live (c : Char) (n : Int) :
    (if c = 'X' then n + 1 else n) = n + live (some c) := by
  unfold live
  by_cases h : c = 'X' <;> simp [h]

theorem ite_live_zero (c : Char) : (if c = 'X' then (1 : Int) else 0) = live (some c) := by
  unfold live
  by_cases h : c = 'X' <;> simp [h]

theorem neighbor_sum_range (b : Board) (i j : Int) :
    0 ≤ neighbor_sum b i j ∧ neighbor_sum b i j ≤ 8 := by
  unfold neighbor_sum
  have h1 := live_range (board_get b (safe_wrap (i + 1) b.rows) j)
  have h2 := live_range (board_get b (safe_wrap (i - 1) b.rows) j)
  have h3 := live_range (board_get b i (safe_wrap (j + 1) b.cols))
  have h4 := live_range (board_get b i (safe_wrap (j - 1) b.cols))
  have h5 := live_range (board_get b (safe_wrap (i + 1) b.rows) (safe_wrap (j + 1) b.cols))
  have h6 := live_range (board_get b (safe_wrap (i + 1) b.rows) (safe_wrap (j - 1) b.cols))
  have h7 := live_range (board_get b (safe_wrap (i - 1) b.rows) (safe_wrap (j + 1) b.cols))
  have h8 := live_range (board_get b (safe_wrap (i - 1) b.rows) (safe_wrap (j - 1) b.cols))
  omega

/-- On a well-formed board every read of `calculate_live_neighbors` at an
in-range cell is in bounds, and the function returns `neighbor_sum`. -/
theorem calculate_live_neighbors_eq (b : Board) (hwf : b.WF) (hr : 1 ≤ b.rows) (hc : 1 ≤ b.cols)
    (i j : Int) (hi0 : 0 ≤ i) (hi : i < b.rows) (hj0 : 0 ≤ j) (hj : j < b.cols) :
    calculate_live_neighbors b i j = some (neighbor_sum b i j) := by
  have ip := safe_wrap_range (i + 1) b.rows hr (by omega) (by omega)
  have im := safe_wrap_range (i - 1) b.rows hr (by omega) (by omega)
  have jp := safe_wrap_range (j + 1) b.cols hc (by omega) (by omega)
  have jm := safe_wrap_range (j - 1) b.cols hc (by omega) (by omega)
  obtain ⟨c1, h1⟩ := board_get_isSome b hwf _ j ip.1 ip.2 hj0 hj
  obtain ⟨c2, h2⟩ := board_get_isSome b hwf _ j im.1 im.2 hj0 hj
  obtain ⟨c3, h3⟩ := board_get_isSome b hwf i _ hi0 hi jp.1 jp.2
  obtain ⟨c4, h4⟩ := board_get_isSome b hwf i _ hi0 hi jm.1 jm.2
  obtain ⟨c5, h5⟩ := board_get_isSome b hwf _ _ ip.1 ip.2 jp.1 jp.2
  obtain ⟨c6, h6⟩ := board_get_isSome b hwf _ _ ip.1 ip.2 jm.1 jm.2
  obtain ⟨c7, h7⟩ := board_get_isSome b hwf _ _ im.1 im.2 jp.1 jp.2
  obtain ⟨c8, h8⟩ := board_get_isSome b hwf _ _ im.1 im.2 jm.1 jm.2
  simp only [calculate_live_neighbors, neighbor_sum, h1, h2, h3, h4, h5, h6, h7, h8,
    Option.bind_eq_bind, Option.some_bind, ite_live, ite_live_zero, zero_add]

/-! ## Counted loops -/

theorem mem_int_range (lo hi x : Int) : x ∈ int_range lo hi ↔ lo ≤ x ∧ x < hi := by
  simp only [int_range, List.mem_map, List.mem_range]
  constructor
  · rintro ⟨k, hk, rfl⟩
    omega
  · rintro ⟨h1, h2⟩
    exact ⟨(x - lo).toNat, by omega, by omega⟩

theorem int_range_length (lo hi : Int) : (int_range lo hi).length = (hi - lo).toNat := by
  simp [int_range]

theorem int_range_empty (lo hi : Int) (h : hi ≤ lo) : int_range lo hi = [] := by
  have : (hi - lo).toNat = 0 := by omega
  simp [int_range, this]

theorem int_range_succ_right (lo hi : Int) (h : lo ≤ hi) :
    int_range lo (hi + 1) = int_range lo hi ++ [hi] := by
  have h1 : (hi + 1 - lo).toNat = (hi - lo).toNat + 1 := by omega
  have h2 : lo + ((hi - lo).toNat : Int) = hi := by omega
  simp only [int_range, h1, List.range_succ, List.map_append, List.map_cons, List.map_nil, h2]

theorem int_range_append (lo mid hi : Int) (h1 : lo ≤ mid) (h2 : mid ≤ hi) :
    int_range lo mid ++ int_range mid hi = int_range lo hi := by
  obtain ⟨n, rfl⟩ : ∃ n : Nat, hi = mid + n := ⟨(hi - mid).toNat, by omega⟩
  induction n with
  | zero => simp [int_range_empty mid mid (le_refl _)]
  | succ n ih =>
    have e : mid + ((n + 1 : Nat) : Int) = (mid + n) + 1 := by push_cast; ring
    rw [e, int_range_succ_right mid _ (by omega), int_range_succ_right lo _ (by omega),
      ← List.append_assoc, ih (by omega)]

theorem int_range_cons (lo hi : Int) (h : lo < hi) :
    int_range lo hi = lo :: int_range (lo + 1) hi := by
  rw [← int_range_append lo (lo + 1) hi (by omega) (by omega)]
  have : int_range lo (lo + 1) = [lo] := by
    rw [int_range_succ_right lo lo (le_refl _), int_range_empty lo lo (le_refl _)]
    rfl
  rw [this]
  rfl

theorem int_range_nodup (lo hi : Int) : (int_range lo hi).Nodup := by
  unfold int_range
  apply List.Nodup.map _ (List.nodup_range _)
  intro a b hab
  simpa using hab

/-- A loop whose iteration `i` appends `f i` to the state appends the
concatenation of the `f i`, in order. -/
theorem int_range_getElem? (lo hi : Int) (k : Nat) (h : (k : Int) < hi - lo) :
    (int_range lo hi)[k]? = some (lo + k) := by
  unfold int_range
  rw [List.getElem?_map, List.getElem?_range (by omega)]
  rfl

theorem for_loop_trace {τ : Type} (lo hi : Int) (body : Int → List τ → Option (List τ))
    (f : Int → List τ)
    (h : ∀ i, lo ≤ i → i < hi → ∀ tr, body i tr = some (tr ++ f i)) (tr : List τ) :
    for_loop lo hi body tr = some (tr ++ (int_range lo hi).flatMap f) := by
  unfold for_loop
  have hl : ∀ i ∈ int_range lo hi, ∀ tr, body i tr = some (tr ++ f i) := by
    intro i hi2 tr
    rw [mem_int_range] at hi2
    exact h i hi2.1 hi2.2 tr
  generalize int_range lo hi = l at hl
  induction l generalizing tr with
  | nil => simp
  | cons a l ih =>
    rw [List.foldlM_cons, hl a (List.mem_cons_self _ _) tr]
    simp only [Option.bind_eq_bind, Option.some_bind, List.flatMap_cons]
    rw [ih _ (fun i hi2 => hl i (List.mem_cons_of_mem _ hi2)), List.append_assoc]

/-! ## The trace of a worker -/

theorem check_rows_eq (b : Board) (hwf : b.WF) (hr : 1 ≤ b.rows) (hc : 1 ≤ b.cols)
    (lo hi : Int) (hlo : 0 ≤ lo) (hhi : hi ≤ b.rows) :
    check_rows ⟨b, lo, hi⟩ = some ((int_range lo hi).flatMap (row_events b)) := by
  unfold check_rows
  simp only
  rw [for_loop_trace lo hi _ (row_events b)]
  · simp
  · intro i hi0 hi1 tr
    rw [for_loop_trace 0 b.cols _ (cell_events b i)]
    · rfl
    · intro j hj0 hj1 tr2
      obtain ⟨c, hcell⟩ := board_get_isSome b hwf i j (by omega) (by omega) hj0 hj1
      rw [calculate_live_neighbors_eq b hwf hr hc i j (by omega) (by omega) hj0 hj1]
      simp [cell_events, hcell]

/-! ## The row ranges of the workers -/

theorem tdiv_facts (rows n : Int) (hr : 0 ≤ rows) (hn : 1 ≤ n) :
    0 ≤ Int.tdiv rows n ∧ Int.tdiv rows n * n ≤ rows ∧ rows < (Int.tdiv rows n + 1) * n := by
  rw [Int.tdiv_eq_ediv hr (by omega)]
  exact ⟨Int.ediv_nonneg hr (by omega), Int.ediv_mul_le _ (by omega),
    Int.lt_ediv_add_one_mul_self _ (by omega)⟩

theorem thread_args_b (b : Board) (n i : Int) : (thread_args b n i).b = b := by
  unfold thread_args prepare_thread_args
  split_ifs <;> rfl

theorem thread_args_min (b : Board) (n i : Int) :
    (thread_args b n i).min_i = i * Int.tdiv b.rows n := by
  unfold thread_args prepare_thread_args
  split_ifs <;> rfl

theorem thread_args_max_last (b : Board) (n : Int) :
    (thread_args b n (n - 1)).max_i = b.rows := by
  simp [thread_args, prepare_thread_args]

theorem thread_args_max_other (b : Board) (n i : Int) (h : i ≠ n - 1) :
    (thread_args b n i).max_i = i * Int.tdiv b.rows n + Int.tdiv b.rows n := by
  simp [thread_args, prepare_thread_args, h]

/-- The start of every worker's range is inside `[0, rows]`, and so is its end. -/
theorem thread_args_bounds (b : Board) (n : Int) (hr : 0 ≤ b.rows) (hn : 1 ≤ n)
    (i : Int) (hi0 : 0 ≤ i) (hi : i < n) :
    0 ≤ (thread_args b n i).min_i ∧ (thread_args b n i).min_i ≤ (thread_args b n i).max_i ∧
      (thread_args b n i).max_i ≤ b.rows := by
  obtain ⟨h0, h1, _⟩ := tdiv_facts b.rows n hr hn
  rw [thread_args_min]
  have hmul : i * Int.tdiv b.rows n ≤ (n - 1) * Int.tdiv b.rows n :=
    Int.mul_le_mul_of_nonneg_right (by omega) h0
  have hpos : 0 ≤ i * Int.tdiv b.rows n := Int.mul_nonneg hi0 h0
  have e : (n - 1) * Int.tdiv b.rows n = Int.tdiv b.rows n * n - Int.tdiv b.rows n := by ring
  by_cases hl : i = n - 1
  · subst hl
    rw [thread_args_max_last]
    omega
  · rw [thread_args_max_other b n i hl]
    have hmul2 : (i + 1) * Int.tdiv b.rows n ≤ (n - 1) * Int.tdiv b.rows n :=
      Int.mul_le_mul_of_nonneg_right (by omega) h0
    have e2 : (i + 1) * Int.tdiv b.rows n = i * Int.tdiv b.rows n + Int.tdiv b.rows n := by ring
    omega

/-- The rows of the first `m` workers, none of them the last, are the rows
below `m * range`. -/
theorem worker_rows_initial (b : Board) (n : Int) (hr : 0 ≤ b.rows) (hn : 1 ≤ n)
    (m : Nat) (hm : (m : Int) ≤ n - 1) :
    (int_range 0 m).flatMap (worker_rows b n) = int_range 0 (m * Int.tdiv b.rows n) := by
  obtain ⟨h0, _, _⟩ := tdiv_facts b.rows n hr hn
  induction m with
  | zero => simp [int_range_empty]
  | succ m ih =>
    have e : ((m + 1 : Nat) : Int) = (m : Int) + 1 := by push_cast; ring
    rw [e, int_range_succ_right 0 m (by omega), List.flatMap_append, ih (by omega),
      List.flatMap_singleton]
    unfold worker_rows
    rw [thread_args_min, thread_args_max_other b n m (by omega)]
    have hpos : 0 ≤ (m : Int) * Int.tdiv b.rows n := Int.mul_nonneg (by omega) h0
    have e2 : ((m : Int) + 1) * Int.tdiv b.rows n = m * Int.tdiv b.rows n + Int.tdiv b.rows n := by
      ring
    rw [e2]
    exact int_range_append 0 _ _ hpos (by omega)

/-- Visiting the workers' ranges in worker order visits every row of the board
exactly once, in increasing order. -/
theorem worker_rows_partition (b : Board) (n : Int) (hr : 0 ≤ b.rows) (hn : 1 ≤ n) :
    (int_range 0 n).flatMap (worker_rows b n) = int_range 0 b.rows := by
  obtain ⟨m, hm⟩ : ∃ m : Nat, n = (m : Int) + 1 := ⟨(n - 1).toNat, by omega⟩
  have hb := thread_args_bounds b n hr hn (n - 1) (by omega) (by omega)
  rw [thread_args_min, thread_args_max_last] at hb
  have hlast : worker_rows b n (n - 1) = int_range ((n - 1) * Int.tdiv b.rows n) b.rows := by
    unfold worker_rows
    rw [thread_args_min, thread_args_max_last]
  have hn1 : n - 1 = (m : Int) := by omega
  have hsplit : int_range 0 n = int_range 0 m ++ [(m : Int)] := by
    rw [hm]
    exact int_range_succ_right 0 m (by omega)
  rw [hsplit, List.flatMap_append,
    worker_rows_initial b n hr hn m (by omega), List.flatMap_singleton, ← hn1, hlast]
  exact int_range_append 0 _ _ hb.1 hb.2.1

theorem mapM_eq_some_map {α β : Type} (f : α → Option β) (g : α → β) (l : List α)
    (h : ∀ x ∈ l, f x = some (g x)) : l.mapM f = some (l.map g) := by
  induction l with
  | nil => rfl
  | cons a l ih =>
    rw [List.mapM_cons, h a (List.mem_cons_self _ _),
      ih (fun x hx => h x (List.mem_cons_of_mem _ hx))]
    rfl

theorem check_rows_workers (b : Board) (hwf : b.WF) (hr : 1 ≤ b.rows) (hc : 1 ≤ b.cols)
    (n : Int) (hn : 1 ≤ n) :
    (int_range 0 n).mapM (fun i => check_rows (prepare_thread_args b n i (Int.tdiv b.rows n)))
      = some (worker_traces b n) := by
  apply mapM_eq_some_map
  intro i hi
  rw [mem_int_range] at hi
  have hb := thread_args_bounds b n (by omega) hn i hi.1 hi.2
  have := check_rows_eq b hwf hr hc (thread_args b n i).min_i (thread_args b n i).max_i
    hb.1 hb.2.2
  have heta : prepare_thread_args b n i (Int.tdiv b.rows n)
      = ⟨b, (thread_args b n i).min_i, (thread_args b n i).max_i⟩ := by
    unfold thread_args prepare_thread_args
    split_ifs <;> rfl
  rw [heta]
  exact this

theorem flatMap_congr_mem {α β : Type} (l : List α) (f g : α → List β)
    (h : ∀ a ∈ l, f a = g a) : l.flatMap f = l.flatMap g := by
  induction l with
  | nil => rfl
  | cons a l ih =>
    rw [List.flatMap_cons, List.flatMap_cons, h a (List.mem_cons_self _ _),
      ih (fun x hx => h x (List.mem_cons_of_mem _ hx))]

theorem flatMap_map_eq {α β γ : Type} (l : List α) (f : α → β) (g : β → List γ) :
    (l.map f).flatMap g = l.flatMap (fun a => g (f a)) := by
  induction l with
  | nil => rfl
  | cons a l ih => rw [List.map_cons, List.flatMap_cons, List.flatMap_cons, ih]

theorem worker_traces_flatten (b : Board) (n : Int) (hr : 0 ≤ b.rows) (hn : 1 ≤ n) :
    (worker_traces b n).flatten = board_events b := by
  unfold worker_traces board_events
  rw [← List.flatMap_def, ← List.flatMap_assoc, worker_rows_partition b n hr hn]

/-! ## Interleavings -/

theorem flatten_set_perm {τ : Type} (traces : List (List τ)) (k : Nat) (e : τ) (rest : List τ)
    (h : traces[k]? = some (e :: rest)) :
    (e :: (traces.set k rest).flatten).Perm traces.flatten := by
  induction traces generalizing k with
  | nil => simp at h
  | cons t ts ih =>
    cases k with
    | zero =>
      simp only [List.getElem?_cons_zero, Option.some.injEq] at h
      subst h
      simp
    | succ k =>
      simp only [List.getElem?_cons_succ] at h
      simp only [List.set_cons_succ, List.flatten_cons]
      exact (List.perm_middle.symm).trans (List.Perm.append_left t (ih k h))

/-- Every execution order is a rearrangement of the workers' traces. -/
theorem interleave_perm (sched : List Nat) (traces : List (List Append)) :
    (interleave sched traces).Perm traces.flatten := by
  induction sched generalizing traces with
  | nil => exact List.Perm.refl _
  | cons k ks ih =>
    unfold interleave
    split
    · next e rest h =>
      exact ((ih _).cons e).trans (flatten_set_perm traces k e rest h)
    · exact ih traces

/-! ## Filling the buffers -/

theorem mem_dead_points (l : List Append) (p : Point) :
    p ∈ dead_points l ↔ Append.dead p ∈ l := by
  unfold dead_points
  rw [List.mem_filterMap]
  constructor
  · rintro ⟨e, he, h⟩
    cases e with
    | dead q => simp only [Option.some.injEq] at h; subst h; exact he
    | alive q => simp at h
  · intro h
    exact ⟨_, h, rfl⟩

theorem mem_alive_points (l : List Append) (p : Point) :
    p ∈ alive_points l ↔ Append.alive p ∈ l := by
  unfold alive_points
  rw [List.mem_filterMap]
  constructor
  · rintro ⟨e, he, h⟩
    cases e with
    | dead q => simp at h
    | alive q => simp only [Option.some.injEq] at h; subst h; exact he
  · intro h
    exact ⟨_, h, rfl⟩

theorem buffer_push (pts : List Point) (k : Nat) (p : Point) :
    arr_set (buffer pts (k + 1)) (pts.length : Int) (some p) = some (buffer (pts ++ [p]) k) := by
  unfold arr_set buffer
  have h : (0 : Int) ≤ (pts.length : Int) ∧
      (pts.length : Int) < ((List.map some pts ++ List.replicate (k + 1) none).length : Int) := by
    simp only [List.length_append, List.length_map, List.length_replicate]
    omega
  rw [if_pos h]
  congr 1
  simp [List.set_append, List.replicate_succ]

/-- Starting from buffers with enough unwritten room, a sequence of critical
sections succeeds and appends its points to the two buffers. -/
theorem run_appends (l : List Append) (ds as : List Point) (kd ka : Nat)
    (hd : (dead_points l).length ≤ kd) (ha : (alive_points l).length ≤ ka) :
    l.foldlM Globals.append ⟨buffer ds kd, buffer as ka, ds.length, as.length⟩
      = some ⟨buffer (ds ++ dead_points l) (kd - (dead_points l).length),
          buffer (as ++ alive_points l) (ka - (alive_points l).length),
          ((ds ++ dead_points l).length : Int), ((as ++ alive_points l).length : Int)⟩ := by
  induction l generalizing ds as kd ka with
  | nil => simp [dead_points, alive_points]
  | cons e l ih =>
    cases e with
    | dead p =>
      have hdp : dead_points (Append.dead p :: l) = p :: dead_points l := by
        simp [dead_points]
      have hap : alive_points (Append.dead p :: l) = alive_points l := by
        simp [alive_points]
      rw [hdp] at hd ⊢
      rw [hap] at ha ⊢
      simp only [List.length_cons] at hd
      obtain ⟨kd2, rfl⟩ : ∃ kd2, kd = kd2 + 1 := ⟨kd - 1, by omega⟩
      rw [List.foldlM_cons]
      simp only [Globals.append, buffer_push, Option.bind_eq_bind, Option.some_bind]
      have hlen : ((ds.length : Int) + 1) = ((ds ++ [p]).length : Int) := by simp
      rw [hlen, ih (ds ++ [p]) as kd2 ka (by omega) ha]
      simp [List.append_assoc]
    | alive p =>
      have hdp : dead_points (Append.alive p :: l) = dead_points l := by
        simp [dead_points]
      have hap : alive_points (Append.alive p :: l) = p :: alive_points l := by
        simp [alive_points]
      rw [hdp] at hd ⊢
      rw [hap] at ha ⊢
      simp only [List.length_cons] at ha
      obtain ⟨ka2, rfl⟩ : ∃ ka2, ka = ka2 + 1 := ⟨ka - 1, by omega⟩
      rw [List.foldlM_cons]
      simp only [Globals.append, buffer_push, Option.bind_eq_bind, Option.some_bind]
      have hlen : ((as.length : Int) + 1) = ((as ++ [p]).length : Int) := by simp
      rw [hlen, ih ds (as ++ [p]) kd ka2 hd (by omega)]
      simp [List.append_assoc]

/-! ## Committing a buffer -/

theorem buffer_get (front pts : List Point) (p : Point) (k : Nat) :
    (arr_get (buffer (front ++ p :: pts) k) (front.length : Int)).join = some p := by
  unfold buffer
  rw [arr_get_natCast]
  simp only [List.map_append, List.map_cons, List.append_assoc]
  rw [List.getElem?_append_right (by simp)]
  simp

theorem update_cell_content_from (front pts : List Point) (k : Nat) (status : Char) (b : Board) :
    for_loop (front.length : Int) ((front.length : Int) + pts.length) (fun i b => do
      let currp ← (arr_get (buffer (front ++ pts) k) i).join
      board_set b currp.row currp.col status) b = write_points status pts b := by
  induction pts generalizing front b with
  | nil => simp [for_loop, int_range_empty, write_points]
  | cons p pts ih =>
    unfold for_loop
    rw [int_range_cons _ _ (by simp), List.foldlM_cons]
    simp only [buffer_get, Option.bind_eq_bind, Option.some_bind, write_points, List.foldlM_cons]
    cases hset : board_set b p.row p.col status with
    | none => simp
    | some b1 =>
      simp only [Option.some_bind]
      have := ih (front ++ [p]) b1
      simp only [List.length_append, List.length_singleton, List.append_assoc,
        List.singleton_append, Nat.cast_add, Nat.cast_one] at this
      unfold for_loop write_points at this
      have e : ((front.length : Int) + ((p :: pts).length : Nat)) =
          (front.length : Int) + 1 + (pts.length : Int) := by
        simp only [List.length_cons, Nat.cast_add, Nat.cast_one]; ring
      rw [e]
      exact this

/-- Committing a buffer of `pts.length` written elements writes the points in
order. -/
theorem update_cell_content_buffer (pts : List Point) (k : Nat) (status : Char) (b : Board) :
    update_cell_content b (buffer pts k) (pts.length : Int) status = write_points status pts b := by
  have := update_cell_content_from [] pts k status b
  simpa [update_cell_content] using this

/-- Writing in-range points to a well-formed board succeeds; afterwards exactly
the cells named by the points hold `status`. -/
theorem write_points_spec (status : Char) (pts : List Point) (b : Board) (hwf : b.WF)
    (hin : ∀ p ∈ pts, 0 ≤ p.row ∧ p.row < b.rows ∧ 0 ≤ p.col ∧ p.col < b.cols) :
    ∃ b2, write_points status pts b = some b2 ∧ b2.WF ∧ b2.rows = b.rows ∧ b2.cols = b.cols ∧
      b2.iterations = b.iterations ∧
      ∀ i j : Int, board_get b2 i j =
        if (⟨i, j⟩ : Point) ∈ pts then some status else board_get b i j := by
  induction pts generalizing b with
  | nil => exact ⟨b, rfl, hwf, rfl, rfl, rfl, by simp⟩
  | cons p pts ih =>
    obtain ⟨hp1, hp2, hp3, hp4⟩ := hin p (List.mem_cons_self _ _)
    obtain ⟨b1, hset, hwf1, hr1, hc1, hit1, hget1⟩ :=
      board_set_spec b hwf p.row p.col status hp1 hp2 hp3 hp4
    obtain ⟨b2, hw, hwf2, hr2, hc2, hit2, hget2⟩ := ih b1 hwf1 (by
      intro q hq
      rw [hr1, hc1]
      exact hin q (List.mem_cons_of_mem _ hq))
    refine ⟨b2, ?_, hwf2, hr2.trans hr1, hc2.trans hc1, hit2.trans hit1, ?_⟩
    · unfold write_points at hw ⊢
      rw [List.foldlM_cons, hset]
      exact hw
    · intro i j
      rw [hget2, hget1]
      have hpe : ((⟨i, j⟩ : Point) = p) ↔ (i = p.row ∧ j = p.col) := by
        cases p
        simp
      by_cases hm : (⟨i, j⟩ : Point) ∈ pts
      · simp [hm]
      · by_cases he : (⟨i, j⟩ : Point) = p
        · simp [hm, he, hpe.mp he]
        · have : ¬ (i = p.row ∧ j = p.col) := fun h => he (hpe.mpr h)
          simp [hm, he, this]

/-! ## The events of one generation -/

theorem record_cell_length (c : Char) (k : Int) (p : Point) : (record_cell c k p).length ≤ 1 := by
  unfold record_cell
  split_ifs <;> simp

theorem record_cell_point (c : Char) (k : Int) (p : Point) (e : Append)
    (h : e ∈ record_cell c k p) : e.point = p := by
  unfold record_cell at h
  split_ifs at h <;> simp at h <;> subst h <;> rfl

theorem dead_mem_record_cell (c : Char) (k : Int) (p q : Point) :
    Append.dead q ∈ record_cell c k p ↔ q = p ∧ c = 'X' ∧ (k < 2 ∨ k > 3) := by
  unfold record_cell
  by_cases h1 : c = 'X'
  · by_cases h2 : k < 2 ∨ k > 3
    · simp only [h1, h2, if_true, List.mem_singleton, Append.dead.injEq, and_true, true_and]
    · simp only [h1, h2, if_true, if_false, List.mem_singleton, and_false, reduceCtorEq]
  · by_cases h3 : k = 3
    · simp [h1, h3]
    · simp [h1, h3]

theorem alive_mem_record_cell (c : Char) (k : Int) (p q : Point) :
    Append.alive q ∈ record_cell c k p ↔
      q = p ∧ ((c = 'X' ∧ ¬ (k < 2 ∨ k > 3)) ∨ (c ≠ 'X' ∧ k = 3)) := by
  unfold record_cell
  by_cases h1 : c = 'X'
  · by_cases h2 : k < 2 ∨ k > 3
    · simp only [h1, h2, if_true, List.mem_singleton, reduceCtorEq, not_true_eq_false,
        and_false, false_or, ne_eq, false_and]
    · simp only [h1, h2, if_true, if_false, List.mem_singleton, Append.alive.injEq,
        not_false_eq_true, and_true, ne_eq, not_true_eq_false, false_and, or_false]
  · by_cases h3 : k = 3
    · simp [h1, h3]
    · simp [h1, h3]

theorem mem_board_events (b : Board) (e : Append) :
    e ∈ board_events b ↔
      ∃ i j : Int, (0 ≤ i ∧ i < b.rows) ∧ (0 ≤ j ∧ j < b.cols) ∧ e ∈ cell_events b i j := by
  simp only [board_events, row_events, List.mem_flatMap, mem_int_range]
  constructor
  · rintro ⟨i, hi, j, hj, he⟩
    exact ⟨i, j, hi, hj, he⟩
  · rintro ⟨i, j, hi, hj, he⟩
    exact ⟨i, hi, j, hj, he⟩

theorem mem_board_events_point (b : Board) (e : Append) (h : e ∈ board_events b) :
    (0 ≤ e.point.row ∧ e.point.row < b.rows) ∧ (0 ≤ e.point.col ∧ e.point.col < b.cols) ∧
      e ∈ cell_events b e.point.row e.point.col := by
  rw [mem_board_events] at h
  obtain ⟨i, j, hi, hj, he⟩ := h
  have hp := record_cell_point _ _ _ _ he
  rw [hp]
  exact ⟨hi, hj, he⟩

theorem flatMap_length_le {α β : Type} (l : List α) (f : α → List β) (c : Nat)
    (h : ∀ a ∈ l, (f a).length ≤ c) : (l.flatMap f).length ≤ l.length * c := by
  induction l with
  | nil => simp
  | cons a l ih =>
    have h1 := h a (List.mem_cons_self _ _)
    have h2 := ih (fun x hx => h x (List.mem_cons_of_mem _ hx))
    simp only [List.flatMap_cons, List.length_append, List.length_cons]
    have : (l.length + 1) * c = l.length * c + c := by ring
    omega

/-- At most one critical section per cell. -/
theorem board_events_length (b : Board) (hr : 0 ≤ b.rows) (hc : 0 ≤ b.cols) :
    (board_events b).length ≤ (b.rows * b.cols).toNat := by
  have h1 : ∀ i ∈ int_range 0 b.rows, (row_events b i).length ≤ b.cols.toNat := by
    intro i _
    unfold row_events
    have := flatMap_length_le (int_range 0 b.cols) (cell_events b i) 1
      (fun j _ => record_cell_length _ _ _)
    rw [int_range_length] at this
    simpa using this
  have h2 := flatMap_length_le (int_range 0 b.rows) (row_events b) _ h1
  rw [int_range_length] at h2
  have e : (b.rows * b.cols).toNat = b.rows.toNat * b.cols.toNat := by
    have e1 : ((b.rows.toNat * b.cols.toNat : Nat) : Int) = b.rows * b.cols := by
      push_cast
      rw [Int.toNat_of_nonneg hr, Int.toNat_of_nonneg hc]
    rw [← e1]
    exact Int.toNat_natCast _
  rw [e]
  simpa [board_events] using h2

/-! ## One generation, cell by cell -/

/-- A product that is an `int` value is the value of `int_mul`. -/
theorem int_mul_eq (x y : Int) (h0 : 0 ≤ x * y) (h : x * y ≤ 2147483647) :
    int_mul x y = some (x * y) := by
  unfold int_mul
  rw [if_pos ⟨by omega, h⟩]

theorem int_mul_overflow (x y : Int) (h : 2147483647 < x * y) : int_mul x y = none := by
  unfold int_mul
  rw [if_neg (by omega)]

/-- On a board of more than `2^31 - 1` cells the buffers are not allocated:
the product of the dimensions overflows. -/
theorem run_workers_overflow (b : Board) (n : Int) (sched : List Nat) (g : Globals)
    (h : 2147483647 < b.rows * b.cols) : run_workers b n sched g = none := by
  unfold run_workers
  rw [int_mul_overflow _ _ h]
  rfl

theorem update_board_overflow (b : Board) (n : Int) (sched : List Nat) (g : Globals)
    (h : 2147483647 < b.rows * b.cols) : update_board b n sched g = none := by
  unfold update_board
  rw [run_workers_overflow b n sched g h]
  rfl

/-- The workers are joined only when the cell count is an `int` and there is
at least one worker. -/
theorem run_workers_some (b : Board) (n : Int) (sched : List Nat) (g g2 : Globals)
    (hr : 1 ≤ b.rows) (hc : 1 ≤ b.cols) (h : run_workers b n sched g = some g2) :
    b.rows * b.cols ≤ 2147483647 ∧ 1 ≤ n := by
  by_cases hsz : b.rows * b.cols ≤ 2147483647
  · refine ⟨hsz, ?_⟩
    by_contra hn
    unfold run_workers at h
    rw [int_mul_eq _ _ (Int.mul_nonneg (by omega) (by omega)) hsz] at h
    simp only [Option.some_bind] at h
    rw [if_pos (by omega)] at h
    exact absurd h (by simp)
  · rw [run_workers_overflow b n sched g (by omega)] at h
    exact absurd h (by simp)

/-- The state of the global variables once all workers are joined: the
buffers hold the points of some rearrangement of `board_events`. -/
theorem run_workers_spec (b : Board) (hwf : b.WF) (hr : 1 ≤ b.rows) (hc : 1 ≤ b.cols)
    (hsz : b.rows * b.cols ≤ 2147483647)
    (n : Int) (hn : 1 ≤ n) (sched : List Nat) (g : Globals)
    (hd : g.curr_death = 0) (hl : g.curr_living = 0) :
    ∃ (l : List Append) (kd ka : Nat), l.Perm (board_events b) ∧
      run_workers b n sched g = some ⟨buffer (dead_points l) kd, buffer (alive_points l) ka,
        ((dead_points l).length : Int), ((alive_points l).length : Int)⟩ := by
  have hperm : (interleave sched (worker_traces b n)).Perm (board_events b) := by
    have := interleave_perm sched (worker_traces b n)
    rwa [worker_traces_flatten b n (by omega) hn] at this
  have hlen := board_events_length b (by omega) (by omega)
  rw [← hperm.length_eq] at hlen
  have h1 := List.length_filterMap_le (fun e => match e with
    | Append.dead p => some p
    | Append.alive _ => none) (interleave sched (worker_traces b n))
  have h2 := List.length_filterMap_le (fun e => match e with
    | Append.dead _ => none
    | Append.alive p => some p) (interleave sched (worker_traces b n))
  have hrun := run_appends (interleave sched (worker_traces b n)) [] [] (b.rows * b.cols).toNat
    (b.rows * b.cols).toNat (le_trans h1 hlen) (le_trans h2 hlen)
  refine ⟨interleave sched (worker_traces b n),
    (b.rows * b.cols).toNat - (dead_points (interleave sched (worker_traces b n))).length,
    (b.rows * b.cols).toNat - (alive_points (interleave sched (worker_traces b n))).length,
    hperm, ?_⟩
  unfold run_workers
  rw [int_mul_eq _ _ (Int.mul_nonneg (by omega) (by omega)) hsz]
  simp only [Option.some_bind, hd, hl]
  rw [if_neg (by omega), check_rows_workers b hwf hr hc n hn]
  simp only [Option.bind_eq_bind, Option.some_bind]
  simpa [buffer, malloc] using hrun

/-- The two commit passes of `update_cells` on buffers holding the in-range
points `ds` and `as`. -/
theorem update_cells_spec (b : Board) (hwf : b.WF) (ds as : List Point) (kd ka : Nat)
    (hds : ∀ p ∈ ds, 0 ≤ p.row ∧ p.row < b.rows ∧ 0 ≤ p.col ∧ p.col < b.cols)
    (has : ∀ p ∈ as, 0 ≤ p.row ∧ p.row < b.rows ∧ 0 ≤ p.col ∧ p.col < b.cols) :
    ∃ b2, update_cells b (buffer ds kd) (ds.length : Int) (buffer as ka) (as.length : Int)
        = some b2 ∧ b2.WF ∧ b2.rows = b.rows ∧ b2.cols = b.cols ∧
      b2.iterations = b.iterations ∧
      ∀ i j : Int, board_get b2 i j =
        if (⟨i, j⟩ : Point) ∈ as then some 'X'
        else if (⟨i, j⟩ : Point) ∈ ds then some '-' else board_get b i j := by
  obtain ⟨b1, hw1, hwf1, hr1, hc1, hit1, hget1⟩ := write_points_spec '-' ds b hwf hds
  obtain ⟨b2, hw2, hwf2, hr2, hc2, hit2, hget2⟩ := write_points_spec 'X' as b1 hwf1 (by
    intro p hp
    rw [hr1, hc1]
    exact has p hp)
  refine ⟨b2, ?_, hwf2, hr2.trans hr1, hc2.trans hc1, hit2.trans hit1, ?_⟩
  · unfold update_cells
    rw [update_cell_content_buffer, hw1]
    simp only [Option.bind_eq_bind, Option.some_bind]
    rw [update_cell_content_buffer, hw2]
  · intro i j
    rw [hget2, hget1]

theorem dead_points_in_range (b : Board) (l : List Append) (hl : l.Perm (board_events b)) :
    ∀ p ∈ dead_points l, 0 ≤ p.row ∧ p.row < b.rows ∧ 0 ≤ p.col ∧ p.col < b.cols := by
  intro p hp
  rw [mem_dead_points, hl.mem_iff] at hp
  have := mem_board_events_point b _ hp
  exact ⟨this.1.1, this.1.2, this.2.1.1, this.2.1.2⟩

theorem alive_points_in_range (b : Board) (l : List Append) (hl : l.Perm (board_events b)) :
    ∀ p ∈ alive_points l, 0 ≤ p.row ∧ p.row < b.rows ∧ 0 ≤ p.col ∧ p.col < b.cols := by
  intro p hp
  rw [mem_alive_points, hl.mem_iff] at hp
  have := mem_board_events_point b _ hp
  exact ⟨this.1.1, this.1.2, this.2.1.1, this.2.1.2⟩

/-- The cell left by the two commit passes is the one given by the rule. -/
theorem committed_cell (b : Board) (hwf : b.WF) (l : List Append)
    (hl : l.Perm (board_events b)) (i j : Int) :
    (if (⟨i, j⟩ : Point) ∈ alive_points l then some 'X'
      else if (⟨i, j⟩ : Point) ∈ dead_points l then some '-' else board_get b i j)
      = next_cell b i j := by
  by_cases hin : 0 ≤ i ∧ i < b.rows ∧ 0 ≤ j ∧ j < b.cols
  · obtain ⟨c, hcell⟩ := board_get_isSome b hwf i j hin.1 hin.2.1 hin.2.2.1 hin.2.2.2
    have hA : (⟨i, j⟩ : Point) ∈ alive_points l ↔
        ((c = 'X' ∧ ¬ (neighbor_sum b i j < 2 ∨ neighbor_sum b i j > 3)) ∨
          (c ≠ 'X' ∧ neighbor_sum b i j = 3)) := by
      rw [mem_alive_points, hl.mem_iff]
      constructor
      · intro h
        have h2 := (mem_board_events_point b _ h).2.2
        simp only [Append.point, cell_events, hcell, Option.getD_some, make_point] at h2
        exact ((alive_mem_record_cell _ _ _ _).mp h2).2
      · intro h
        rw [mem_board_events]
        refine ⟨i, j, ⟨hin.1, hin.2.1⟩, ⟨hin.2.2.1, hin.2.2.2⟩, ?_⟩
        simp only [cell_events, hcell, Option.getD_some, make_point]
        exact (alive_mem_record_cell _ _ _ _).mpr ⟨rfl, h⟩
    have hD : (⟨i, j⟩ : Point) ∈ dead_points l ↔
        (c = 'X' ∧ (neighbor_sum b i j < 2 ∨ neighbor_sum b i j > 3)) := by
      rw [mem_dead_points, hl.mem_iff]
      constructor
      · intro h
        have h2 := (mem_board_events_point b _ h).2.2
        simp only [Append.point, cell_events, hcell, Option.getD_some, make_point] at h2
        exact ((dead_mem_record_cell _ _ _ _).mp h2).2
      · intro h
        rw [mem_board_events]
        refine ⟨i, j, ⟨hin.1, hin.2.1⟩, ⟨hin.2.2.1, hin.2.2.2⟩, ?_⟩
        simp only [cell_events, hcell, Option.getD_some, make_point]
        exact (dead_mem_record_cell _ _ _ _).mpr ⟨rfl, h⟩
    simp only [hA, hD, next_cell, hcell, Option.map_some', next_char]
    by_cases h1 : c = 'X'
    · by_cases h2 : neighbor_sum b i j < 2 ∨ neighbor_sum b i j > 3
      · simp [h1, h2]
      · simp [h1, h2]
    · by_cases h3 : neighbor_sum b i j = 3
      · simp [h1, h3]
      · simp [h1, h3]
  · have hA : (⟨i, j⟩ : Point) ∉ alive_points l := fun h => by
      have := alive_points_in_range b l hl _ h
      exact hin this
    have hD : (⟨i, j⟩ : Point) ∉ dead_points l := fun h => by
      have := dead_points_in_range b l hl _ h
      exact hin this
    simp [hA, hD, next_cell, board_get_none b hwf i j hin]

/-- One call of `update_board` on a well-formed board whose cell count is an
`int`, whatever the number of workers and the execution order: it returns, the
buffers are released with both counters at zero, and every cell is rewritten by
the rule. -/
theorem update_board_spec (b : Board) (hwf : b.WF) (hr : 1 ≤ b.rows) (hc : 1 ≤ b.cols)
    (hsz : b.rows * b.cols ≤ 2147483647)
    (n : Int) (hn : 1 ≤ n) (sched : List Nat) (g : Globals)
    (hd : g.curr_death = 0) (hl : g.curr_living = 0) :
    ∃ b2, update_board b n sched g = some (b2, Globals.init) ∧ b2.WF ∧ b2.rows = b.rows ∧
      b2.cols = b.cols ∧ b2.iterations = b.iterations ∧
      ∀ i j : Int, board_get b2 i j = next_cell b i j := by
  obtain ⟨l, kd, ka, hperm, hrun⟩ := run_workers_spec b hwf hr hc hsz n hn sched g hd hl
  obtain ⟨b2, hup, hwf2, hr2, hc2, hit2, hget⟩ := update_cells_spec b hwf (dead_points l)
    (alive_points l) kd ka (dead_points_in_range b l hperm) (alive_points_in_range b l hperm)
  refine ⟨b2, ?_, hwf2, hr2, hc2, hit2, ?_⟩
  · unfold update_board
    rw [hrun]
    simp only [Option.bind_eq_bind, Option.some_bind]
    rw [hup]
    rfl
  · intro i j
    rw [hget, committed_cell b hwf l hperm]

theorem moore_offsets_eq : moore_offsets =
    [(-1, -1), (-1, 0), (-1, 1), (0, -1), (0, 1), (1, -1), (1, 0), (1, 1)] := by
  decide

theorem neighbor_sum_eq_torus_count (b : Board) (hr : 1 ≤ b.rows) (hc : 1 ≤ b.cols)
    (i j : Int) (hi0 : 0 ≤ i) (hi : i < b.rows) (hj0 : 0 ≤ j) (hj : j < b.cols) :
    neighbor_sum b i j = torus_count b i j := by
  unfold neighbor_sum torus_count
  rw [moore_offsets_eq]
  rw [safe_wrap_eq_emod (i + 1) b.rows hr (by omega) (by omega),
    safe_wrap_eq_emod (i - 1) b.rows hr (by omega) (by omega),
    safe_wrap_eq_emod (j + 1) b.cols hc (by omega) (by omega),
    safe_wrap_eq_emod (j - 1) b.cols hc (by omega) (by omega)]
  have ei : (i + 0) % b.rows = i := by rw [add_zero, Int.emod_eq_of_lt hi0 hi]
  have ej : (j + 0) % b.cols = j := by rw [add_zero, Int.emod_eq_of_lt hj0 hj]
  have ei1 : i + -1 = i - 1 := by ring
  have ej1 : j + -1 = j - 1 := by ring
  simp only [List.countP_cons, List.countP_nil, ei, ej, ei1, ej1, decide_eq_true_eq, live]
  push_cast
  ring

/-! ## Boards given cell by cell -/

theorem board_of_wf (rows cols iterations : Int) (alive : Int → Int → Bool)
    (hr : 0 ≤ rows) (hc : 0 ≤ cols) : (board_of rows cols iterations alive).WF := by
  unfold Board.WF board_of
  constructor
  · simp only [List.length_map, int_range_length]
    omega
  · intro ln hln
    simp only [List.mem_map] at hln
    obtain ⟨i, _, rfl⟩ := hln
    simp only [List.length_map, int_range_length]
    omega

theorem board_of_get (rows cols iterations : Int) (alive : Int → Int → Bool) (i j : Int)
    (hi0 : 0 ≤ i) (hi : i < rows) (hj0 : 0 ≤ j) (hj : j < cols) :
    board_get (board_of rows cols iterations alive) i j
      = some (if alive i j then 'X' else '-') := by
  have ei : (0 : Int) + (i.toNat : Int) = i := by omega
  have ej : (0 : Int) + (j.toNat : Int) = j := by omega
  simp only [board_get, board_of, arr_get, hi0, hj0, if_true, Option.bind_eq_bind,
    List.getElem?_map, int_range_getElem? 0 rows i.toNat (by omega), Option.map_some',
    Option.some_bind, int_range_getElem? 0 cols j.toNat (by omega), ei, ej]

theorem board_large_wf : board_large.WF :=
  board_of_wf 46341 46341 1 _ (by decide) (by decide)

theorem board_large_cells : (2147483647 : Int) < board_large.rows * board_large.cols := by
  decide

/-! ## The run of `main` on the file of a large board -/

theorem run_bind_ok {α β : Type} (a : α) (f : α → Run β) : (Run.ok a >>= f) = f a := rfl

theorem run_pure {α : Type} (a : α) : (pure a : Run α) = Run.ok a := rfl

/-- The printing of a well-formed board returns. -/
theorem show_board_isSome (b : Board) (hwf : b.WF) : ∃ out, show_board b = some out := by
  unfold show_board
  have hrow : ∀ i, 0 ≤ i → i < b.rows → ∀ out : List Char,
      (do
        let out ← for_loop 0 b.cols (fun j out => do
          let c ← board_get b i j
          some (out ++ [c])) out
        some (out ++ ['\n'])) = some (out ++
          ((int_range 0 b.cols).flatMap (fun j => [(board_get b i j).getD '-']) ++ ['\n'])) := by
    intro i hi0 hi out
    rw [for_loop_trace 0 b.cols _ (fun j => [(board_get b i j).getD '-'])]
    · simp
    · intro j hj0 hj tr
      obtain ⟨c, hc⟩ := board_get_isSome b hwf i j hi0 hi hj0 hj
      simp [hc]
  rw [for_loop_trace 0 b.rows _ (fun i =>
    (int_range 0 b.cols).flatMap (fun j => [(board_get b i j).getD '-']) ++ ['\n']) hrow]
  exact ⟨_, rfl⟩

theorem board_eta (b : Board) : (⟨b.rows, b.cols, b.iterations, b.board⟩ : Board) = b := by
  cases b
  rfl

theorem set_up_line_three (b : RawBoard) (ln : List Char) (hne : ln ≠ []) :
    set_up_line (0 + 1 + 1 + 1) b ln = make_board b := by
  unfold set_up_line strip_last
  rw [if_neg hne]
  simp

theorem set_up_line_cells (b : RawBoard) (ln : List Char) (hne : ln ≠ []) :
    set_up_line (0 + 1 + 1 + 1 + 1) b ln = set_board_cells b (c_str ln.dropLast) := by
  unfold set_up_line strip_last
  rw [if_neg hne]
  simp

theorem make_board_eq (r c it : Int) :
    make_board ⟨some r, some c, some it, none⟩
      = some ⟨some r, some c, some it,
          some (List.replicate r.toNat (List.replicate c.toNat '-'))⟩ := rfl

theorem board_get_replicate (r c it i j : Int) (hi0 : 0 ≤ i) (hi : i < r) (hj0 : 0 ≤ j)
    (hj : j < c) :
    board_get ⟨r, c, it, List.replicate r.toNat (List.replicate c.toNat '-')⟩ i j
      = some '-' := by
  have h1 : (List.replicate r.toNat (List.replicate c.toNat '-'))[i.toNat]?
      = some (List.replicate c.toNat '-') := by
    rw [List.getElem?_replicate, if_pos (by omega)]
  have h2 : (List.replicate c.toNat '-')[j.toNat]? = some '-' := by
    rw [List.getElem?_replicate, if_pos (by omega)]
  simp only [board_get, arr_get, hi0, hj0, if_true, Option.bind_eq_bind, h1,
    Option.some_bind, h2]

theorem replicate_wf (r c it : Int) (hr : 0 ≤ r) (hc : 0 ≤ c) :
    (⟨r, c, it, List.replicate r.toNat (List.replicate c.toNat '-')⟩ : Board).WF := by
  constructor
  · simp only [List.length_replicate]
    omega
  · intro ln hln
    rw [List.eq_of_mem_replicate hln]
    simp only [List.length_replicate]
    omega

/-- Writing `'X'` at `(0, 0)` of the board `make_board` allocates for 46341
rows and columns gives `board_large`. -/
theorem board_set_large :
    board_set ⟨46341, 46341, 1, List.replicate (46341 : Int).toNat
      (List.replicate (46341 : Int).toNat '-')⟩ 0 0 'X' = some board_large := by
  have hwf := replicate_wf 46341 46341 1 (by decide) (by decide)
  obtain ⟨b5, hset, hwf5, hr5, hc5, hit5, hget5⟩ := board_set_spec
    ⟨46341, 46341, 1, List.replicate (46341 : Int).toNat
      (List.replicate (46341 : Int).toNat '-')⟩ hwf 0 0 'X'
    (by decide) (by show (0 : Int) < 46341; decide) (by decide)
    (by show (0 : Int) < 46341; decide)
  have er : board_large.rows = 46341 := rfl
  have ec : board_large.cols = 46341 := rfl
  have eit : board_large.iterations = 1 := rfl
  have hb5 : b5 = board_large := by
    apply board_ext board_large b5 board_large_wf hwf5 (by rw [hr5, er]) (by rw [hc5, ec])
      (by rw [hit5, eit])
    intro i j hi0 hi hj0 hj
    rw [er] at hi
    rw [ec] at hj
    rw [hget5, board_get_replicate 46341 46341 1 i j hi0 hi hj0 hj]
    have hg : board_get board_large i j
        = some (if decide (i = 0 ∧ j = 0) = true then 'X' else '-') :=
      board_of_get 46341 46341 1 (fun i j => decide (i = 0 ∧ j = 0)) i j hi0 hi hj0 hj
    rw [hg]
    by_cases hp : i = 0 ∧ j = 0
    · rw [if_pos hp, decide_eq_true hp, if_pos rfl]
    · rw [if_neg hp, decide_eq_false hp, if_neg (by decide)]
  rw [hset, hb5]

/-- The line `0 0` of a board file: `'X'` is written at `(0, 0)`. -/
theorem set_board_cells_origin (r c it : Int) (grid : List (List Char)) (b2 : Board)
    (h : board_set ⟨r, c, it, grid⟩ 0 0 'X' = some b2) :
    set_board_cells ⟨some r, some c, some it, some grid⟩ (c_str (txt "0 0\n").dropLast)
      = some ⟨some r, some c, some it, some b2.board⟩ := by
  unfold set_board_cells
  generalize hf : @List.foldlM Option _ _ _ _ _
    (strtok_space (c_str (txt "0 0\n").dropLast)) = st
  have hst : st = some (2, some 0, some 0) := by
    rw [← hf]
    decide
  rw [hst]
  simp only [Option.bind_eq_bind, Option.some_bind, h]

/-- The board that `set_up_board` loads from `file_large` is `board_large`. -/
theorem set_up_board_file_large : set_up_board file_large = some board_large := by
  have h0 : set_up_line 0 ⟨none, none, none, none⟩ (txt "46341\n")
      = some ⟨some 46341, none, none, none⟩ := by decide
  have h1 : set_up_line (0 + 1) ⟨some 46341, none, none, none⟩ (txt "46341\n")
      = some ⟨some 46341, some 46341, none, none⟩ := by decide
  have h2 : set_up_line (0 + 1 + 1) ⟨some 46341, some 46341, none, none⟩ (txt "1\n")
      = some ⟨some 46341, some 46341, some 1, none⟩ := by decide
  unfold set_up_board file_large
  simp only [set_up_lines, Option.bind_eq_bind]
  rw [h0, Option.some_bind, h1, Option.some_bind, h2, Option.some_bind,
    set_up_line_three _ _ (by decide), make_board_eq, Option.some_bind,
    set_up_line_cells _ _ (by decide),
    set_board_cells_origin _ _ _ _ board_large board_set_large]
  simp only [Option.some_bind]
  exact congrArg some (board_eta board_large)

/-- The loop of `main` on a board of more than `2^31 - 1` cells that asks for
one generation: the board is printed and the call of `update_board` fails. -/
theorem main_loop_overflow (b : Board) (hwf : b.WF) (hit : b.iterations = 1)
    (h : 2147483647 < b.rows * b.cols) (ntids : Int) (sched : Nat → List Nat) (g : Globals) :
    main_loop b ntids sched g = none := by
  obtain ⟨out, hout⟩ := show_board_isSome b hwf
  have hrange : int_range 0 b.iterations = [0] := by
    rw [hit]
    decide
  unfold main_loop for_loop
  rw [hrange]
  simp [hout, update_board_overflow b ntids _ _ h]

theorem main_setup_eq_ok (argv : List (List Char)) (fs : List Char → Option (List (List Char)))
    (lines : List (List Char)) (board : Board) (ntids : Int)
    (hf : fs (argv.getD 1 []) = some lines) (hv : validate_input argv true = Run.ok ())
    (hvf : validate_input_file lines = Run.ok ())
    (ha : arg_to_int (argv.getD 2 []) = Run.ok ntids) (hb : set_up_board lines = some board) :
    main_setup argv fs = Run.ok (board, ntids) := by
  unfold main_setup
  rw [hf, Option.isSome_some, hv, run_bind_ok]
  simp only [Run.ofOption, run_bind_ok]
  rw [hvf, run_bind_ok, ha, run_bind_ok, hb]
  rfl

theorem validate_input_file_large : validate_input_file file_large = Run.ok () := by
  decide

/-- The run of `main` on the file `file_large` with one worker: every check
passes, the board is loaded and printed, and the first call of `update_board`
overflows. -/
theorem main_file_large (sched : Nat → List Nat) :
    main [txt "tgol", txt "board", txt "1"] (fun _ => some file_large) sched
      = Run.undefined := by
  have hs : main_setup [txt "tgol", txt "board", txt "1"] (fun _ => some file_large)
      = Run.ok (board_large, 1) :=
    main_setup_eq_ok _ _ file_large board_large 1 rfl (by decide) validate_input_file_large
      (by decide) set_up_board_file_large
  unfold main
  rw [hs, run_bind_ok, main_loop_overflow board_large board_large_wf rfl board_large_cells]
  rfl

/-! # The properties -/

/-! ## C1: one call of `update_board` is one generation -/

/-- C1: `update_board` does not advance a board of more than `2^31 - 1`
cells.  The file
with the lines `46341`, `46341`, `1`, `1`, `0 0` is accepted by
`validate_input_file` and loaded by `set_up_board`; on the board it describes,
46341 x 46341 cells with `(0,0)` alive, the product `b->rows * b->cols`
overflows `int` and `update_board` returns no board, for every worker count and
execution order. -/
theorem update_board_large_board :
    validate_input_file file_large = Run.ok () ∧
    set_up_board file_large = some board_large ∧
    board_large.WF ∧ (1 : Int) ≤ board_large.rows ∧ (1 : Int) ≤ board_large.cols ∧
    board_get board_large 0 0 = some 'X' ∧
    (2147483647 : Int) < board_large.rows * board_large.cols ∧
    int_mul board_large.rows board_large.cols = none ∧
    ∀ (n : Int) (sched : List Nat) (g : Globals), update_board board_large n sched g = none :=
  ⟨validate_input_file_large, set_up_board_file_large, board_large_wf, by decide, by decide,
    board_of_get 46341 46341 1 _ 0 0 (by decide) (by decide) (by decide) (by decide),
    board_large_cells, int_mul_overflow _ _ board_large_cells,
    fun n sched g => update_board_overflow board_large n sched g board_large_cells⟩

/-- The property of C1 on the boards whose cell count is an `int`: on a board
with `rows ≥ 1`, `cols ≥ 1` and at most `2^31 - 1` cells, for every worker
count `n ≥ 1` and every execution order of the
workers, `update_board` returns a board of the same dimensions on which an
in-range cell is `'X'` exactly when, before the call, it was `'X'` with 2 or 3
live neighbours or was not `'X'` with exactly 3 live neighbours. -/
theorem update_board_one_generation (b : Board) (n : Int) (sched : List Nat) (g : Globals)
    (hwf : b.WF) (hr : 1 ≤ b.rows) (hc : 1 ≤ b.cols) (hsz : b.rows * b.cols ≤ 2147483647)
    (hn : 1 ≤ n) (hd : g.curr_death = 0) (hl : g.curr_living = 0) :
    ∃ b2 g2, update_board b n sched g = some (b2, g2) ∧ b2.WF ∧
      b2.rows = b.rows ∧ b2.cols = b.cols ∧
      ∀ r c : Int, 0 ≤ r → r < b.rows → 0 ≤ c → c < b.cols →
        (board_get b2 r c = some 'X' ↔
          (board_get b r c = some 'X' ∧
            (calculate_live_neighbors b r c = some 2 ∨ calculate_live_neighbors b r c = some 3))
          ∨ (board_get b r c ≠ some 'X' ∧ calculate_live_neighbors b r c = some 3)) := by
  obtain ⟨b2, hup, hwf2, hr2, hc2, _, hget⟩ :=
    update_board_spec b hwf hr hc hsz n hn sched g hd hl
  refine ⟨b2, Globals.init, hup, hwf2, hr2, hc2, ?_⟩
  intro r c hr0 hr1 hc0 hc1
  obtain ⟨ch, hcell⟩ := board_get_isSome b hwf r c hr0 hr1 hc0 hc1
  rw [hget, calculate_live_neighbors_eq b hwf hr hc r c hr0 hr1 hc0 hc1]
  simp only [next_cell, hcell, Option.map_some', Option.some.injEq, next_char, ne_eq]
  by_cases h1 : ch = 'X'
  · by_cases h2 : neighbor_sum b r c < 2 ∨ neighbor_sum b r c > 3
    · simp only [h1, h2, if_true, true_and, not_true_eq_false, false_and, or_false]
      constructor
      · intro h; exact absurd h (by decide)
      · intro h; omega
    · simp only [h1, h2, if_true, if_false, true_and, not_true_eq_false, false_and, or_false,
        true_iff]
      omega
  · by_cases h3 : neighbor_sum b r c = 3
    · simp [h1, h3]
    · simp [h1, h3]

/-- An instance of `update_board_one_generation`: the 3x3 board with a live
middle row, two workers. -/
theorem update_board_one_generation_witness :
    board_row3.WF ∧ (1 : Int) ≤ board_row3.rows ∧ (1 : Int) ≤ board_row3.cols ∧
    board_row3.rows * board_row3.cols ≤ 2147483647 ∧ (1 : Int) ≤ 2 ∧
    ∃ b2 g2, update_board board_row3 2 [1, 0] Globals.init = some (b2, g2) ∧ b2.WF ∧
      b2.rows = board_row3.rows ∧ b2.cols = board_row3.cols ∧
      ∀ r c : Int, 0 ≤ r → r < board_row3.rows → 0 ≤ c → c < board_row3.cols →
        (board_get b2 r c = some 'X' ↔
          (board_get board_row3 r c = some 'X' ∧
            (calculate_live_neighbors board_row3 r c = some 2 ∨
              calculate_live_neighbors board_row3 r c = some 3))
          ∨ (board_get board_row3 r c ≠ some 'X' ∧
            calculate_live_neighbors board_row3 r c = some 3)) :=
  ⟨by decide, by decide, by decide, by decide, by decide,
    update_board_one_generation board_row3 2 [1, 0] Globals.init (by decide) (by decide)
      (by decide) (by decide) (by decide) rfl rfl⟩

/-! ## C2: the neighbour count is the toroidal Moore count -/

/-- C2: on a board with `rows ≥ 1` and `cols ≥ 1`, at every in-range cell
(edge and corner cells included) `calculate_live_neighbors` returns the number
of offsets `(di, dj)` in `{-1,0,1} x {-1,0,1}` other than `(0,0)` whose cell
`((row+di) mod rows, (col+dj) mod cols)` is alive, a number between 0 and 8. -/
theorem calculate_live_neighbors_torus (b : Board) (row col : Int)
    (hwf : b.WF) (hr : 1 ≤ b.rows) (hc : 1 ≤ b.cols)
    (hi0 : 0 ≤ row) (hi : row < b.rows) (hj0 : 0 ≤ col) (hj : col < b.cols) :
    calculate_live_neighbors b row col = some (torus_count b row col) ∧
      0 ≤ torus_count b row col ∧ torus_count b row col ≤ 8 := by
  have h := calculate_live_neighbors_eq b hwf hr hc row col hi0 hi hj0 hj
  have hrange := neighbor_sum_range b row col
  rw [neighbor_sum_eq_torus_count b hr hc row col hi0 hi hj0 hj] at h hrange
  exact ⟨h, hrange⟩

/-- Witness for C2: the corner cell `(2, 2)` of the 3x3 board whose only live
cell is `(0, 0)`. -/
theorem calculate_live_neighbors_torus_witness :
    board_corner3.WF ∧ (1 : Int) ≤ board_corner3.rows ∧ (1 : Int) ≤ board_corner3.cols ∧
    ((0 : Int) ≤ 2 ∧ (2 : Int) < board_corner3.rows ∧ (2 : Int) < board_corner3.cols) ∧
    (calculate_live_neighbors board_corner3 2 2 = some (torus_count board_corner3 2 2) ∧
      0 ≤ torus_count board_corner3 2 2 ∧ torus_count board_corner3 2 2 ≤ 8) :=
  ⟨by decide, by decide, by decide, by decide,
    calculate_live_neighbors_torus board_corner3 2 2 (by decide) (by decide) (by decide)
      (by decide) (by decide) (by decide) (by decide)⟩

/-! ## C3: what a worker records for a cell -/

/-- C3, as stated, fails: a live cell with 2 live neighbours is appended to
`alive`, although the claim records it in neither buffer and lets only dead
cells with exactly 3 live neighbours into `alive`. -/
theorem record_cell_survivor_recorded :
    record_cell 'X' 2 (make_point 0 0) = [Append.alive (make_point 0 0)] ∧
      ¬ (Append.alive (make_point 0 0) ∈ record_cell 'X' 2 (make_point 0 0) ↔
        ('X' ≠ 'X' ∧ (2 : Int) = 3)) := by
  decide

/-- C3, amended: for every cell content and every neighbour count the worker
appends the cell to `dead` iff it is `'X'` with fewer than 2 or more than 3
live neighbours, appends it to `alive` iff it is `'X'` with 2 or 3 live
neighbours or not `'X'` with exactly 3, appends nothing iff it is not `'X'`
with a count other than 3, and never appends a cell twice. -/
theorem record_cell_table (cell : Char) (live_neighbors : Int) (p q : Point) :
    (Append.dead q ∈ record_cell cell live_neighbors p ↔
      q = p ∧ cell = 'X' ∧ (live_neighbors < 2 ∨ live_neighbors > 3)) ∧
    (Append.alive q ∈ record_cell cell live_neighbors p ↔
      q = p ∧ ((cell = 'X' ∧ (live_neighbors = 2 ∨ live_neighbors = 3)) ∨
        (cell ≠ 'X' ∧ live_neighbors = 3))) ∧
    (record_cell cell live_neighbors p = [] ↔ cell ≠ 'X' ∧ live_neighbors ≠ 3) ∧
    (record_cell cell live_neighbors p).length ≤ 1 := by
  refine ⟨dead_mem_record_cell _ _ _ _, ?_, ?_, record_cell_length _ _ _⟩
  · rw [alive_mem_record_cell]
    have : (¬ (live_neighbors < 2 ∨ live_neighbors > 3)) ↔
        (live_neighbors = 2 ∨ live_neighbors = 3) := by omega
    rw [this]
  · unfold record_cell
    by_cases h1 : cell = 'X'
    · by_cases h2 : live_neighbors < 2 ∨ live_neighbors > 3
      · simp [h1, h2]
      · simp [h1, h2]
    · by_cases h3 : live_neighbors = 3
      · simp [h1, h3]
      · simp [h1, h3]

/-! ## C4: the row ranges partition the rows -/

/-- A worker's range ends where no later worker's range has begun. -/
theorem thread_args_ordered (b : Board) (n : Int) (hr : 0 ≤ b.rows) (hn : 1 ≤ n)
    (k k2 : Int) (_hk0 : 0 ≤ k) (hk : k < k2) (hk2 : k2 < n) :
    (thread_args b n k).max_i ≤ (thread_args b n k2).min_i := by
  obtain ⟨h0, _, _⟩ := tdiv_facts b.rows n hr hn
  rw [thread_args_min, thread_args_max_other b n k (by omega)]
  have hmul : (k + 1) * Int.tdiv b.rows n ≤ k2 * Int.tdiv b.rows n :=
    Int.mul_le_mul_of_nonneg_right (by omega) h0
  have e : (k + 1) * Int.tdiv b.rows n = k * Int.tdiv b.rows n + Int.tdiv b.rows n := by ring
  omega

/-- C4: for `rows ≥ 1` and `nWorkers ≥ 1` the row ranges `[min_i, max_i)` that
`update_board` hands to workers `0 .. nWorkers-1` (with `range = rows / nWorkers`)
partition `[0, rows)`: a row is in range iff it lies in some worker's range,
no row lies in the ranges of two workers, the starts are non-decreasing in the
worker index, and the ranges concatenated in worker order list `0 .. rows-1`. -/
theorem thread_ranges_partition (b : Board) (nthids : Int)
    (hr : 1 ≤ b.rows) (hn : 1 ≤ nthids) :
    (∀ r : Int, (0 ≤ r ∧ r < b.rows) ↔
      ∃ k : Int, 0 ≤ k ∧ k < nthids ∧
        (prepare_thread_args b nthids k (Int.tdiv b.rows nthids)).min_i ≤ r ∧
        r < (prepare_thread_args b nthids k (Int.tdiv b.rows nthids)).max_i) ∧
    (∀ k k2 r : Int, 0 ≤ k → k < nthids → 0 ≤ k2 → k2 < nthids →
      (prepare_thread_args b nthids k (Int.tdiv b.rows nthids)).min_i ≤ r →
      r < (prepare_thread_args b nthids k (Int.tdiv b.rows nthids)).max_i →
      (prepare_thread_args b nthids k2 (Int.tdiv b.rows nthids)).min_i ≤ r →
      r < (prepare_thread_args b nthids k2 (Int.tdiv b.rows nthids)).max_i → k = k2) ∧
    (∀ k k2 : Int, 0 ≤ k → k ≤ k2 → k2 < nthids →
      (prepare_thread_args b nthids k (Int.tdiv b.rows nthids)).min_i ≤
        (prepare_thread_args b nthids k2 (Int.tdiv b.rows nthids)).min_i) ∧
    (int_range 0 nthids).flatMap (fun k =>
      int_range (prepare_thread_args b nthids k (Int.tdiv b.rows nthids)).min_i
        (prepare_thread_args b nthids k (Int.tdiv b.rows nthids)).max_i) = int_range 0 b.rows := by
  have hpart := worker_rows_partition b nthids (by omega) hn
  refine ⟨?_, ?_, ?_, hpart⟩
  · intro r
    rw [← mem_int_range, ← hpart, List.mem_flatMap]
    constructor
    · rintro ⟨k, hk, hrk⟩
      rw [mem_int_range] at hk
      unfold worker_rows at hrk
      rw [mem_int_range] at hrk
      exact ⟨k, hk.1, hk.2, hrk.1, hrk.2⟩
    · rintro ⟨k, hk0, hk1, h1, h2⟩
      refine ⟨k, (mem_int_range _ _ _).mpr ⟨hk0, hk1⟩, ?_⟩
      unfold worker_rows
      exact (mem_int_range _ _ _).mpr ⟨h1, h2⟩
  · intro k k2 r hk0 hk1 hk20 hk21 h1 h2 h3 h4
    by_contra hne
    rcases lt_or_gt_of_ne hne with hlt | hgt
    · have := thread_args_ordered b nthids (by omega) hn k k2 hk0 hlt hk21
      unfold thread_args at this
      omega
    · have := thread_args_ordered b nthids (by omega) hn k2 k hk20 hgt hk1
      unfold thread_args at this
      omega
  · intro k k2 hk0 hkk hk2
    rcases eq_or_lt_of_le hkk with heq | hlt
    · rw [heq]
    · have h1 := thread_args_ordered b nthids (by omega) hn k k2 hk0 hlt hk2
      have h2 := thread_args_bounds b nthids (by omega) hn k hk0 (by omega)
      unfold thread_args at h1 h2
      omega

/-- Witness for C4: three rows shared between two workers. -/
theorem thread_ranges_partition_witness :
    ((1 : Int) ≤ board_row3.rows ∧ (1 : Int) ≤ 2) ∧
    ((∀ r : Int, (0 ≤ r ∧ r < board_row3.rows) ↔
      ∃ k : Int, 0 ≤ k ∧ k < 2 ∧
        (prepare_thread_args board_row3 2 k (Int.tdiv board_row3.rows 2)).min_i ≤ r ∧
        r < (prepare_thread_args board_row3 2 k (Int.tdiv board_row3.rows 2)).max_i) ∧
    (∀ k k2 r : Int, 0 ≤ k → k < 2 → 0 ≤ k2 → k2 < 2 →
      (prepare_thread_args board_row3 2 k (Int.tdiv board_row3.rows 2)).min_i ≤ r →
      r < (prepare_thread_args board_row3 2 k (Int.tdiv board_row3.rows 2)).max_i →
      (prepare_thread_args board_row3 2 k2 (Int.tdiv board_row3.rows 2)).min_i ≤ r →
      r < (prepare_thread_args board_row3 2 k2 (Int.tdiv board_row3.rows 2)).max_i → k = k2) ∧
    (∀ k k2 : Int, 0 ≤ k → k ≤ k2 → k2 < 2 →
      (prepare_thread_args board_row3 2 k (Int.tdiv board_row3.rows 2)).min_i ≤
        (prepare_thread_args board_row3 2 k2 (Int.tdiv board_row3.rows 2)).min_i) ∧
    (int_range 0 2).flatMap (fun k =>
      int_range (prepare_thread_args board_row3 2 k (Int.tdiv board_row3.rows 2)).min_i
        (prepare_thread_args board_row3 2 k (Int.tdiv board_row3.rows 2)).max_i)
      = int_range 0 board_row3.rows) :=
  ⟨by decide, thread_ranges_partition board_row3 2 (by decide) (by decide)⟩

/-! ## C5: the worker count does not change the result -/

/-- Two calls of `update_board` on the same board return the same board,
whatever their worker counts and execution orders. -/
theorem update_board_agree (b : Board) (hwf : b.WF) (hr : 1 ≤ b.rows) (hc : 1 ≤ b.cols)
    (hsz : b.rows * b.cols ≤ 2147483647) (n1 n2 : Int) (hn1 : 1 ≤ n1) (hn2 : 1 ≤ n2) (s1 s2 : List Nat) (g1 g2 : Globals)
    (hd1 : g1.curr_death = 0) (hl1 : g1.curr_living = 0)
    (hd2 : g2.curr_death = 0) (hl2 : g2.curr_living = 0) :
    ∃ b2, update_board b n1 s1 g1 = some (b2, Globals.init) ∧
      update_board b n2 s2 g2 = some (b2, Globals.init) ∧ b2.WF ∧ b2.rows = b.rows ∧
      b2.cols = b.cols := by
  obtain ⟨b2, hup, hwf2, hr2, hc2, hit2, hget2⟩ :=
    update_board_spec b hwf hr hc hsz n1 hn1 s1 g1 hd1 hl1
  obtain ⟨b3, hup3, hwf3, hr3, hc3, hit3, hget3⟩ :=
    update_board_spec b hwf hr hc hsz n2 hn2 s2 g2 hd2 hl2
  have : b3 = b2 := by
    apply board_ext b2 b3 hwf2 hwf3 (hr3.trans hr2.symm) (hc3.trans hc2.symm)
      (hit3.trans hit2.symm)
    intro i j _ _ _ _
    rw [hget3, hget2]
  subst this
  exact ⟨b3, hup, hup3, hwf2, hr2, hc2⟩

/-- The property of C5 on the boards whose cell count is an `int`: for every
initial board with `rows ≥ 1`, `cols ≥ 1` and at most `2^31 - 1` cells, every number `N` of generations, every two worker counts
`n1, n2 ≥ 1` and all execution orders, `N` calls of `update_board` with `n1`
workers and `N` calls with `n2` workers both return, and return the same
board. -/
theorem thread_count_invariance (b : Board) (n1 n2 : Int) (s1 s2 : Nat → List Nat)
    (g : Globals) (N : Nat)
    (hwf : b.WF) (hr : 1 ≤ b.rows) (hc : 1 ≤ b.cols) (hsz : b.rows * b.cols ≤ 2147483647)
    (hn1 : 1 ≤ n1) (hn2 : 1 ≤ n2)
    (hd : g.curr_death = 0) (hl : g.curr_living = 0) :
    ∃ bN gN, update_board_times n1 s1 N (b, g) = some (bN, gN) ∧
      update_board_times n2 s2 N (b, g) = some (bN, gN) := by
  suffices h : ∃ bN gN, update_board_times n1 s1 N (b, g) = some (bN, gN) ∧
      update_board_times n2 s2 N (b, g) = some (bN, gN) ∧ bN.WF ∧ bN.rows = b.rows ∧
      bN.cols = b.cols ∧ gN.curr_death = 0 ∧ gN.curr_living = 0 by
    obtain ⟨bN, gN, h1, h2, _⟩ := h
    exact ⟨bN, gN, h1, h2⟩
  induction N with
  | zero => exact ⟨b, g, rfl, rfl, hwf, rfl, rfl, hd, hl⟩
  | succ N ih =>
    obtain ⟨bN, gN, h1, h2, hwfN, hrN, hcN, hdN, hlN⟩ := ih
    obtain ⟨b2, hu1, hu2, hwf2, hr2, hc2⟩ := update_board_agree bN hwfN (by omega) (by omega)
      (by rw [hrN, hcN]; exact hsz) n1 n2 hn1 hn2 (s1 N) (s2 N) gN gN hdN hlN hdN hlN
    refine ⟨b2, Globals.init, ?_, ?_, hwf2, hr2.trans hrN, hc2.trans hcN, rfl, rfl⟩
    · simp only [update_board_times, h1, Option.bind_eq_bind, Option.some_bind, hu1]
    · simp only [update_board_times, h2, Option.bind_eq_bind, Option.some_bind, hu2]

/-- An instance of `thread_count_invariance`: two generations of the 3x3 board
with a live middle row, with one worker and with four. -/
theorem thread_count_invariance_witness :
    (board_row3.WF ∧ (1 : Int) ≤ board_row3.rows ∧ (1 : Int) ≤ board_row3.cols ∧
      board_row3.rows * board_row3.cols ≤ 2147483647 ∧ (1 : Int) ≤ 1 ∧ (1 : Int) ≤ 4 ∧ Globals.init.curr_death = 0 ∧
      Globals.init.curr_living = 0) ∧
    ∃ bN gN, update_board_times 1 (fun _ => []) 2 (board_row3, Globals.init) = some (bN, gN) ∧
      update_board_times 4 (fun _ => [3, 0, 3, 1]) 2 (board_row3, Globals.init)
        = some (bN, gN) :=
  ⟨by decide, thread_count_invariance board_row3 1 4 (fun _ => []) (fun _ => [3, 0, 3, 1])
    Globals.init 2 (by decide) (by decide) (by decide) (by decide) (by decide) (by decide)
    rfl rfl⟩

/-! ## C6: no cell is recorded twice -/

theorem nodup_of_length_le_one {α : Type} (l : List α) (h : l.length ≤ 1) : l.Nodup := by
  match l, h with
  | [], _ => exact List.nodup_nil
  | [a], _ => exact List.nodup_singleton a
  | _ :: _ :: _, h => simp at h

theorem nodup_flatMap_of_key {α β : Type} (l : List α) (hl : l.Nodup) (f : α → List β)
    (key : β → α) (h1 : ∀ a ∈ l, (f a).Nodup) (h2 : ∀ a, ∀ x ∈ f a, key x = a) :
    (l.flatMap f).Nodup := by
  rw [List.nodup_flatMap]
  refine ⟨h1, ?_⟩
  apply hl.pairwise_of_forall_ne
  intro a _ c _ hne
  show List.Disjoint (f a) (f c)
  rw [List.disjoint_left]
  intro x hxa hxc
  exact hne ((h2 a x hxa).symm.trans (h2 c x hxc))

theorem visited_cells_eq (b : Board) (n : Int) (hr : 0 ≤ b.rows) (hn : 1 ≤ n) :
    visited_cells b n = (int_range 0 b.rows).flatMap (fun i =>
      (int_range 0 b.cols).map (fun j => make_point i j)) := by
  have := worker_rows_partition b n hr hn
  unfold worker_rows thread_args at this
  unfold visited_cells
  rw [← List.flatMap_assoc, this]

theorem visited_cells_nodup (b : Board) (n : Int) (hr : 0 ≤ b.rows) (hn : 1 ≤ n) :
    (visited_cells b n).Nodup := by
  rw [visited_cells_eq b n hr hn]
  apply nodup_flatMap_of_key _ (int_range_nodup _ _) _ Point.row
  · intro i _
    apply List.Nodup.map _ (int_range_nodup _ _)
    intro j j2 h
    simpa [make_point] using h
  · intro i p hp
    rw [List.mem_map] at hp
    obtain ⟨j, _, rfl⟩ := hp
    rfl

theorem mem_visited_cells (b : Board) (n : Int) (hr : 0 ≤ b.rows) (hn : 1 ≤ n) (p : Point) :
    p ∈ visited_cells b n ↔ (0 ≤ p.row ∧ p.row < b.rows) ∧ (0 ≤ p.col ∧ p.col < b.cols) := by
  rw [visited_cells_eq b n hr hn]
  simp only [List.mem_flatMap, List.mem_map, mem_int_range, make_point]
  constructor
  · rintro ⟨i, hi, j, hj, rfl⟩
    exact ⟨hi, hj⟩
  · rintro ⟨hi, hj⟩
    exact ⟨p.row, hi, p.col, hj, rfl⟩

/-- No two critical sections of a generation name the same cell. -/
theorem board_events_points_nodup (b : Board) :
    ((board_events b).map Append.point).Nodup := by
  unfold board_events
  rw [List.map_flatMap]
  apply nodup_flatMap_of_key _ (int_range_nodup _ _) _ Point.row
  · intro i _
    unfold row_events
    rw [List.map_flatMap]
    apply nodup_flatMap_of_key _ (int_range_nodup _ _) _ Point.col
    · intro j _
      apply nodup_of_length_le_one
      rw [List.length_map]
      exact record_cell_length _ _ _
    · intro j p hp
      rw [List.mem_map] at hp
      obtain ⟨e, he, rfl⟩ := hp
      rw [record_cell_point _ _ _ _ he]
      rfl
  · intro i p hp
    rw [List.mem_map] at hp
    obtain ⟨e, he, rfl⟩ := hp
    unfold row_events at he
    rw [List.mem_flatMap] at he
    obtain ⟨j, _, hej⟩ := he
    rw [record_cell_point _ _ _ _ hej]
    rfl

theorem dead_points_sub (l : List Append) (p : Point) (h : p ∈ dead_points l) :
    p ∈ l.map Append.point := by
  rw [mem_dead_points] at h
  exact List.mem_map.mpr ⟨_, h, rfl⟩

theorem alive_points_sub (l : List Append) (p : Point) (h : p ∈ alive_points l) :
    p ∈ l.map Append.point := by
  rw [mem_alive_points] at h
  exact List.mem_map.mpr ⟨_, h, rfl⟩

theorem points_nodup_disjoint (l : List Append) (h : (l.map Append.point).Nodup) :
    (dead_points l).Nodup ∧ (alive_points l).Nodup ∧
      List.Disjoint (dead_points l) (alive_points l) := by
  induction l with
  | nil => simp [dead_points, alive_points]
  | cons e l ih =>
    rw [List.map_cons, List.nodup_cons] at h
    obtain ⟨hd, ha, hdis⟩ := ih h.2
    cases e with
    | dead p =>
      have hdp : dead_points (Append.dead p :: l) = p :: dead_points l := by
        simp [dead_points]
      have hap : alive_points (Append.dead p :: l) = alive_points l := by
        simp [alive_points]
      rw [hdp, hap]
      refine ⟨List.nodup_cons.mpr ⟨fun hm => h.1 (dead_points_sub l p hm), hd⟩, ha, ?_⟩
      rw [List.disjoint_cons_left]
      exact ⟨fun hm => h.1 (alive_points_sub l p hm), hdis⟩
    | alive p =>
      have hdp : dead_points (Append.alive p :: l) = dead_points l := by
        simp [dead_points]
      have hap : alive_points (Append.alive p :: l) = p :: alive_points l := by
        simp [alive_points]
      rw [hdp, hap]
      refine ⟨hd, List.nodup_cons.mpr ⟨fun hm => h.1 (alive_points_sub l p hm), ha⟩, ?_⟩
      rw [List.disjoint_cons_right]
      exact ⟨fun hm => h.1 (dead_points_sub l p hm), hdis⟩

theorem buffer_take (pts : List Point) (k : Nat) :
    (buffer pts k).take ((pts.length : Int)).toNat = pts.map some := by
  unfold buffer
  rw [Int.toNat_natCast]
  exact List.take_left' (by simp)

/-- The dead and alive points of a rearrangement of the generation's events
are duplicate free and have no point in common. -/
theorem perm_points_nodup_disjoint (b : Board) (l : List Append)
    (hl : l.Perm (board_events b)) :
    (dead_points l).Nodup ∧ (alive_points l).Nodup ∧
      List.Disjoint (dead_points l) (alive_points l) :=
  points_nodup_disjoint l (((hl.map Append.point).nodup_iff).mpr (board_events_points_nodup b))

/-- The critical sections executed by the workers, in worker order, are
those of the visited cells in the order of the visit: every visited cell is
evaluated once, by `record_cell` on its content and its neighbour count. -/
theorem worker_traces_visit (b : Board) (hwf : b.WF) (hr : 1 ≤ b.rows) (hc : 1 ≤ b.cols)
    (n : Int) (hn : 1 ≤ n) :
    (worker_traces b n).flatten = (visited_cells b n).flatMap (fun p =>
      record_cell ((board_get b p.row p.col).getD '-')
        ((calculate_live_neighbors b p.row p.col).getD 0) p) := by
  rw [worker_traces_flatten b n (by omega) hn, visited_cells_eq b n (by omega) hn]
  unfold board_events row_events
  rw [List.flatMap_assoc]
  apply flatMap_congr_mem
  intro i hi
  rw [mem_int_range] at hi
  rw [flatMap_map_eq]
  apply flatMap_congr_mem
  intro j hj
  rw [mem_int_range] at hj
  simp only [cell_events, make_point, calculate_live_neighbors_eq b hwf hr hc i j (by omega)
    (by omega) (by omega) (by omega), Option.getD_some]

/-- The property of C6 on the boards whose cell count is an `int`: in every
generation of a board with `rows ≥ 1`, `cols ≥ 1` and at most `2^31 - 1` cells, with `n ≥ 1` workers and under every execution
order, the written parts of the two buffers `dead` and `alive` contain no cell
twice and have no cell in common; the cells evaluated by the workers over their
row ranges are the in-range cells, each exactly once, and the critical sections
the workers (`check_rows`) execute are, cell by cell in the order of the visit,
those `record_cell` gives for the cell. -/
theorem accumulators_disjoint (b : Board) (n : Int) (sched : List Nat) (g : Globals)
    (hwf : b.WF) (hr : 1 ≤ b.rows) (hc : 1 ≤ b.cols) (hsz : b.rows * b.cols ≤ 2147483647)
    (hn : 1 ≤ n) (hd : g.curr_death = 0) (hl : g.curr_living = 0) :
    ∃ g2, run_workers b n sched g = some g2 ∧
      (g2.dead.take g2.curr_death.toNat).Nodup ∧
      (g2.alive.take g2.curr_living.toNat).Nodup ∧
      List.Disjoint (g2.dead.take g2.curr_death.toNat) (g2.alive.take g2.curr_living.toNat) ∧
      none ∉ g2.dead.take g2.curr_death.toNat ∧ none ∉ g2.alive.take g2.curr_living.toNat ∧
      (visited_cells b n).Nodup ∧
      (∀ p : Point, p ∈ visited_cells b n ↔
        (0 ≤ p.row ∧ p.row < b.rows) ∧ (0 ≤ p.col ∧ p.col < b.cols)) ∧
      ∃ traces : List (List Append),
        (int_range 0 n).mapM
          (fun k => check_rows (prepare_thread_args b n k (Int.tdiv b.rows n))) = some traces ∧
        traces.flatten = (visited_cells b n).flatMap (fun p =>
          record_cell ((board_get b p.row p.col).getD '-')
            ((calculate_live_neighbors b p.row p.col).getD 0) p) := by
  obtain ⟨l, kd, ka, hperm, hrun⟩ := run_workers_spec b hwf hr hc hsz n hn sched g hd hl
  obtain ⟨h1, h2, h3⟩ := perm_points_nodup_disjoint b l hperm
  refine ⟨_, hrun, ?_, ?_, ?_, ?_, ?_, visited_cells_nodup b n (by omega) hn,
    mem_visited_cells b n (by omega) hn, worker_traces b n,
    check_rows_workers b hwf hr hc n hn, worker_traces_visit b hwf hr hc n hn⟩
  · simp only [buffer_take]
    exact List.Nodup.map (Option.some_injective _) h1
  · simp only [buffer_take]
    exact List.Nodup.map (Option.some_injective _) h2
  · simp only [buffer_take]
    rw [List.disjoint_left]
    intro x hx hx2
    rw [List.mem_map] at hx hx2
    obtain ⟨p, hp, rfl⟩ := hx
    obtain ⟨q, hq, hpq⟩ := hx2
    have : q = p := by simpa using hpq
    subst this
    exact (List.disjoint_left.mp h3) hp hq
  · simp only [buffer_take]
    simp
  · simp only [buffer_take]
    simp

/-- An instance of `accumulators_disjoint`: the 4x5 board with a flat blinker, two workers;
both buffers are written. -/
theorem accumulators_disjoint_witness :
    (board_blinker45.WF ∧ (1 : Int) ≤ board_blinker45.rows ∧ (1 : Int) ≤ board_blinker45.cols ∧
      board_blinker45.rows * board_blinker45.cols ≤ 2147483647 ∧
      (1 : Int) ≤ 2 ∧ Globals.init.curr_death = 0 ∧ Globals.init.curr_living = 0) ∧
    ∃ g2, run_workers board_blinker45 2 [1, 0, 1] Globals.init = some g2 ∧
      (g2.dead.take g2.curr_death.toNat).Nodup ∧
      (g2.alive.take g2.curr_living.toNat).Nodup ∧
      List.Disjoint (g2.dead.take g2.curr_death.toNat) (g2.alive.take g2.curr_living.toNat) ∧
      none ∉ g2.dead.take g2.curr_death.toNat ∧ none ∉ g2.alive.take g2.curr_living.toNat ∧
      (visited_cells board_blinker45 2).Nodup ∧
      (∀ p : Point, p ∈ visited_cells board_blinker45 2 ↔
        (0 ≤ p.row ∧ p.row < board_blinker45.rows) ∧
          (0 ≤ p.col ∧ p.col < board_blinker45.cols)) ∧
      ∃ traces : List (List Append),
        (int_range 0 2).mapM (fun k => check_rows
          (prepare_thread_args board_blinker45 2 k (Int.tdiv board_blinker45.rows 2)))
          = some traces ∧
        traces.flatten = (visited_cells board_blinker45 2).flatMap (fun p =>
          record_cell ((board_get board_blinker45 p.row p.col).getD '-')
            ((calculate_live_neighbors board_blinker45 p.row p.col).getD 0) p) :=
  ⟨by decide, accumulators_disjoint board_blinker45 2 [1, 0, 1] Globals.init (by decide)
    (by decide) (by decide) (by decide) (by decide) rfl rfl⟩

/-! ## C7: the commit does not depend on the order of the buffers -/

theorem eq_map_some_of_not_mem_none (l : List (Option Point)) (h : none ∉ l) :
    l = l.reduceOption.map some := by
  induction l with
  | nil => rfl
  | cons x l ih =>
    cases x with
    | none => exact absurd (List.mem_cons_self _ _) h
    | some p =>
      rw [List.reduceOption_cons_of_some, List.map_cons,
        ← ih (fun hm => h (List.mem_cons_of_mem _ hm))]

/-- A rearrangement of the written part of a buffer is a full buffer holding
the same points. -/
theorem perm_buffer (pts : List Point) (dl : List (Option Point))
    (h : dl.Perm (pts.map some)) :
    ∃ pts2 : List Point, dl = buffer pts2 0 ∧ (dl.length : Int) = (pts2.length : Int) ∧
      ∀ p, p ∈ pts2 ↔ p ∈ pts := by
  have hnone : none ∉ dl := by
    intro hm
    have := h.mem_iff.mp hm
    simp at this
  refine ⟨dl.reduceOption, ?_, ?_, ?_⟩
  · unfold buffer
    simpa using eq_map_some_of_not_mem_none dl hnone
  · have := congrArg List.length (eq_map_some_of_not_mem_none dl hnone)
    rw [List.length_map] at this
    rw [this]
  · intro p
    rw [List.reduceOption_mem_iff, h.mem_iff]
    simp

/-- The alive pass followed by the dead pass, on buffers holding in-range
points. -/
theorem update_cells_swapped_spec (b : Board) (hwf : b.WF) (ds as : List Point) (kd ka : Nat)
    (hds : ∀ p ∈ ds, 0 ≤ p.row ∧ p.row < b.rows ∧ 0 ≤ p.col ∧ p.col < b.cols)
    (has : ∀ p ∈ as, 0 ≤ p.row ∧ p.row < b.rows ∧ 0 ≤ p.col ∧ p.col < b.cols) :
    ∃ b2, (update_cell_content b (buffer as ka) (as.length : Int) 'X').bind
        (fun b1 => update_cell_content b1 (buffer ds kd) (ds.length : Int) '-') = some b2 ∧
      b2.WF ∧ b2.rows = b.rows ∧ b2.cols = b.cols ∧ b2.iterations = b.iterations ∧
      ∀ i j : Int, board_get b2 i j =
        if (⟨i, j⟩ : Point) ∈ ds then some '-'
        else if (⟨i, j⟩ : Point) ∈ as then some 'X' else board_get b i j := by
  obtain ⟨b1, hw1, hwf1, hr1, hc1, hit1, hget1⟩ := write_points_spec 'X' as b hwf has
  obtain ⟨b2, hw2, hwf2, hr2, hc2, hit2, hget2⟩ := write_points_spec '-' ds b1 hwf1 (by
    intro p hp
    rw [hr1, hc1]
    exact hds p hp)
  refine ⟨b2, ?_, hwf2, hr2.trans hr1, hc2.trans hc1, hit2.trans hit1, ?_⟩
  · rw [update_cell_content_buffer, hw1]
    simp only [Option.some_bind]
    rw [update_cell_content_buffer, hw2]
  · intro i j
    rw [hget2, hget1]

/-- C7: for the buffers produced by one generation (the state `g2` of the
global variables in which the workers of a generation are joined), the
committed board does not depend on the order of application: `update_cells`
returns a board, replacing the written part of either buffer by any
rearrangement of itself gives that board, and so does running the alive pass
before the dead pass. -/
theorem commit_order_irrelevant (b : Board) (n : Int) (sched : List Nat) (g g2 : Globals)
    (hwf : b.WF) (hr : 1 ≤ b.rows) (hc : 1 ≤ b.cols)
    (hd : g.curr_death = 0) (hl : g.curr_living = 0)
    (hg2 : run_workers b n sched g = some g2) :
    ∃ b2, update_cells b g2.dead g2.curr_death g2.alive g2.curr_living = some b2 ∧
      ∀ dl al : List (Option Point),
        dl.Perm (g2.dead.take g2.curr_death.toNat) →
        al.Perm (g2.alive.take g2.curr_living.toNat) →
        update_cells b dl (dl.length : Int) al (al.length : Int) = some b2 ∧
        (update_cell_content b al (al.length : Int) 'X').bind
          (fun b1 => update_cell_content b1 dl (dl.length : Int) '-') = some b2 := by
  obtain ⟨hsz, hn⟩ := run_workers_some b n sched g g2 hr hc hg2
  obtain ⟨l, kd, ka, hperm, hrun⟩ := run_workers_spec b hwf hr hc hsz n hn sched g hd hl
  have hdin := dead_points_in_range b l hperm
  have hain := alive_points_in_range b l hperm
  obtain ⟨_, _, hdis⟩ := perm_points_nodup_disjoint b l hperm
  obtain ⟨b2, hup, hwf2, hr2, hc2, hit2, hget⟩ := update_cells_spec b hwf (dead_points l)
    (alive_points l) kd ka hdin hain
  have hg : g2 = ⟨buffer (dead_points l) kd, buffer (alive_points l) ka,
      ((dead_points l).length : Int), ((alive_points l).length : Int)⟩ := by
    rw [hrun] at hg2
    exact (Option.some.inj hg2).symm
  subst hg
  refine ⟨b2, hup, ?_⟩
  intro dl al hdl hal
  simp only [buffer_take] at hdl hal
  obtain ⟨ds, rfl, hdlen, hdmem⟩ := perm_buffer _ dl hdl
  obtain ⟨as, rfl, halen, hamem⟩ := perm_buffer _ al hal
  have hds : ∀ p ∈ ds, 0 ≤ p.row ∧ p.row < b.rows ∧ 0 ≤ p.col ∧ p.col < b.cols :=
    fun p hp => hdin p ((hdmem p).mp hp)
  have has : ∀ p ∈ as, 0 ≤ p.row ∧ p.row < b.rows ∧ 0 ≤ p.col ∧ p.col < b.cols :=
    fun p hp => hain p ((hamem p).mp hp)
  rw [hdlen, halen]
  constructor
  · obtain ⟨b3, hup3, hwf3, hr3, hc3, hit3, hget3⟩ := update_cells_spec b hwf ds as 0 0 hds has
    rw [hup3]
    congr 1
    apply board_ext b2 b3 hwf2 hwf3 (hr3.trans hr2.symm) (hc3.trans hc2.symm)
      (hit3.trans hit2.symm)
    intro i j _ _ _ _
    rw [hget3, hget]
    simp only [hdmem, hamem]
  · obtain ⟨b3, hup3, hwf3, hr3, hc3, hit3, hget3⟩ :=
      update_cells_swapped_spec b hwf ds as 0 0 hds has
    rw [hup3]
    congr 1
    apply board_ext b2 b3 hwf2 hwf3 (hr3.trans hr2.symm) (hc3.trans hc2.symm)
      (hit3.trans hit2.symm)
    intro i j _ _ _ _
    rw [hget3, hget]
    simp only [hdmem, hamem]
    by_cases h1 : (⟨i, j⟩ : Point) ∈ dead_points l
    · have h2 : (⟨i, j⟩ : Point) ∉ alive_points l := (List.disjoint_left.mp hdis) h1
      simp [h1, h2]
    · simp [h1]

/-- Witness for C7: the 4x5 board with a flat blinker, two workers.  The
generation writes two points to `dead` and three to `alive`. -/
theorem commit_order_irrelevant_witness :
    (board_blinker45.WF ∧ (1 : Int) ≤ board_blinker45.rows ∧ (1 : Int) ≤ board_blinker45.cols ∧
      Globals.init.curr_death = 0 ∧ Globals.init.curr_living = 0 ∧
      run_workers board_blinker45 2 [1, 1, 0] Globals.init
        = some ⟨buffer [⟨1, 1⟩, ⟨1, 3⟩] 18, buffer [⟨2, 2⟩, ⟨0, 2⟩, ⟨1, 2⟩] 17, 2, 3⟩) ∧
    ∃ b2, update_cells board_blinker45 (buffer [⟨1, 1⟩, ⟨1, 3⟩] 18) 2
        (buffer [⟨2, 2⟩, ⟨0, 2⟩, ⟨1, 2⟩] 17) 3 = some b2 ∧
      ∀ dl al : List (Option Point),
        dl.Perm ((buffer [⟨1, 1⟩, ⟨1, 3⟩] 18).take (2 : Int).toNat) →
        al.Perm ((buffer [⟨2, 2⟩, ⟨0, 2⟩, ⟨1, 2⟩] 17).take (3 : Int).toNat) →
        update_cells board_blinker45 dl (dl.length : Int) al (al.length : Int) = some b2 ∧
        (update_cell_content board_blinker45 al (al.length : Int) 'X').bind
          (fun b1 => update_cell_content b1 dl (dl.length : Int) '-') = some b2 :=
  ⟨by decide, commit_order_irrelevant board_blinker45 2 [1, 1, 0] Globals.init
    ⟨buffer [⟨1, 1⟩, ⟨1, 3⟩] 18, buffer [⟨2, 2⟩, ⟨0, 2⟩, ⟨1, 2⟩] 17, 2, 3⟩ (by decide)
    (by decide) (by decide) rfl rfl (by decide)⟩

/-! ## C8, C9, C10: still life, oscillator and wrap-around

Boards whose live cells form a rectangle of rows and columns. -/

theorem ind_cases (p : Prop) [Decidable p] : (p ∧ ind p = 1) ∨ (¬ p ∧ ind p = 0) := by
  unfold ind
  by_cases h : p <;> simp [h]

theorem safe_wrap_cases (i max_i : Int) :
    (i < 0 ∧ safe_wrap i max_i = max_i - 1) ∨ (0 ≤ i ∧ max_i ≤ i ∧ safe_wrap i max_i = 0) ∨
      (0 ≤ i ∧ i < max_i ∧ safe_wrap i max_i = i) := by
  unfold safe_wrap
  split_ifs <;> omega

/-- The neighbour count of a board whose live cells are the cells `(x, y)` with
`R x` and `C y`: the live rows among the three around `i` times the live
columns among the three around `j`, less the cell itself. -/
theorem neighbor_sum_product (b : Board) (hr : 1 ≤ b.rows) (hc : 1 ≤ b.cols)
    (R C : Int → Prop) [DecidablePred R] [DecidablePred C]
    (H : ∀ i j : Int, 0 ≤ i → i < b.rows → 0 ≤ j → j < b.cols →
      (board_get b i j = some 'X' ↔ R i ∧ C j))
    (i j : Int) (hi0 : 0 ≤ i) (hi : i < b.rows) (hj0 : 0 ≤ j) (hj : j < b.cols) :
    neighbor_sum b i j =
      (ind (R (safe_wrap (i + 1) b.rows)) + ind (R i) + ind (R (safe_wrap (i - 1) b.rows))) *
      (ind (C (safe_wrap (j + 1) b.cols)) + ind (C j) + ind (C (safe_wrap (j - 1) b.cols)))
      - ind (R i) * ind (C j) := by
  have key : ∀ x y : Int, 0 ≤ x → x < b.rows → 0 ≤ y → y < b.cols →
      live (board_get b x y) = ind (R x) * ind (C y) := by
    intro x y hx0 hx hy0 hy
    have h := H x y hx0 hx hy0 hy
    unfold live ind
    by_cases h1 : R x
    · by_cases h2 : C y
      · simp [h1, h2, h.mpr ⟨h1, h2⟩]
      · have : ¬ board_get b x y = some 'X' := fun hh => h2 (h.mp hh).2
        simp [h1, h2, this]
    · have : ¬ board_get b x y = some 'X' := fun hh => h1 (h.mp hh).1
      simp [h1, this]
  have ip := safe_wrap_range (i + 1) b.rows hr (by omega) (by omega)
  have im := safe_wrap_range (i - 1) b.rows hr (by omega) (by omega)
  have jp := safe_wrap_range (j + 1) b.cols hc (by omega) (by omega)
  have jm := safe_wrap_range (j - 1) b.cols hc (by omega) (by omega)
  unfold neighbor_sum
  rw [key _ j ip.1 ip.2 hj0 hj, key _ j im.1 im.2 hj0 hj, key i _ hi0 hi jp.1 jp.2,
    key i _ hi0 hi jm.1 jm.2, key _ _ ip.1 ip.2 jp.1 jp.2, key _ _ ip.1 ip.2 jm.1 jm.2,
    key _ _ im.1 im.2 jp.1 jp.2, key _ _ im.1 im.2 jm.1 jm.2]
  ring

/-- Among three cyclically consecutive positions of a cycle of length at least
4, at most two lie in `{r, r+1}`, and exactly two when the middle one does. -/
theorem block_axis (m r x : Int) (hm : 4 ≤ m) (hr0 : 0 ≤ r) (hr1 : r + 1 < m)
    (hx0 : 0 ≤ x) (hx1 : x < m) :
    0 ≤ ind (safe_wrap (x + 1) m = r ∨ safe_wrap (x + 1) m = r + 1) + ind (x = r ∨ x = r + 1)
        + ind (safe_wrap (x - 1) m = r ∨ safe_wrap (x - 1) m = r + 1) ∧
      ind (safe_wrap (x + 1) m = r ∨ safe_wrap (x + 1) m = r + 1) + ind (x = r ∨ x = r + 1)
        + ind (safe_wrap (x - 1) m = r ∨ safe_wrap (x - 1) m = r + 1) ≤ 2 ∧
      ((x = r ∨ x = r + 1) →
        ind (safe_wrap (x + 1) m = r ∨ safe_wrap (x + 1) m = r + 1) + ind (x = r ∨ x = r + 1)
          + ind (safe_wrap (x - 1) m = r ∨ safe_wrap (x - 1) m = r + 1) = 2) := by
  have w1 := safe_wrap_cases (x + 1) m
  have w2 := safe_wrap_cases (x - 1) m
  have i1 := ind_cases (safe_wrap (x + 1) m = r ∨ safe_wrap (x + 1) m = r + 1)
  have i0 := ind_cases (x = r ∨ x = r + 1)
  have i2 := ind_cases (safe_wrap (x - 1) m = r ∨ safe_wrap (x - 1) m = r + 1)
  omega

/-- One generation leaves a 2x2 block on a board of at least 4x4 as it is. -/
theorem block_step (b : Board) (r c n : Int) (sched : List Nat) (g : Globals)
    (hwf : b.WF) (hr : 4 ≤ b.rows) (hc : 4 ≤ b.cols)
    (hsz : b.rows * b.cols ≤ 2147483647)
    (hr0 : 0 ≤ r) (hr1 : r + 1 < b.rows) (hc0 : 0 ≤ c) (hc1 : c + 1 < b.cols)
    (hblock : ∀ i j : Int, 0 ≤ i → i < b.rows → 0 ≤ j → j < b.cols →
      (board_get b i j = some 'X' ↔ (i = r ∨ i = r + 1) ∧ (j = c ∨ j = c + 1)))
    (hn : 1 ≤ n) (hd : g.curr_death = 0) (hl : g.curr_living = 0) :
    update_board b n sched g = some (b, Globals.init) := by
  obtain ⟨b2, hup, hwf2, hr2, hc2, hit2, hget⟩ :=
    update_board_spec b hwf (by omega) (by omega) hsz n hn sched g hd hl
  have : b2 = b := by
    apply board_ext b b2 hwf hwf2 hr2 hc2 hit2
    intro i j hi0 hi hj0 hj
    rw [hget]
    obtain ⟨ch, hcell⟩ := board_get_isSome b hwf i j hi0 hi hj0 hj
    have hsum := neighbor_sum_product b (by omega) (by omega)
      (fun x => x = r ∨ x = r + 1) (fun y => y = c ∨ y = c + 1) hblock i j hi0 hi hj0 hj
    have hA := block_axis b.rows r i hr hr0 hr1 hi0 hi
    have hB := block_axis b.cols c j hc hc0 hc1 hj0 hj
    have hX := hblock i j hi0 hi hj0 hj
    have i0 := ind_cases (i = r ∨ i = r + 1)
    have j0 := ind_cases (j = c ∨ j = c + 1)
    simp only at hsum
    generalize ind (safe_wrap (i + 1) b.rows = r ∨ safe_wrap (i + 1) b.rows = r + 1)
      + ind (i = r ∨ i = r + 1)
      + ind (safe_wrap (i - 1) b.rows = r ∨ safe_wrap (i - 1) b.rows = r + 1) = A at hsum hA
    generalize ind (safe_wrap (j + 1) b.cols = c ∨ safe_wrap (j + 1) b.cols = c + 1)
      + ind (j = c ∨ j = c + 1)
      + ind (safe_wrap (j - 1) b.cols = c ∨ safe_wrap (j - 1) b.cols = c + 1) = B at hsum hB
    rw [hcell] at hX
    simp only [next_cell, hcell, Option.map_some', Option.some.injEq, next_char]
    simp only [Option.some.injEq] at hX
    by_cases hch : ch = 'X'
    · have hRC := hX.mp hch
      have hA2 : A = 2 := hA.2.2 hRC.1
      have hB2 : B = 2 := hB.2.2 hRC.2
      have e1 : ind (i = r ∨ i = r + 1) = 1 := by
        rcases i0 with h | h
        · exact h.2
        · exact absurd hRC.1 h.1
      have e2 : ind (j = c ∨ j = c + 1) = 1 := by
        rcases j0 with h | h
        · exact h.2
        · exact absurd hRC.2 h.1
      rw [hA2, hB2, e1, e2] at hsum
      have : neighbor_sum b i j = 3 := by rw [hsum]; norm_num
      simp [hch, this]
    · have hz : ind (i = r ∨ i = r + 1) * ind (j = c ∨ j = c + 1) = 0 := by
        rcases i0 with h | h
        · rcases j0 with h2 | h2
          · exact absurd (hX.mpr ⟨h.1, h2.1⟩) hch
          · rw [h2.2, mul_zero]
        · rw [h.2, zero_mul]
      rw [hz, sub_zero] at hsum
      have hne : neighbor_sum b i j ≠ 3 := by
        rw [hsum]
        obtain ⟨hA0, hA1, _⟩ := hA
        obtain ⟨hB0, hB1, _⟩ := hB
        interval_cases A <;> interval_cases B <;> decide
      simp [hch, hne]
  rw [this] at hup
  exact hup

theorem next_char_X (k : Int) : next_char 'X' k = if k = 2 ∨ k = 3 then 'X' else '-' := by
  unfold next_char
  by_cases h : k < 2 ∨ k > 3
  · have h2 : ¬ (k = 2 ∨ k = 3) := by omega
    simp [h, h2]
  · have h2 : k = 2 ∨ k = 3 := by omega
    simp [h, h2]

theorem next_char_dash (k : Int) : next_char '-' k = if k = 3 then 'X' else '-' := by
  unfold next_char
  simp

/-- The cell after a generation of a board that shows `'X'` on the cells
`(x, y)` with `R x` and `C y` and `'-'` on all others. -/
theorem next_cell_product (b : Board) (hr : 1 ≤ b.rows) (hc : 1 ≤ b.cols)
    (R C : Int → Prop) [DecidablePred R] [DecidablePred C]
    (H : ∀ i j : Int, 0 ≤ i → i < b.rows → 0 ≤ j → j < b.cols →
      board_get b i j = some (if R i ∧ C j then 'X' else '-'))
    (i j : Int) (hi0 : 0 ≤ i) (hi : i < b.rows) (hj0 : 0 ≤ j) (hj : j < b.cols) :
    next_cell b i j = some (next_char (if R i ∧ C j then 'X' else '-')
      ((ind (R (safe_wrap (i + 1) b.rows)) + ind (R i) + ind (R (safe_wrap (i - 1) b.rows))) *
      (ind (C (safe_wrap (j + 1) b.cols)) + ind (C j) + ind (C (safe_wrap (j - 1) b.cols)))
      - ind (R i) * ind (C j))) := by
  have H2 : ∀ i j : Int, 0 ≤ i → i < b.rows → 0 ≤ j → j < b.cols →
      (board_get b i j = some 'X' ↔ R i ∧ C j) := by
    intro x y hx0 hx hy0 hy
    rw [H x y hx0 hx hy0 hy]
    by_cases h : R x ∧ C y
    · simp [h]
    · simp [h]
  unfold next_cell
  rw [neighbor_sum_product b hr hc R C H2 i j hi0 hi hj0 hj, H i j hi0 hi hj0 hj]
  rfl

/-- Rows around `i` that hold the single live row `r`. -/
theorem blinker_row_axis (m r x : Int) (hm : 3 ≤ m) (hr0 : 0 ≤ r) (hr1 : r < m)
    (hx0 : 0 ≤ x) (hx1 : x < m) :
    ((x = r ∨ x = safe_wrap (r + 1) m ∨ x = safe_wrap (r - 1) m) →
      ind (safe_wrap (x + 1) m = r) + ind (x = r) + ind (safe_wrap (x - 1) m = r) = 1) ∧
    (¬ (x = r ∨ x = safe_wrap (r + 1) m ∨ x = safe_wrap (r - 1) m) →
      ind (safe_wrap (x + 1) m = r) + ind (x = r) + ind (safe_wrap (x - 1) m = r) = 0) := by
  have w1 := safe_wrap_cases (x + 1) m
  have w2 := safe_wrap_cases (x - 1) m
  have w3 := safe_wrap_cases (r + 1) m
  have w4 := safe_wrap_cases (r - 1) m
  have i1 := ind_cases (safe_wrap (x + 1) m = r)
  have i0 := ind_cases (x = r)
  have i2 := ind_cases (safe_wrap (x - 1) m = r)
  omega

/-- Columns around `j` that lie in the three live columns `c, c+1, c+2`. -/
theorem blinker_col_axis (m c y : Int) (hm : 4 ≤ m) (hc0 : 0 ≤ c) (hc2 : c + 2 < m)
    (hy0 : 0 ≤ y) (hy1 : y < m) :
    (y = c + 1 →
      ind (c ≤ safe_wrap (y + 1) m ∧ safe_wrap (y + 1) m ≤ c + 2) + ind (c ≤ y ∧ y ≤ c + 2)
        + ind (c ≤ safe_wrap (y - 1) m ∧ safe_wrap (y - 1) m ≤ c + 2) = 3) ∧
    ((y = c ∨ y = c + 2) →
      ind (c ≤ safe_wrap (y + 1) m ∧ safe_wrap (y + 1) m ≤ c + 2) + ind (c ≤ y ∧ y ≤ c + 2)
        + ind (c ≤ safe_wrap (y - 1) m ∧ safe_wrap (y - 1) m ≤ c + 2) = 2) ∧
    (¬ (c ≤ y ∧ y ≤ c + 2) →
      0 ≤ ind (c ≤ safe_wrap (y + 1) m ∧ safe_wrap (y + 1) m ≤ c + 2) + ind (c ≤ y ∧ y ≤ c + 2)
        + ind (c ≤ safe_wrap (y - 1) m ∧ safe_wrap (y - 1) m ≤ c + 2) ∧
      ind (c ≤ safe_wrap (y + 1) m ∧ safe_wrap (y + 1) m ≤ c + 2) + ind (c ≤ y ∧ y ≤ c + 2)
        + ind (c ≤ safe_wrap (y - 1) m ∧ safe_wrap (y - 1) m ≤ c + 2) ≤ 2) := by
  have w1 := safe_wrap_cases (y + 1) m
  have w2 := safe_wrap_cases (y - 1) m
  have i1 := ind_cases (c ≤ safe_wrap (y + 1) m ∧ safe_wrap (y + 1) m ≤ c + 2)
  have i0 := ind_cases (c ≤ y ∧ y ≤ c + 2)
  have i2 := ind_cases (c ≤ safe_wrap (y - 1) m ∧ safe_wrap (y - 1) m ≤ c + 2)
  omega

/-- Rows around `i` that lie in the three live rows of the upright blinker. -/
theorem upright_row_axis (m r x : Int) (hm : 4 ≤ m) (hr0 : 0 ≤ r) (hr1 : r < m)
    (hx0 : 0 ≤ x) (hx1 : x < m) :
    (x = r →
      ind (safe_wrap (x + 1) m = r ∨ safe_wrap (x + 1) m = safe_wrap (r + 1) m ∨
          safe_wrap (x + 1) m = safe_wrap (r - 1) m)
        + ind (x = r ∨ x = safe_wrap (r + 1) m ∨ x = safe_wrap (r - 1) m)
        + ind (safe_wrap (x - 1) m = r ∨ safe_wrap (x - 1) m = safe_wrap (r + 1) m ∨
          safe_wrap (x - 1) m = safe_wrap (r - 1) m) = 3) ∧
    ((x ≠ r ∧ (x = safe_wrap (r + 1) m ∨ x = safe_wrap (r - 1) m)) →
      ind (safe_wrap (x + 1) m = r ∨ safe_wrap (x + 1) m = safe_wrap (r + 1) m ∨
          safe_wrap (x + 1) m = safe_wrap (r - 1) m)
        + ind (x = r ∨ x = safe_wrap (r + 1) m ∨ x = safe_wrap (r - 1) m)
        + ind (safe_wrap (x - 1) m = r ∨ safe_wrap (x - 1) m = safe_wrap (r + 1) m ∨
          safe_wrap (x - 1) m = safe_wrap (r - 1) m) = 2) ∧
    (¬ (x = r ∨ x = safe_wrap (r + 1) m ∨ x = safe_wrap (r - 1) m) →
      0 ≤ ind (safe_wrap (x + 1) m = r ∨ safe_wrap (x + 1) m = safe_wrap (r + 1) m ∨
          safe_wrap (x + 1) m = safe_wrap (r - 1) m)
        + ind (x = r ∨ x = safe_wrap (r + 1) m ∨ x = safe_wrap (r - 1) m)
        + ind (safe_wrap (x - 1) m = r ∨ safe_wrap (x - 1) m = safe_wrap (r + 1) m ∨
          safe_wrap (x - 1) m = safe_wrap (r - 1) m) ∧
      ind (safe_wrap (x + 1) m = r ∨ safe_wrap (x + 1) m = safe_wrap (r + 1) m ∨
          safe_wrap (x + 1) m = safe_wrap (r - 1) m)
        + ind (x = r ∨ x = safe_wrap (r + 1) m ∨ x = safe_wrap (r - 1) m)
        + ind (safe_wrap (x - 1) m = r ∨ safe_wrap (x - 1) m = safe_wrap (r + 1) m ∨
          safe_wrap (x - 1) m = safe_wrap (r - 1) m) ≤ 2) := by
  rcases safe_wrap_cases (r + 1) m with ⟨h3, e3⟩ | ⟨_, h3, e3⟩ | ⟨_, h3, e3⟩ <;>
  rcases safe_wrap_cases (r - 1) m with ⟨h4, e4⟩ | ⟨_, h4, e4⟩ | ⟨_, h4, e4⟩ <;>
  rcases safe_wrap_cases (x + 1) m with ⟨h1, e1⟩ | ⟨_, h1, e1⟩ | ⟨_, h1, e1⟩ <;>
  rcases safe_wrap_cases (x - 1) m with ⟨h2, e2⟩ | ⟨_, h2, e2⟩ | ⟨_, h2, e2⟩ <;>
  first
    | (exfalso; omega)
    | (rw [e1, e2, e3, e4]; unfold ind; split_ifs <;> omega)

/-- Columns around `j` that hold the single live column `c + 1`. -/
theorem upright_col_axis (m c y : Int) (hm : 3 ≤ m) (hc0 : 0 ≤ c) (hc2 : c + 2 < m)
    (hy0 : 0 ≤ y) (hy1 : y < m) :
    ((c ≤ y ∧ y ≤ c + 2) →
      ind (safe_wrap (y + 1) m = c + 1) + ind (y = c + 1) + ind (safe_wrap (y - 1) m = c + 1)
        = 1) ∧
    (¬ (c ≤ y ∧ y ≤ c + 2) →
      ind (safe_wrap (y + 1) m = c + 1) + ind (y = c + 1) + ind (safe_wrap (y - 1) m = c + 1)
        = 0) := by
  have w1 := safe_wrap_cases (y + 1) m
  have w2 := safe_wrap_cases (y - 1) m
  have i1 := ind_cases (safe_wrap (y + 1) m = c + 1)
  have i0 := ind_cases (y = c + 1)
  have i2 := ind_cases (safe_wrap (y - 1) m = c + 1)
  omega

/-- One generation turns the flat blinker of row `r`, columns `c .. c+2`, into
the upright blinker of column `c+1` around row `r`. -/
theorem blinker_step_flat (b : Board) (r c n : Int) (sched : List Nat) (g : Globals)
    (hwf : b.WF) (hr : 4 ≤ b.rows) (hc : 4 ≤ b.cols) (hsz : b.rows * b.cols ≤ 2147483647)
    (hr0 : 0 ≤ r) (hr1 : r < b.rows) (hc0 : 0 ≤ c) (hc2 : c + 2 < b.cols)
    (hflat : ∀ i j : Int, 0 ≤ i → i < b.rows → 0 ≤ j → j < b.cols →
      board_get b i j = some (if i = r ∧ (c ≤ j ∧ j ≤ c + 2) then 'X' else '-'))
    (hn : 1 ≤ n) (hd : g.curr_death = 0) (hl : g.curr_living = 0) :
    ∃ b1, update_board b n sched g = some (b1, Globals.init) ∧ b1.WF ∧ b1.rows = b.rows ∧
      b1.cols = b.cols ∧ b1.iterations = b.iterations ∧
      ∀ i j : Int, 0 ≤ i → i < b.rows → 0 ≤ j → j < b.cols →
        board_get b1 i j = some (if (i = r ∨ i = safe_wrap (r + 1) b.rows ∨
          i = safe_wrap (r - 1) b.rows) ∧ j = c + 1 then 'X' else '-') := by
  obtain ⟨b1, hup, hwf1, hr1b, hc1b, hit1, hget⟩ :=
    update_board_spec b hwf (by omega) (by omega) hsz n hn sched g hd hl
  refine ⟨b1, hup, hwf1, hr1b, hc1b, hit1, ?_⟩
  intro i j hi0 hi hj0 hj
  rw [hget, next_cell_product b (by omega) (by omega) (fun x => x = r)
    (fun y => c ≤ y ∧ y ≤ c + 2) hflat i j hi0 hi hj0 hj]
  congr 1
  have hA := blinker_row_axis b.rows r i (by omega) hr0 hr1 hi0 hi
  have hB := blinker_col_axis b.cols c j hc hc0 hc2 hj0 hj
  have i0 := ind_cases (i = r)
  have j0 := ind_cases (c ≤ j ∧ j ≤ c + 2)
  generalize ind (safe_wrap (i + 1) b.rows = r) + ind (i = r)
    + ind (safe_wrap (i - 1) b.rows = r) = A at hA
  generalize ind (c ≤ safe_wrap (j + 1) b.cols ∧ safe_wrap (j + 1) b.cols ≤ c + 2)
    + ind (c ≤ j ∧ j ≤ c + 2)
    + ind (c ≤ safe_wrap (j - 1) b.cols ∧ safe_wrap (j - 1) b.cols ≤ c + 2) = B at hB
  generalize ind (i = r) = a0 at i0
  generalize ind (c ≤ j ∧ j ≤ c + 2) = b0 at j0
  by_cases hR : i = r ∨ i = safe_wrap (r + 1) b.rows ∨ i = safe_wrap (r - 1) b.rows
  · have hA1 : A = 1 := hA.1 hR
    subst hA1
    by_cases hi_r : i = r
    · have ha0 : a0 = 1 := by omega
      subst ha0
      by_cases hC : c ≤ j ∧ j ≤ c + 2
      · have hb0 : b0 = 1 := by omega
        subst hb0
        rw [if_pos ⟨hi_r, hC⟩, next_char_X]
        by_cases hj1 : j = c + 1
        · have : 1 * B - 1 * 1 = 2 := by have := hB.1 hj1; omega
          rw [if_pos (Or.inl this), if_pos ⟨hR, hj1⟩]
        · have : ¬ (1 * B - 1 * 1 = 2 ∨ 1 * B - 1 * 1 = 3) := by
            have := hB.2.1 (by omega)
            omega
          rw [if_neg this, if_neg (fun h => hj1 h.2)]
      · have hb0 : b0 = 0 := by omega
        subst hb0
        rw [if_neg (fun h => hC h.2), next_char_dash]
        have : ¬ (1 * B - 1 * 0 = 3) := by have := hB.2.2 hC; omega
        rw [if_neg this, if_neg (fun h => hC (by omega))]
    · have ha0 : a0 = 0 := by omega
      subst ha0
      rw [if_neg (fun h => hi_r h.1), next_char_dash]
      by_cases hj1 : j = c + 1
      · have : 1 * B - 0 * b0 = 3 := by have := hB.1 hj1; omega
        rw [if_pos this, if_pos ⟨hR, hj1⟩]
      · have : ¬ (1 * B - 0 * b0 = 3) := by
          have h1 := hB.2.1
          have h2 := hB.2.2
          omega
        rw [if_neg this, if_neg (fun h => hj1 h.2)]
  · have hA0 : A = 0 := hA.2 hR
    subst hA0
    have hi_r : ¬ i = r := fun h => hR (Or.inl h)
    have ha0 : a0 = 0 := by omega
    subst ha0
    rw [if_neg (fun h => hi_r h.1), next_char_dash]
    have : ¬ (0 * B - 0 * b0 = 3) := by omega
    rw [if_neg this, if_neg (fun h => hR h.1)]

/-- One generation turns the upright blinker of column `c+1` around row `r`
into the flat blinker of row `r`, columns `c .. c+2`. -/
theorem blinker_step_upright (b : Board) (r c n : Int) (sched : List Nat) (g : Globals)
    (hwf : b.WF) (hr : 4 ≤ b.rows) (hc : 4 ≤ b.cols) (hsz : b.rows * b.cols ≤ 2147483647)
    (hr0 : 0 ≤ r) (hr1 : r < b.rows) (hc0 : 0 ≤ c) (hc2 : c + 2 < b.cols)
    (hup : ∀ i j : Int, 0 ≤ i → i < b.rows → 0 ≤ j → j < b.cols →
      board_get b i j = some (if (i = r ∨ i = safe_wrap (r + 1) b.rows ∨
        i = safe_wrap (r - 1) b.rows) ∧ j = c + 1 then 'X' else '-'))
    (hn : 1 ≤ n) (hd : g.curr_death = 0) (hl : g.curr_living = 0) :
    ∃ b1, update_board b n sched g = some (b1, Globals.init) ∧ b1.WF ∧ b1.rows = b.rows ∧
      b1.cols = b.cols ∧ b1.iterations = b.iterations ∧
      ∀ i j : Int, 0 ≤ i → i < b.rows → 0 ≤ j → j < b.cols →
        board_get b1 i j = some (if i = r ∧ (c ≤ j ∧ j ≤ c + 2) then 'X' else '-') := by
  obtain ⟨b1, hupd, hwf1, hr1b, hc1b, hit1, hget⟩ :=
    update_board_spec b hwf (by omega) (by omega) hsz n hn sched g hd hl
  refine ⟨b1, hupd, hwf1, hr1b, hc1b, hit1, ?_⟩
  intro i j hi0 hi hj0 hj
  rw [hget, next_cell_product b (by omega) (by omega)
    (fun x => x = r ∨ x = safe_wrap (r + 1) b.rows ∨ x = safe_wrap (r - 1) b.rows)
    (fun y => y = c + 1) hup i j hi0 hi hj0 hj]
  congr 1
  have hA := upright_row_axis b.rows r i hr hr0 hr1 hi0 hi
  have hB := upright_col_axis b.cols c j (by omega) hc0 hc2 hj0 hj
  have i0 := ind_cases (i = r ∨ i = safe_wrap (r + 1) b.rows ∨ i = safe_wrap (r - 1) b.rows)
  have j0 := ind_cases (j = c + 1)
  generalize ind (safe_wrap (i + 1) b.rows = r ∨
      safe_wrap (i + 1) b.rows = safe_wrap (r + 1) b.rows ∨
      safe_wrap (i + 1) b.rows = safe_wrap (r - 1) b.rows)
    + ind (i = r ∨ i = safe_wrap (r + 1) b.rows ∨ i = safe_wrap (r - 1) b.rows)
    + ind (safe_wrap (i - 1) b.rows = r ∨
      safe_wrap (i - 1) b.rows = safe_wrap (r + 1) b.rows ∨
      safe_wrap (i - 1) b.rows = safe_wrap (r - 1) b.rows) = A at hA
  generalize ind (safe_wrap (j + 1) b.cols = c + 1) + ind (j = c + 1)
    + ind (safe_wrap (j - 1) b.cols = c + 1) = B at hB
  generalize ind (i = r ∨ i = safe_wrap (r + 1) b.rows ∨ i = safe_wrap (r - 1) b.rows)
    = a0 at i0
  generalize ind (j = c + 1) = b0 at j0
  by_cases hC : c ≤ j ∧ j ≤ c + 2
  · have hB1 : B = 1 := hB.1 hC
    subst hB1
    by_cases hR : i = r ∨ i = safe_wrap (r + 1) b.rows ∨ i = safe_wrap (r - 1) b.rows
    · have ha0 : a0 = 1 := by
        rcases i0 with h | h
        · exact h.2
        · exact absurd hR h.1
      subst ha0
      by_cases hj1 : j = c + 1
      · have hb0 : b0 = 1 := by omega
        subst hb0
        rw [if_pos ⟨hR, hj1⟩, next_char_X]
        by_cases hi_r : i = r
        · have : A * 1 - 1 * 1 = 2 := by have := hA.1 hi_r; omega
          rw [if_pos (Or.inl this), if_pos ⟨hi_r, hC⟩]
        · have : ¬ (A * 1 - 1 * 1 = 2 ∨ A * 1 - 1 * 1 = 3) := by
            have := hA.2.1 ⟨hi_r, hR.resolve_left hi_r⟩
            omega
          rw [if_neg this, if_neg (fun h => hi_r h.1)]
      · have hb0 : b0 = 0 := by omega
        subst hb0
        rw [if_neg (fun h => hj1 h.2), next_char_dash]
        by_cases hi_r : i = r
        · have : A * 1 - 1 * 0 = 3 := by have := hA.1 hi_r; omega
          rw [if_pos this, if_pos ⟨hi_r, hC⟩]
        · have : ¬ (A * 1 - 1 * 0 = 3) := by
            have := hA.2.1 ⟨hi_r, hR.resolve_left hi_r⟩
            omega
          rw [if_neg this, if_neg (fun h => hi_r h.1)]
    · have ha0 : a0 = 0 := by
        rcases i0 with h | h
        · exact absurd h.1 hR
        · exact h.2
      subst ha0
      have hi_r : ¬ i = r := fun h => hR (Or.inl h)
      rw [if_neg (fun h => hR h.1), next_char_dash]
      have : ¬ (A * 1 - 0 * b0 = 3) := by have := hA.2.2 hR; omega
      rw [if_neg this, if_neg (fun h => hi_r h.1)]
  · have hB0 : B = 0 := hB.2 hC
    subst hB0
    have hj1 : ¬ j = c + 1 := by omega
    have hb0 : b0 = 0 := by omega
    subst hb0
    rw [if_neg (fun h => hj1 h.2), next_char_dash]
    have : ¬ (A * 0 - a0 * 0 = 3) := by omega
    rw [if_neg this, if_neg (fun h => hC h.2)]

/-- C8: a block is not kept on a board of more than `2^31 - 1` cells: on the
46341 x 46341 board whose live cells are exactly the 2x2 block at `(0,0)`, one
call of `update_board` returns no board, for every worker count and execution
order. -/
theorem block_large_board :
    board_large_block.WF ∧ (4 : Int) ≤ board_large_block.rows ∧
    (4 : Int) ≤ board_large_block.cols ∧
    (0 : Int) + 1 < board_large_block.rows ∧ (0 : Int) + 1 < board_large_block.cols ∧
    (∀ i j : Int, 0 ≤ i → i < board_large_block.rows → 0 ≤ j → j < board_large_block.cols →
      (board_get board_large_block i j = some 'X' ↔ (i = 0 ∨ i = 0 + 1) ∧ (j = 0 ∨ j = 0 + 1))) ∧
    (2147483647 : Int) < board_large_block.rows * board_large_block.cols ∧
    ∀ (n : Int) (sched : Nat → List Nat) (g : Globals),
      update_board_times n sched 1 (board_large_block, g) = none := by
  refine ⟨board_of_wf 46341 46341 1 _ (by decide) (by decide), by decide, by decide, by decide,
    by decide, ?_, by decide, ?_⟩
  · intro i j hi0 hi hj0 hj
    have hg := board_of_get 46341 46341 1
      (fun i j => decide ((i = 0 ∨ i = 0 + 1) ∧ (j = 0 ∨ j = 0 + 1))) i j hi0 hi hj0 hj
    have hg2 : board_get board_large_block i j = some
        (if decide ((i = 0 ∨ i = 0 + 1) ∧ (j = 0 ∨ j = 0 + 1)) = true then 'X' else '-') := hg
    rw [hg2]
    by_cases hp : (i = 0 ∨ i = 0 + 1) ∧ (j = 0 ∨ j = 0 + 1)
    · rw [decide_eq_true hp, if_pos rfl]
      exact ⟨fun _ => hp, fun _ => rfl⟩
    · rw [decide_eq_false hp, if_neg (by decide)]
      exact ⟨fun h => absurd h (by decide), fun h => absurd h hp⟩
  · intro n sched g
    simp only [update_board_times, Option.bind_eq_bind, Option.some_bind]
    exact update_board_overflow board_large_block n _ _ (by decide)

/-- The property of C8 on the boards whose cell count is an `int`: on a board
of at least 4x4 and at most `2^31 - 1` cells whose
live cells are exactly the 2x2 block `(r,c), (r,c+1), (r+1,c), (r+1,c+1)` with
`r+1 < rows` and `c+1 < cols`, any number `k` of calls of `update_board`, with
any worker count `n ≥ 1` and any execution orders, returns the board
unchanged. -/
theorem block_still_life (b : Board) (r c n : Int) (sched : Nat → List Nat) (g : Globals)
    (k : Nat) (hwf : b.WF) (hr : 4 ≤ b.rows) (hc : 4 ≤ b.cols)
    (hsz : b.rows * b.cols ≤ 2147483647) (hr0 : 0 ≤ r) (hr1 : r + 1 < b.rows) (hc0 : 0 ≤ c) (hc1 : c + 1 < b.cols)
    (hblock : ∀ i j : Int, 0 ≤ i → i < b.rows → 0 ≤ j → j < b.cols →
      (board_get b i j = some 'X' ↔ (i = r ∨ i = r + 1) ∧ (j = c ∨ j = c + 1)))
    (hn : 1 ≤ n) (hd : g.curr_death = 0) (hl : g.curr_living = 0) :
    ∃ gk, update_board_times n sched k (b, g) = some (b, gk) := by
  suffices h : ∃ gk, update_board_times n sched k (b, g) = some (b, gk) ∧
      gk.curr_death = 0 ∧ gk.curr_living = 0 by
    obtain ⟨gk, h1, _⟩ := h
    exact ⟨gk, h1⟩
  induction k with
  | zero => exact ⟨g, rfl, hd, hl⟩
  | succ k ih =>
    obtain ⟨gk, hk, hdk, hlk⟩ := ih
    refine ⟨Globals.init, ?_, rfl, rfl⟩
    simp only [update_board_times, hk, Option.bind_eq_bind, Option.some_bind]
    exact block_step b r c n (sched k) gk hwf hr hc hsz hr0 hr1 hc0 hc1 hblock hn hdk hlk

/-- An instance of `block_still_life`: the block in the middle of a 4x4 board,
five generations with three workers. -/
theorem block_still_life_witness :
    (board_block4.WF ∧ (4 : Int) ≤ board_block4.rows ∧ (4 : Int) ≤ board_block4.cols ∧
      board_block4.rows * board_block4.cols ≤ 2147483647 ∧ (0 : Int) ≤ 1 ∧ (1 : Int) + 1 < board_block4.rows ∧ (1 : Int) + 1 < board_block4.cols ∧
      (1 : Int) ≤ 3 ∧ Globals.init.curr_death = 0 ∧ Globals.init.curr_living = 0) ∧
    (∀ i j : Int, 0 ≤ i → i < board_block4.rows → 0 ≤ j → j < board_block4.cols →
      (board_get board_block4 i j = some 'X' ↔ (i = 1 ∨ i = 1 + 1) ∧ (j = 1 ∨ j = 1 + 1))) ∧
    ∃ gk, update_board_times 3 (fun _ => [2, 0, 1]) 5 (board_block4, Globals.init)
      = some (board_block4, gk) :=
  have hblock : ∀ i j : Int, 0 ≤ i → i < board_block4.rows → 0 ≤ j → j < board_block4.cols →
      (board_get board_block4 i j = some 'X' ↔ (i = 1 ∨ i = 1 + 1) ∧ (j = 1 ∨ j = 1 + 1)) := by
    intro i j hi0 hi hj0 hj
    have hi2 : i < 4 := hi
    have hj2 : j < 4 := hj
    interval_cases i <;> interval_cases j <;> decide
  ⟨by decide, hblock,
    block_still_life board_block4 1 1 3 (fun _ => [2, 0, 1]) Globals.init 5 (by decide)
      (by decide) (by decide) (by decide) (by decide) (by decide) (by decide) (by decide) hblock
      (by decide) rfl rfl⟩

/-- C9, as stated, fails on the 3x3 torus: the board whose live cells are the
three cells of row 1 is all dead after two generations, not back to itself.
It also fails on a board of more than `2^31 - 1` cells: on the 46341 x 46341
board whose live cells are `(0,0)`, `(0,1)`, `(0,2)`, one call of
`update_board` returns no board. -/
theorem blinker_fails_on_3x3_and_large_board :
    (board_row3.WF ∧ (3 : Int) ≤ board_row3.rows ∧ (3 : Int) ≤ board_row3.cols ∧
    (∀ i j : Int, 0 ≤ i → i < board_row3.rows → 0 ≤ j → j < board_row3.cols →
      (board_get board_row3 i j = some 'X' ↔ i = 1 ∧ (j = 0 ∨ j = 0 + 1 ∨ j = 0 + 2))) ∧
    update_board_times 1 (fun _ => []) 2 (board_row3, Globals.init)
      = some (board_dead3, Globals.init) ∧
    board_dead3 ≠ board_row3) ∧
    (board_large_blinker.WF ∧ (4 : Int) ≤ board_large_blinker.rows ∧
    (4 : Int) ≤ board_large_blinker.cols ∧ (0 : Int) + 2 < board_large_blinker.cols ∧
    (∀ i j : Int, 0 ≤ i → i < board_large_blinker.rows → 0 ≤ j →
      j < board_large_blinker.cols →
      board_get board_large_blinker i j
        = some (if i = 0 ∧ (0 ≤ j ∧ j ≤ 0 + 2) then 'X' else '-')) ∧
    (2147483647 : Int) < board_large_blinker.rows * board_large_blinker.cols ∧
    ∀ (n : Int) (sched : Nat → List Nat) (g : Globals),
      update_board_times n sched 1 (board_large_blinker, g) = none) := by
  refine ⟨⟨by decide, by decide, by decide, ?_, by decide, by decide⟩,
    ⟨board_of_wf 46341 46341 1 _ (by decide) (by decide), by decide, by decide, by decide,
      ?_, by decide, ?_⟩⟩
  · intro i j hi0 hi hj0 hj
    have hi2 : i < 3 := hi
    have hj2 : j < 3 := hj
    interval_cases i <;> interval_cases j <;> decide
  · intro i j hi0 hi hj0 hj
    have hg := board_of_get 46341 46341 1
      (fun i j => decide (i = 0 ∧ (0 ≤ j ∧ j ≤ 0 + 2))) i j hi0 hi hj0 hj
    have hg2 : board_get board_large_blinker i j = some
        (if decide (i = 0 ∧ (0 ≤ j ∧ j ≤ 0 + 2)) = true then 'X' else '-') := hg
    rw [hg2]
    by_cases hp : i = 0 ∧ (0 ≤ j ∧ j ≤ 0 + 2)
    · simp [hp]
    · simp [hp]
  · intro n sched g
    simp only [update_board_times, Option.bind_eq_bind, Option.some_bind]
    exact update_board_overflow board_large_blinker n _ _ (by decide)

/-- C9, amended: on a board of at least 4x4 and at most `2^31 - 1` cells that
shows `'X'` exactly on the three cells `(r,c), (r,c+1), (r,c+2)` of one row
(`c+2 < cols`) and `'-'` elsewhere, one call of `update_board` returns a
different board and two calls return the original board, for any worker count
`n ≥ 1` and any execution orders. -/
theorem blinker_period_two (b : Board) (r c n : Int) (sched : Nat → List Nat) (g : Globals)
    (hwf : b.WF) (hr : 4 ≤ b.rows) (hc : 4 ≤ b.cols) (hsz : b.rows * b.cols ≤ 2147483647)
    (hr0 : 0 ≤ r) (hr1 : r < b.rows) (hc0 : 0 ≤ c) (hc2 : c + 2 < b.cols)
    (hflat : ∀ i j : Int, 0 ≤ i → i < b.rows → 0 ≤ j → j < b.cols →
      board_get b i j = some (if i = r ∧ (c ≤ j ∧ j ≤ c + 2) then 'X' else '-'))
    (hn : 1 ≤ n) (hd : g.curr_death = 0) (hl : g.curr_living = 0) :
    ∃ b1 g1 g2, update_board_times n sched 1 (b, g) = some (b1, g1) ∧ b1 ≠ b ∧
      update_board_times n sched 2 (b, g) = some (b, g2) := by
  obtain ⟨b1, hup1, hwf1, hr1b, hc1b, hit1, hget1⟩ := blinker_step_flat b r c n (sched 0) g
    hwf hr hc hsz hr0 hr1 hc0 hc2 hflat hn hd hl
  obtain ⟨b2, hup2, hwf2, hr2b, hc2b, hit2, hget2⟩ := blinker_step_upright b1 r c n (sched 1)
    Globals.init hwf1 (by omega) (by omega) (by rw [hr1b, hc1b]; exact hsz) hr0 (by omega) hc0
    (by omega)
    (by
      intro i j hi0 hi hj0 hj
      rw [hr1b] at hi ⊢
      rw [hc1b] at hj
      exact hget1 i j hi0 hi hj0 hj)
    hn rfl rfl
  have hb2 : b2 = b := by
    apply board_ext b b2 hwf hwf2 (hr2b.trans hr1b) (hc2b.trans hc1b) (hit2.trans hit1)
    intro i j hi0 hi hj0 hj
    rw [hget2 i j hi0 (by omega) hj0 (by omega), hflat i j hi0 hi hj0 hj]
  have hstep1 : update_board_times n sched 1 (b, g) = some (b1, Globals.init) := by
    simp only [update_board_times, Option.bind_eq_bind, Option.some_bind, hup1]
  refine ⟨b1, Globals.init, Globals.init, hstep1, ?_, ?_⟩
  · intro heq
    have h1 := hget1 r c hr0 hr1 hc0 (by omega)
    have h2 := hflat r c hr0 hr1 hc0 (by omega)
    rw [heq, h2] at h1
    have hne : ¬ ((r = r ∨ r = safe_wrap (r + 1) b.rows ∨ r = safe_wrap (r - 1) b.rows)
        ∧ c = c + 1) := by omega
    rw [if_pos ⟨rfl, by omega, by omega⟩, if_neg hne] at h1
    exact absurd h1 (by decide)
  · show (update_board_times n sched 1 (b, g)).bind
      (fun s1 => update_board s1.1 n (sched 1) s1.2) = some (b, Globals.init)
    rw [hstep1, Option.some_bind, hup2, hb2]

/-- Witness for C9 as amended: the flat blinker on a 4x5 board, two workers. -/
theorem blinker_period_two_witness :
    (board_blinker45.WF ∧ (4 : Int) ≤ board_blinker45.rows ∧ (4 : Int) ≤ board_blinker45.cols ∧
      board_blinker45.rows * board_blinker45.cols ≤ 2147483647 ∧
      (0 : Int) ≤ 1 ∧ (1 : Int) < board_blinker45.rows ∧ (1 : Int) + 2 < board_blinker45.cols ∧
      (1 : Int) ≤ 2 ∧ Globals.init.curr_death = 0 ∧ Globals.init.curr_living = 0) ∧
    (∀ i j : Int, 0 ≤ i → i < board_blinker45.rows → 0 ≤ j → j < board_blinker45.cols →
      board_get board_blinker45 i j
        = some (if i = 1 ∧ (1 ≤ j ∧ j ≤ 1 + 2) then 'X' else '-')) ∧
    ∃ b1 g1 g2, update_board_times 2 (fun _ => [1, 0]) 1 (board_blinker45, Globals.init)
        = some (b1, g1) ∧ b1 ≠ board_blinker45 ∧
      update_board_times 2 (fun _ => [1, 0]) 2 (board_blinker45, Globals.init)
        = some (board_blinker45, g2) :=
  have hflat : ∀ i j : Int, 0 ≤ i → i < board_blinker45.rows → 0 ≤ j →
      j < board_blinker45.cols →
      board_get board_blinker45 i j
        = some (if i = 1 ∧ (1 ≤ j ∧ j ≤ 1 + 2) then 'X' else '-') := by
    intro i j hi0 hi hj0 hj
    have hi2 : i < 4 := hi
    have hj2 : j < 5 := hj
    interval_cases i <;> interval_cases j <;> decide
  ⟨by decide, hflat,
    blinker_period_two board_blinker45 1 1 2 (fun _ => [1, 0]) Globals.init (by decide)
      (by decide) (by decide) (by decide) (by decide) (by decide) (by decide) (by decide) hflat
      (by decide) rfl rfl⟩

/-- C10: on the 3x3 board whose only live cell is `(0,0)`,
`calculate_live_neighbors` returns 1 at each of the eight other cells, the
wrapped positions `(2,2)`, `(2,0)` and `(0,2)` included, and 0 at `(0,0)`; one
call of `update_board`, with any worker count `n ≥ 1` and any execution order,
returns the all-dead board. -/
theorem corner_cell_wraps (n : Int) (sched : List Nat) (hn : 1 ≤ n) :
    calculate_live_neighbors board_corner3 0 0 = some 0 ∧
    calculate_live_neighbors board_corner3 0 1 = some 1 ∧
    calculate_live_neighbors board_corner3 0 2 = some 1 ∧
    calculate_live_neighbors board_corner3 1 0 = some 1 ∧
    calculate_live_neighbors board_corner3 1 1 = some 1 ∧
    calculate_live_neighbors board_corner3 1 2 = some 1 ∧
    calculate_live_neighbors board_corner3 2 0 = some 1 ∧
    calculate_live_neighbors board_corner3 2 1 = some 1 ∧
    calculate_live_neighbors board_corner3 2 2 = some 1 ∧
    update_board board_corner3 n sched Globals.init = some (board_dead3, Globals.init) := by
  refine ⟨by decide, by decide, by decide, by decide, by decide, by decide, by decide,
    by decide, by decide, ?_⟩
  obtain ⟨b2, hup, hwf2, hr2, hc2, hit2, hget⟩ := update_board_spec board_corner3 (by decide)
    (by decide) (by decide) (by decide) n hn sched Globals.init rfl rfl
  have : b2 = board_dead3 := by
    apply board_ext board_dead3 b2 (by decide) hwf2 hr2 hc2 hit2
    intro i j hi0 hi hj0 hj
    rw [hget]
    have hi2 : i < 3 := hi
    have hj2 : j < 3 := hj
    interval_cases i <;> interval_cases j <;> decide
  rw [this] at hup
  exact hup

/-- Witness for C10: three workers. -/
theorem corner_cell_wraps_witness :
    (1 : Int) ≤ 3 ∧
    (calculate_live_neighbors board_corner3 0 0 = some 0 ∧
    calculate_live_neighbors board_corner3 0 1 = some 1 ∧
    calculate_live_neighbors board_corner3 0 2 = some 1 ∧
    calculate_live_neighbors board_corner3 1 0 = some 1 ∧
    calculate_live_neighbors board_corner3 1 1 = some 1 ∧
    calculate_live_neighbors board_corner3 1 2 = some 1 ∧
    calculate_live_neighbors board_corner3 2 0 = some 1 ∧
    calculate_live_neighbors board_corner3 2 1 = some 1 ∧
    calculate_live_neighbors board_corner3 2 2 = some 1 ∧
    update_board board_corner3 3 [2, 0] Globals.init = some (board_dead3, Globals.init)) :=
  ⟨by decide, corner_cell_wraps 3 [2, 0] (by decide)⟩

/-! ## C11: the generation loop of `main` -/

theorem int_range_toNat (x : Int) : int_range 0 x = int_range 0 (x.toNat : Int) := by
  unfold int_range
  have : (x - 0).toNat = ((x.toNat : Int) - 0).toNat := by omega
  rw [this]

/-- The first `k` iterations of the loop of `main`. -/
theorem main_loop_prefix (board : Board) (ntids : Int) (sched : Nat → List Nat) (g : Globals)
    (hwf : board.WF) (hr : 1 ≤ board.rows) (hc : 1 ≤ board.cols)
    (hsz : board.rows * board.cols ≤ 2147483647) (hn : 1 ≤ ntids)
    (hd : g.curr_death = 0) (hl : g.curr_living = 0) (k : Nat) :
    ∃ bk gk frames,
      (int_range 0 (k : Int)).foldlM (fun (st : Board × Globals × List (List Char)) i => do
        let frame ← show_board st.1
        let st2 ← update_board st.1 ntids (sched i.toNat) st.2.1
        some (st2.1, st2.2, st.2.2 ++ [frame])) (board, g, []) = some (bk, gk, frames) ∧
      update_board_times ntids sched k (board, g) = some (bk, gk) ∧
      bk.WF ∧ bk.rows = board.rows ∧ bk.cols = board.cols ∧
      gk.curr_death = 0 ∧ gk.curr_living = 0 ∧ frames.length = k ∧
      ∀ i : Nat, i < k → ∃ bi gi, update_board_times ntids sched i (board, g) = some (bi, gi) ∧
        gi.curr_death = 0 ∧ gi.curr_living = 0 ∧ frames[i]? = show_board bi ∧
        (show_board bi).isSome := by
  induction k with
  | zero =>
    refine ⟨board, g, [], ?_, rfl, hwf, rfl, rfl, hd, hl, rfl, ?_⟩
    · simp [int_range_empty]
    · intro i hi
      omega
  | succ k ih =>
    obtain ⟨bk, gk, frames, hfold, htimes, hwfk, hrk, hck, hdk, hlk, hlen, hfr⟩ := ih
    obtain ⟨fr, hshow⟩ := show_board_isSome bk hwfk
    obtain ⟨b2, hup, hwf2, hr2, hc2, _, _⟩ :=
      update_board_spec bk hwfk (by omega) (by omega) (by rw [hrk, hck]; exact hsz) ntids hn
        (sched k) gk hdk hlk
    have e : ((k + 1 : Nat) : Int) = (k : Int) + 1 := by push_cast; ring
    refine ⟨b2, Globals.init, frames ++ [fr], ?_, ?_, hwf2, hr2.trans hrk, hc2.trans hck,
      rfl, rfl, ?_, ?_⟩
    · rw [e, int_range_succ_right 0 k (by omega), List.foldlM_append, hfold]
      simp [hshow, hup]
    · simp only [update_board_times, htimes, Option.bind_eq_bind, Option.some_bind, hup]
    · simp [hlen]
    · intro i hi
      by_cases hik : i < k
      · obtain ⟨bi, gi, h1, h2, h3, h4, h5⟩ := hfr i hik
        refine ⟨bi, gi, h1, h2, h3, ?_, h5⟩
        rw [List.getElem?_append_left (by omega), h4]
      · have hik2 : i = k := by omega
        subst hik2
        refine ⟨bk, gk, htimes, hdk, hlk, ?_, by simp [hshow]⟩
        rw [List.getElem?_append_right (by omega), hlen, hshow]
        simp

/-- C11: the loop of `main` does not run its generations on a board of more
than `2^31 - 1` cells: on the
46341 x 46341 board with `(0,0)` alive and `iterations = 1` the loop of `main`
prints the board and then calls `update_board`, which returns no board; the
loop does not perform its one generation, for every worker count and execution
order.  The run of `main` on the file of this board, which passes every check,
is undefined. -/
theorem main_loop_large_board :
    board_large.WF ∧ (1 : Int) ≤ board_large.rows ∧ (1 : Int) ≤ board_large.cols ∧
    board_large.iterations = 1 ∧
    (2147483647 : Int) < board_large.rows * board_large.cols ∧
    (show_board board_large).isSome ∧
    (∀ (ntids : Int) (sched : Nat → List Nat) (g : Globals),
      main_loop board_large ntids sched g = none) ∧
    validate_input_file file_large = Run.ok () ∧
    set_up_board file_large = some board_large ∧
    ∀ sched : Nat → List Nat,
      main [txt "tgol", txt "board", txt "1"] (fun _ => some file_large) sched
        = Run.undefined := by
  obtain ⟨out, hout⟩ := show_board_isSome board_large board_large_wf
  exact ⟨board_large_wf, by decide, by decide, rfl, board_large_cells, by simp [hout],
    main_loop_overflow board_large board_large_wf rfl board_large_cells,
    validate_input_file_large, set_up_board_file_large, main_file_large⟩

/-- The property of C11 on the boards whose cell count is an `int`: for every
board with `rows ≥ 1`, `cols ≥ 1` and at most `2^31 - 1` cells and every value of `iterations`, the loop of `main` runs
exactly `max(iterations, 0)` generations: it returns the board that
`update_board` repeated that many times returns, it prints exactly that many
frames, frame `i` is the board after `i` generations, so the board after the
last generation is not printed, and both counters are 0 at the start of every
generation; a call of `update_board` that starts with a counter that is not 0
does not return a board. -/
theorem main_loop_generations (board : Board) (ntids : Int) (sched : Nat → List Nat)
    (g : Globals) (hwf : board.WF) (hr : 1 ≤ board.rows) (hc : 1 ≤ board.cols)
    (hsz : board.rows * board.cols ≤ 2147483647)
    (hn : 1 ≤ ntids) (hd : g.curr_death = 0) (hl : g.curr_living = 0) :
    (∃ bN gN frames,
      main_loop board ntids sched g = some (bN, gN, frames) ∧
      update_board_times ntids sched board.iterations.toNat (board, g) = some (bN, gN) ∧
      frames.length = board.iterations.toNat ∧
      ∀ i : Nat, i < board.iterations.toNat →
        ∃ bi gi, update_board_times ntids sched i (board, g) = some (bi, gi) ∧
          gi.curr_death = 0 ∧ gi.curr_living = 0 ∧ frames[i]? = show_board bi ∧
          (show_board bi).isSome) ∧
    update_board board_row3 1 [] ⟨[], [], 1, 0⟩ = none ∧
    update_board board_row3 1 [] ⟨[], [], 0, 1⟩ = none := by
  refine ⟨?_, by decide, by decide⟩
  obtain ⟨bk, gk, frames, hfold, htimes, _, _, _, _, _, hlen, hfr⟩ :=
    main_loop_prefix board ntids sched g hwf hr hc hsz hn hd hl board.iterations.toNat
  refine ⟨bk, gk, frames, ?_, htimes, hlen, hfr⟩
  unfold main_loop for_loop
  rw [int_range_toNat]
  exact hfold

/-- An instance of `main_loop_generations`: two generations of the 3x3 board
with a live middle row, two workers. -/
theorem main_loop_generations_witness :
    (board_row3.WF ∧ (1 : Int) ≤ board_row3.rows ∧ (1 : Int) ≤ board_row3.cols ∧
      board_row3.rows * board_row3.cols ≤ 2147483647 ∧ (1 : Int) ≤ 2 ∧ Globals.init.curr_death = 0 ∧ Globals.init.curr_living = 0) ∧
    ((∃ bN gN frames,
      main_loop board_row3 2 (fun _ => [1, 0]) Globals.init = some (bN, gN, frames) ∧
      update_board_times 2 (fun _ => [1, 0]) board_row3.iterations.toNat
        (board_row3, Globals.init) = some (bN, gN) ∧
      frames.length = board_row3.iterations.toNat ∧
      ∀ i : Nat, i < board_row3.iterations.toNat →
        ∃ bi gi, update_board_times 2 (fun _ => [1, 0]) i (board_row3, Globals.init)
            = some (bi, gi) ∧
          gi.curr_death = 0 ∧ gi.curr_living = 0 ∧ frames[i]? = show_board bi ∧
          (show_board bi).isSome) ∧
    update_board board_row3 1 [] ⟨[], [], 1, 0⟩ = none ∧
    update_board board_row3 1 [] ⟨[], [], 0, 1⟩ = none) :=
  ⟨by decide, main_loop_generations board_row3 2 (fun _ => [1, 0]) Globals.init (by decide)
    (by decide) (by decide) (by decide) (by decide) rfl rfl⟩

/-! ## C12: the thread count -/

theorem digit_char_spec (d : Nat) (h : d < 10) :
    is_digit (digit_char d) = true ∧ ((digit_char d).toNat : Int) - 48 = (d : Int) ∧
      is_space (digit_char d) = false ∧ digit_char d ≠ '-' ∧ digit_char d ≠ '+' := by
  interval_cases d <;> decide

theorem digits_val_append (ds : List Char) (c : Char) :
    digits_val (ds ++ [c]) = digits_val ds * 10 + ((c.toNat : Int) - 48) := by
  simp [digits_val, List.foldl_append]

theorem digits_val_nonneg (ds : List Char) (h : ∀ c ∈ ds, is_digit c = true) :
    0 ≤ digits_val ds := by
  induction ds using List.reverseRecOn with
  | nil => simp [digits_val]
  | append_singleton ds c ih =>
    rw [digits_val_append]
    have h1 := ih (fun x hx => h x (List.mem_append_left _ hx))
    have h2 : is_digit c = true := h c (by simp)
    have h3 : 48 ≤ c.toNat := by
      simp only [is_digit, Char.isDigit, Bool.and_eq_true, decide_eq_true_eq] at h2
      exact h2.1
    omega

theorem digits_val_digits (ds : List Nat) (h : ∀ d ∈ ds, d < 10) :
    digits_val (ds.reverse.map digit_char) = ((Nat.ofDigits 10 ds : Nat) : Int) := by
  induction ds with
  | nil => simp [digits_val]
  | cons d ds ih =>
    rw [List.reverse_cons, List.map_append, List.map_singleton, digits_val_append,
      ih (fun x hx => h x (List.mem_cons_of_mem _ hx)),
      (digit_char_spec d (h d (List.mem_cons_self _ _))).2.1, Nat.ofDigits_cons]
    push_cast
    ring

/-- The numeral of a natural number: a non-empty run of digits with its
value. -/
theorem decimal_nat_spec (n : Nat) :
    decimal_nat n ≠ [] ∧ (∀ c ∈ decimal_nat n, is_digit c = true) ∧
      digits_val (decimal_nat n) = (n : Int) := by
  unfold decimal_nat
  by_cases h0 : n = 0
  · subst h0
    simp only [if_true]
    decide
  · simp only [h0, if_false]
    have hlt : ∀ d ∈ Nat.digits 10 n, d < 10 := fun d hd => Nat.digits_lt_base (by omega) hd
    refine ⟨?_, ?_, ?_⟩
    · intro hnil
      have hnil2 : Nat.digits 10 n = [] := by simpa using hnil
      exact h0 (Nat.digits_eq_nil_iff_eq_zero.mp hnil2)
    · intro c hc
      simp only [List.mem_map, List.mem_reverse] at hc
      obtain ⟨d, hd, rfl⟩ := hc
      exact (digit_char_spec d (hlt d hd)).1
    · rw [digits_val_digits _ hlt, Nat.ofDigits_digits]

/-- Scanning a non-empty run of digits gives its value. -/
theorem sscanf_d_digits (ds : List Char) (hne : ds ≠ [])
    (hd : ∀ c ∈ ds, is_digit c = true) (hfit : digits_val ds ≤ 2147483647) :
    sscanf_d ds = some (some (digits_val ds)) := by
  obtain ⟨c, cs, rfl⟩ := List.exists_cons_of_ne_nil hne
  have hc : is_digit c = true := hd c (List.mem_cons_self _ _)
  have hsp : is_space c = false := by
    simp only [is_digit, Char.isDigit, Bool.and_eq_true, decide_eq_true_eq] at hc
    cases hs : is_space c with
    | false => rfl
    | true =>
      exfalso
      simp only [is_space, Bool.or_eq_true, decide_eq_true_eq] at hs
      rcases hs with ((((h | h) | h) | h) | h) | h <;> subst h <;> revert hc <;> decide
  have hminus : c ≠ '-' := by
    intro h
    subst h
    exact absurd hc (by decide)
  have hplus : c ≠ '+' := by
    intro h
    subst h
    exact absurd hc (by decide)
  have htake : List.takeWhile is_digit (c :: cs) = c :: cs :=
    List.takeWhile_eq_self_iff.mpr hd
  have hnn := digits_val_nonneg (c :: cs) hd
  unfold sscanf_d
  simp only [List.dropWhile_cons, hsp, List.head?_cons, Option.some.injEq, hminus, hplus,
    or_self, if_false, htake, decide_False, Bool.false_eq_true]
  rw [if_neg (by simp), if_pos ⟨by omega, hfit⟩]

/-- Scanning a minus sign followed by a non-empty run of digits gives the
opposite of its value. -/
theorem sscanf_d_minus_digits (ds : List Char) (hne : ds ≠ [])
    (hd : ∀ c ∈ ds, is_digit c = true) (hfit : digits_val ds ≤ 2147483648) :
    sscanf_d ('-' :: ds) = some (some (- digits_val ds)) := by
  have htake : List.takeWhile is_digit ds = ds := List.takeWhile_eq_self_iff.mpr hd
  have hsp : is_space '-' = false := by decide
  have hnn := digits_val_nonneg ds hd
  unfold sscanf_d
  simp only [List.dropWhile_cons, hsp, List.head?_cons, true_or, if_true, List.tail_cons,
    htake, decide_True, Bool.false_eq_true, if_false]
  rw [if_neg hne, if_pos ⟨by omega, by omega⟩]

theorem sscanf_d_decimal (n : Int) (hlo : -2147483648 ≤ n) (hhi : n ≤ 2147483647) :
    sscanf_d (decimal n) = some (some n) := by
  unfold decimal
  by_cases hneg : n < 0
  · obtain ⟨h1, h2, h3⟩ := decimal_nat_spec n.natAbs
    rw [if_pos hneg, sscanf_d_minus_digits _ h1 h2 (by omega), h3]
    congr 2
    omega
  · obtain ⟨h1, h2, h3⟩ := decimal_nat_spec n.toNat
    rw [if_neg hneg, sscanf_d_digits _ h1 h2 (by omega), h3]
    congr 2
    omega

theorem arg_to_int_ok (str : List Char) (ntids : Int) (h : arg_to_int str = Run.ok ntids) :
    1 ≤ ntids ∧ ntids ≤ 10 := by
  unfold arg_to_int at h
  cases hs : sscanf_d str with
  | none => rw [hs] at h; exact absurd h (by simp [Run.ofOption, Bind.bind, Run.bind])
  | some scanned =>
    cases scanned with
    | none => rw [hs] at h; exact absurd h (by simp [Run.ofOption, Bind.bind, Run.bind])
    | some num =>
      rw [hs] at h
      simp only [Run.ofOption, run_bind_ok] at h
      by_cases hr : num < 1 ∨ num > 10
      · rw [if_pos hr] at h
        exact absurd h (by simp)
      · rw [if_neg hr, run_pure] at h
        have : num = ntids := by simpa using h
        omega

theorem run_bind_eq_ok {α β : Type} (x : Run α) (f : α → Run β) (b : β) :
    (x >>= f) = Run.ok b ↔ ∃ a, x = Run.ok a ∧ f a = Run.ok b := by
  cases x with
  | ok a => simp [Bind.bind, Run.bind]
  | exit_failure => simp [Bind.bind, Run.bind]
  | undefined => simp [Bind.bind, Run.bind]

theorem run_ofOption_eq_ok {α : Type} (o : Option α) (a : α) :
    Run.ofOption o = Run.ok a ↔ o = some a := by
  cases o <;> simp [Run.ofOption]

/-- A run of `main` reaches its loop only when every check has passed. -/
theorem main_setup_ok (argv : List (List Char)) (fs : List Char → Option (List (List Char)))
    (board : Board) (ntids : Int) (h : main_setup argv fs = Run.ok (board, ntids)) :
    ∃ lines, fs (argv.getD 1 []) = some lines ∧ validate_input argv true = Run.ok () ∧
      validate_input_file lines = Run.ok () ∧ arg_to_int (argv.getD 2 []) = Run.ok ntids ∧
      set_up_board lines = some board := by
  unfold main_setup at h
  simp only [run_bind_eq_ok, run_ofOption_eq_ok, run_pure, Run.ok.injEq, Prod.mk.injEq] at h
  obtain ⟨_, hv, lines, hf, _, hvf, n2, ha, b2, hb, hb2, hn2⟩ := h
  rw [hf] at hv
  subst hb2 hn2
  exact ⟨lines, hf, hv, hvf, ha, hb⟩

/-- C12: the thread-count argument `4294967297` consists of digits, so
`validate_input` lets it through, and its value is not between 1 and 10; but
the value is not an `int` either, the conversion `%d` of `sscanf` is undefined
on it, and `arg_to_int` does not end the program with `exit(EXIT_FAILURE)` as
it does on `0` and on `11`: the run of `main` is undefined. -/
theorem arg_to_int_overflow :
    validate_input [txt "tgol", txt "board", txt "4294967297"] true = Run.ok () ∧
    digits_val (txt "4294967297") = 4294967297 ∧
    ¬ ((1 : Int) ≤ 4294967297 ∧ (4294967297 : Int) ≤ 10) ∧
    sscanf_d (txt "4294967297") = none ∧
    arg_to_int (txt "4294967297") = Run.undefined ∧
    arg_to_int (txt "4294967297") ≠ Run.exit_failure ∧
    arg_to_int (txt "0") = Run.exit_failure ∧
    arg_to_int (txt "11") = Run.exit_failure ∧
    main [txt "tgol", txt "board", txt "4294967297"]
      (fun _ => some [txt "3\n", txt "3\n", txt "1\n", txt "0\n"]) (fun _ => [])
      = Run.undefined := by
  decide

/-- The thread-count arguments whose value `n` is an `int`: `arg_to_int`
returns `n` iff `1 ≤ n ≤ 10` and otherwise ends the program with
`exit(EXIT_FAILURE)`, in particular for `n ≤ 0`; this happens before
`set_up_board` and before any generation, so `main` reaches its loop, and
`update_board` is called, only with `1 ≤ nthids ≤ 10`, never with a zero
divisor. -/
theorem arg_to_int_accepts (n : Int) (hlo : -2147483648 ≤ n) (hhi : n ≤ 2147483647) :
    (arg_to_int (decimal n) = if 1 ≤ n ∧ n ≤ 10 then Run.ok n else Run.exit_failure) ∧
    (n ≤ 0 → arg_to_int (decimal n) = Run.exit_failure) ∧
    (∀ (str : List Char) (ntids : Int), arg_to_int str = Run.ok ntids →
      1 ≤ ntids ∧ ntids ≤ 10) ∧
    (∀ (argv : List (List Char)) (fs : List Char → Option (List (List Char)))
      (lines : List (List Char)), fs (argv.getD 1 []) = some lines →
      validate_input argv true = Run.ok () → validate_input_file lines = Run.ok () →
      arg_to_int (argv.getD 2 []) = Run.exit_failure →
      main_setup argv fs = Run.exit_failure ∧
      ∀ sched, main argv fs sched = Run.exit_failure) ∧
    (∀ (argv : List (List Char)) (fs : List Char → Option (List (List Char)))
      (board : Board) (ntids : Int), main_setup argv fs = Run.ok (board, ntids) →
      arg_to_int (argv.getD 2 []) = Run.ok ntids ∧ 1 ≤ ntids ∧ ntids ≤ 10 ∧ ntids ≠ 0 ∧
      ∀ sched, main argv fs sched = Run.ofOption (main_loop board ntids sched Globals.init)) := by
  have hmain : arg_to_int (decimal n) = if 1 ≤ n ∧ n ≤ 10 then Run.ok n else Run.exit_failure := by
    unfold arg_to_int
    rw [sscanf_d_decimal n hlo hhi]
    simp only [Run.ofOption, run_bind_ok, run_pure]
    by_cases h : n < 1 ∨ n > 10
    · rw [if_pos h, if_neg (by omega)]
    · rw [if_neg h, if_pos (by omega)]
  refine ⟨hmain, ?_, arg_to_int_ok, ?_, ?_⟩
  · intro h
    rw [hmain, if_neg (by omega)]
  · intro argv fs lines hf hv hvf ha
    have hs : main_setup argv fs = Run.exit_failure := by
      unfold main_setup
      rw [hf, Option.isSome_some, hv, run_bind_ok]
      simp only [Run.ofOption, run_bind_ok]
      rw [hvf, run_bind_ok, ha]
      rfl
    refine ⟨hs, ?_⟩
    intro sched
    unfold main
    rw [hs]
    rfl
  · intro argv fs board ntids h
    obtain ⟨lines, _, _, _, ha, _⟩ := main_setup_ok argv fs board ntids h
    have hr := arg_to_int_ok _ _ ha
    refine ⟨ha, hr.1, hr.2, by omega, ?_⟩
    intro sched
    unfold main
    rw [h]
    rfl

/-- The argument `7`, an instance of `arg_to_int_accepts`. -/
theorem arg_to_int_accepts_witness :
    ((-2147483648 : Int) ≤ 7 ∧ (7 : Int) ≤ 2147483647) ∧
    ((arg_to_int (decimal 7) = if 1 ≤ (7 : Int) ∧ (7 : Int) ≤ 10 then Run.ok 7
      else Run.exit_failure) ∧
    ((7 : Int) ≤ 0 → arg_to_int (decimal 7) = Run.exit_failure) ∧
    (∀ (str : List Char) (ntids : Int), arg_to_int str = Run.ok ntids →
      1 ≤ ntids ∧ ntids ≤ 10) ∧
    (∀ (argv : List (List Char)) (fs : List Char → Option (List (List Char)))
      (lines : List (List Char)), fs (argv.getD 1 []) = some lines →
      validate_input argv true = Run.ok () → validate_input_file lines = Run.ok () →
      arg_to_int (argv.getD 2 []) = Run.exit_failure →
      main_setup argv fs = Run.exit_failure ∧
      ∀ sched, main argv fs sched = Run.exit_failure) ∧
    (∀ (argv : List (List Char)) (fs : List Char → Option (List (List Char)))
      (board : Board) (ntids : Int), main_setup argv fs = Run.ok (board, ntids) →
      arg_to_int (argv.getD 2 []) = Run.ok ntids ∧ 1 ≤ ntids ∧ ntids ≤ 10 ∧ ntids ≠ 0 ∧
      ∀ sched, main argv fs sched
        = Run.ofOption (main_loop board ntids sched Globals.init))) :=
  ⟨by decide, arg_to_int_accepts 7 (by decide) (by decide)⟩

/-! ## C13: what `validate_input_file` accepts -/

theorem run_bind_exit {α β : Type} (f : α → Run β) :
    ((Run.exit_failure : Run α) >>= f) = Run.exit_failure := rfl

theorem run_bind_undefined {α β : Type} (f : α → Run β) :
    ((Run.undefined : Run α) >>= f) = Run.undefined := rfl

/-- What a line that passes the loop body of `validate_input_file` looks
like. -/
theorem validate_line_ok (cl el e : Int) (ln : List Char)
    (h : validate_line cl el ln = Run.ok e) :
    ln ≠ [] ∧ (cl < 3 → ∀ c ∈ ln.dropLast, is_digit c = true) ∧
      (cl > 3 → ∀ tok ∈ strtok_space (c_str ln.dropLast), is_digit (tok.headD ' ') = true) ∧
      e = (if cl = 3 then long_to_int (el + strtol_10 (c_str ln.dropLast)) else el) := by
  unfold validate_line strip_last at h
  by_cases hne : ln = []
  · rw [if_pos hne] at h
    exact absurd h (by simp [Run.ofOption, Bind.bind, Run.bind])
  · rw [if_neg hne] at h
    simp only [Run.ofOption, run_bind_ok] at h
    by_cases h1 : cl < 3 ∧ ¬ (ln.dropLast.all is_digit) = true
    · rw [if_pos h1] at h
      exact absurd h (by simp)
    · rw [if_neg h1, run_bind_eq_ok] at h
      obtain ⟨e1, he1, h⟩ := h
      by_cases h2 : cl > 3 ∧ ¬ ((strtok_space (c_str ln.dropLast)).all
          (fun tok => is_digit (tok.headD ' '))) = true
      · rw [if_pos h2] at h
        exact absurd h (by simp)
      · rw [if_neg h2, run_pure] at h
        have hee : e1 = e := Run.ok.inj h
        subst hee
        refine ⟨hne, ?_, ?_, ?_⟩
        · intro hcl
          have : (ln.dropLast.all is_digit) = true := by
            by_contra hc
            exact h1 ⟨hcl, hc⟩
          exact List.all_eq_true.mp this
        · intro hcl
          have : ((strtok_space (c_str ln.dropLast)).all
              (fun tok => is_digit (tok.headD ' '))) = true := by
            by_contra hc
            exact h2 ⟨hcl, hc⟩
          exact List.all_eq_true.mp this
        · by_cases h3 : cl = 3
          · rw [if_pos h3] at he1 ⊢
            unfold add_long_to_int at he1
            split_ifs at he1
            exact (Run.ok.inj he1).symm
          · rw [if_neg h3] at he1 ⊢
            exact (Run.ok.inj he1).symm

/-- On one of the first three lines the loop body only checks that the line,
less its last character, is made of digits. -/
theorem validate_line_lt3 (cl el : Int) (ln : List Char) (hcl : cl < 3) (hne : ln ≠ []) :
    validate_line cl el ln =
      if ln.dropLast.all is_digit = true then Run.ok el else Run.exit_failure := by
  unfold validate_line strip_last
  rw [if_neg hne]
  simp only [Run.ofOption, run_bind_ok]
  by_cases hd : ln.dropLast.all is_digit = true
  · rw [if_neg (fun hh => hh.2 hd), if_pos hd, if_neg (show ¬ cl = 3 by omega), run_bind_ok,
      if_neg (fun hh => absurd hh.1 (by omega))]
    rfl
  · rw [if_pos ⟨hcl, hd⟩, if_neg hd]

/-- A negative number on one of the first three lines ends the program with
`exit(EXIT_FAILURE)`. -/
theorem validate_input_file_negative (lines : List (List Char)) (k : Nat) (n : Int)
    (hk : k < 3) (hn : n < 0) (hline : lines[k]? = some (decimal n ++ ['\n']))
    (hne : ∀ ln ∈ lines, ln ≠ []) : validate_input_file lines = Run.exit_failure := by
  have hbad : ¬ ((decimal n ++ ['\n']).dropLast.all is_digit = true) := by
    rw [List.dropLast_concat]
    intro hall
    have hmem : '-' ∈ decimal n := by
      unfold decimal
      rw [if_pos hn]
      exact List.mem_cons_self _ _
    exact absurd (List.all_eq_true.mp hall '-' hmem) (by decide)
  have hstep : ∀ (cl el : Int) (ln : List Char) (rest : List (List Char)), cl < 3 → ln ≠ [] →
      validate_lines (ln :: rest) cl el = Run.exit_failure ∨
        validate_lines (ln :: rest) cl el = validate_lines rest (cl + 1) el := by
    intro cl el ln rest hcl hln
    simp only [validate_lines]
    rw [validate_line_lt3 cl el ln hcl hln]
    by_cases hd : ln.dropLast.all is_digit = true
    · rw [if_pos hd, run_bind_ok]
      exact Or.inr rfl
    · rw [if_neg hd]
      exact Or.inl rfl
  have hfail : ∀ (cl el : Int) (rest : List (List Char)), cl < 3 →
      validate_lines ((decimal n ++ ['\n']) :: rest) cl el = Run.exit_failure := by
    intro cl el rest hcl
    simp only [validate_lines]
    rw [validate_line_lt3 cl el _ hcl (by simp), if_neg hbad]
    rfl
  have hfin : validate_lines lines 0 4 = Run.exit_failure := by
    match lines, k, hk, hline, hne with
    | l0 :: rest, 0, _, hline, _ =>
      simp only [List.getElem?_cons_zero, Option.some.injEq] at hline
      subst hline
      exact hfail 0 4 rest (by omega)
    | l0 :: l1 :: rest, 1, _, hline, hne =>
      simp only [List.getElem?_cons_succ, List.getElem?_cons_zero, Option.some.injEq] at hline
      subst hline
      rcases hstep 0 4 l0 _ (by omega) (hne l0 (by simp)) with h | h
      · exact h
      · rw [h]
        exact hfail (0 + 1) 4 rest (by omega)
    | l0 :: l1 :: l2 :: rest, 2, _, hline, hne =>
      simp only [List.getElem?_cons_succ, List.getElem?_cons_zero, Option.some.injEq] at hline
      subst hline
      rcases hstep 0 4 l0 _ (by omega) (hne l0 (by simp)) with h | h
      · exact h
      · rw [h]
        rcases hstep (0 + 1) 4 l1 _ (by omega) (hne l1 (by simp)) with h2 | h2
        · exact h2
        · rw [h2]
          exact hfail (0 + 1 + 1) 4 rest (by omega)
  unfold validate_input_file
  rw [hfin]
  rfl

/-- The loop of `validate_input_file`: every line passes the loop body, the
line counter advances by the number of lines. -/
theorem validate_lines_ok (lines : List (List Char)) (cl el cl2 el2 : Int)
    (h : validate_lines lines cl el = Run.ok (cl2, el2)) :
    cl2 = cl + lines.length ∧
      (∀ (k : Nat) (ln : List Char), lines[k]? = some ln →
        ∃ e1 e2, validate_line (cl + k) e1 ln = Run.ok e2) ∧
      ((∀ k : Nat, k < lines.length → cl + k ≠ 3) → el2 = el) := by
  induction lines generalizing cl el with
  | nil =>
    simp only [validate_lines, run_pure, Run.ok.injEq, Prod.mk.injEq] at h
    refine ⟨by simp [h.1], by simp, fun _ => h.2.symm⟩
  | cons ln rest ih =>
    simp only [validate_lines, run_bind_eq_ok] at h
    obtain ⟨e, hline, hrest⟩ := h
    obtain ⟨h1, h2, h3⟩ := ih (cl + 1) e hrest
    refine ⟨?_, ?_, ?_⟩
    · rw [h1, List.length_cons]
      push_cast
      ring
    · intro k ln2 hk
      cases k with
      | zero =>
        simp only [List.getElem?_cons_zero, Option.some.injEq] at hk
        subst hk
        exact ⟨el, e, by simpa using hline⟩
      | succ k =>
        simp only [List.getElem?_cons_succ] at hk
        obtain ⟨e1, e2, he⟩ := h2 k ln2 hk
        refine ⟨e1, e2, ?_⟩
        have : cl + ((k + 1 : Nat) : Int) = cl + 1 + (k : Int) := by push_cast; ring
        rw [this]
        exact he
    · intro hno
      have he : e = el := by
        have := (validate_line_ok cl el e ln hline).2.2.2
        have h0 := hno 0 (by simp)
        simp only [Nat.cast_zero, add_zero] at h0
        rw [if_neg h0] at this
        exact this
      rw [h3 (by
        intro k hk
        have := hno (k + 1) (by simp only [List.length_cons]; omega)
        push_cast at this
        omega), he]

/-- What an accepted file looks like. -/
theorem validate_input_file_ok (lines : List (List Char))
    (h : validate_input_file lines = Run.ok ()) :
    4 ≤ lines.length ∧
    (∀ (k : Nat) (ln : List Char), lines[k]? = some ln →
      ln ≠ [] ∧ (k < 3 → ∀ c ∈ ln.dropLast, is_digit c = true) ∧
      (3 < k → ∀ tok ∈ strtok_space (c_str ln.dropLast), is_digit (tok.headD ' ') = true)) := by
  unfold validate_input_file at h
  simp only [run_bind_eq_ok] at h
  obtain ⟨st, hst, hfin⟩ := h
  obtain ⟨cl2, el2⟩ := st
  have hcl : cl2 = el2 := by
    by_contra hne
    simp only [ne_eq, hne, not_false_eq_true, if_true] at hfin
    exact absurd hfin (by simp)
  obtain ⟨h1, h2, h3⟩ := validate_lines_ok lines 0 4 cl2 el2 hst
  refine ⟨?_, ?_⟩
  · by_contra hlt
    have := h3 (by intro k hk; omega)
    omega
  · intro k ln hk
    obtain ⟨e1, e2, he⟩ := h2 k ln hk
    obtain ⟨a1, a2, a3, _⟩ := validate_line_ok _ _ _ _ he
    exact ⟨a1, fun hk3 => a2 (by omega), fun hk3 => a3 (by omega)⟩

theorem arr_get_some_range {α : Type} (a : List α) (i : Int) (x : α)
    (h : arr_get a i = some x) : 0 ≤ i ∧ i < (a.length : Int) := by
  unfold arr_get at h
  by_cases hi : 0 ≤ i
  · rw [if_pos hi] at h
    obtain ⟨hlt, _⟩ := List.getElem?_eq_some.mp h
    omega
  · rw [if_neg hi] at h
    exact absurd h (by simp)

/-- A write to a well-formed board that succeeds leaves it well formed. -/
theorem board_set_some (b b2 : Board) (i j : Int) (status : Char) (hwf : b.WF)
    (h : board_set b i j status = some b2) :
    b2.WF ∧ b2.rows = b.rows ∧ b2.cols = b.cols ∧ b2.iterations = b.iterations := by
  have hrange : (0 ≤ i ∧ i < b.rows) ∧ (0 ≤ j ∧ j < b.cols) := by
    unfold board_set at h
    cases hg : arr_get b.board i with
    | none => rw [hg] at h; exact absurd h (by simp)
    | some ln =>
      have hi := arr_get_some_range _ _ _ hg
      rw [hg] at h
      simp only [Option.bind_eq_bind, Option.some_bind] at h
      have hmem : ln ∈ b.board := by
        unfold arr_get at hg
        rw [if_pos hi.1] at hg
        obtain ⟨hlt, heq⟩ := List.getElem?_eq_some.mp hg
        rw [← heq]
        exact List.getElem_mem hlt
      have hlen := hwf.2 ln hmem
      have hj : 0 ≤ j ∧ j < (ln.length : Int) := by
        by_contra hc
        simp only [arr_set, hc, if_false, Option.none_bind] at h
        exact absurd h (by simp)
      have := hwf.1
      omega
  obtain ⟨b3, hset, hwf3, hr3, hc3, hit3, _⟩ :=
    board_set_spec b hwf i j status hrange.1.1 hrange.1.2 hrange.2.1 hrange.2.2
  rw [hset] at h
  have : b3 = b2 := by simpa using h
  subst this
  exact ⟨hwf3, hr3, hc3, hit3⟩

theorem c_str_digits (ds : List Char) (hd : ∀ c ∈ ds, is_digit c = true) : c_str ds = ds := by
  unfold c_str
  apply List.takeWhile_eq_self_iff.mpr
  intro c hc
  have h := hd c hc
  simp only [ne_eq, decide_not, Bool.not_eq_true', decide_eq_false_iff_not]
  intro h0
  subst h0
  exact absurd h (by decide)

/-- A run of digits is never scanned as a negative number. -/
theorem sscanf_d_digits_nonneg (ds : List Char) (hd : ∀ c ∈ ds, is_digit c = true) (v : Int)
    (h : sscanf_d ds = some (some v)) : 0 ≤ v := by
  by_cases hne : ds = []
  · subst hne
    have h0 : sscanf_d [] = some none := by decide
    rw [h0] at h
    exact absurd h (by simp)
  · by_cases hfit : digits_val ds ≤ 2147483647
    · rw [sscanf_d_digits ds hne hd hfit] at h
      have : digits_val ds = v := by simpa using h
      rw [← this]
      exact digits_val_nonneg ds hd
    · exfalso
      obtain ⟨c, cs, rfl⟩ := List.exists_cons_of_ne_nil hne
      have hc : is_digit c = true := hd c (List.mem_cons_self _ _)
      have hsp : is_space c = false := by
        cases hs : is_space c with
        | false => rfl
        | true =>
          exfalso
          simp only [is_space, Bool.or_eq_true, decide_eq_true_eq] at hs
          rcases hs with ((((h | h) | h) | h) | h) | h <;> subst h <;> revert hc <;> decide
      have hminus : c ≠ '-' := by
        intro h
        subst h
        exact absurd hc (by decide)
      have hplus : c ≠ '+' := by
        intro h
        subst h
        exact absurd hc (by decide)
      have htake : List.takeWhile is_digit (c :: cs) = c :: cs :=
        List.takeWhile_eq_self_iff.mpr hd
      unfold sscanf_d at h
      simp only [List.dropWhile_cons, hsp, List.head?_cons, Option.some.injEq, hminus, hplus,
        or_self, if_false, htake, decide_False, Bool.false_eq_true] at h
      rw [if_neg (by simp), if_neg (fun hh => hfit hh.2)] at h
      exact absurd h (by simp)

theorem set_board_cells_built (b b2 : RawBoard) (rows cols iterations : Int)
    (line : List Char) (hb : b.Built rows cols iterations)
    (h : set_board_cells b line = some b2) : b2.Built rows cols iterations := by
  obtain ⟨grid, rfl, hwf⟩ := hb
  unfold set_board_cells at h
  simp only [Option.bind_eq_bind, Option.bind_eq_some, Option.some.injEq] at h
  obtain ⟨_, _, x, _, y, _, r, hr, c, hc, it, hit, g, hg, b3, hset, hb2⟩ := h
  subst hr hc hit hg
  obtain ⟨hwf3, hr3, hc3, hit3⟩ := board_set_some _ b3 x y 'X' hwf hset
  refine ⟨b3.board, hb2.symm, ?_⟩
  have : (⟨rows, cols, iterations, b3.board⟩ : Board) = b3 := by
    cases b3
    simp only at hr3 hc3 hit3
    subst hr3 hc3 hit3
    rfl
  rw [this]
  exact hwf3

theorem set_up_lines_built (lines : List (List Char)) (cl : Int) (hcl : 3 < cl)
    (b b2 : RawBoard) (rows cols iterations : Int) (hb : b.Built rows cols iterations)
    (h : set_up_lines lines cl b = some b2) : b2.Built rows cols iterations := by
  induction lines generalizing cl b with
  | nil =>
    simp only [set_up_lines, Option.some.injEq] at h
    rw [← h]
    exact hb
  | cons ln rest ih =>
    simp only [set_up_lines, Option.bind_eq_bind, Option.bind_eq_some] at h
    obtain ⟨b1, hline, hrest⟩ := h
    refine ih (cl + 1) (by omega) b1 ?_ hrest
    unfold set_up_line at hline
    simp only [Option.bind_eq_bind, Option.bind_eq_some] at hline
    obtain ⟨line, _, b3, h3, b4, h4, h5⟩ := hline
    rw [if_neg (by omega)] at h3 h4
    rw [if_pos (by omega)] at h5
    simp only [Option.some.injEq] at h3 h4
    subst h3 h4
    exact set_board_cells_built _ _ _ _ _ _ hb h5

/-- Loading one of the first three lines, when it is made of digits, stores a
number that is not negative. -/
theorem set_up_line_number (cl : Int) (hcl : cl < 3) (b b2 : RawBoard) (ln : List Char)
    (hd : ∀ c ∈ ln.dropLast, is_digit c = true) (h : set_up_line cl b ln = some b2) :
    ∃ v : Int, 0 ≤ v ∧ b2 =
      (if cl = 0 then ⟨some v, b.cols, b.iterations, b.board⟩
       else if cl = 1 then ⟨b.rows, some v, b.iterations, b.board⟩
       else if cl = 2 then ⟨b.rows, b.cols, some v, b.board⟩
       else b) := by
  unfold set_up_line strip_last at h
  by_cases hne : ln = []
  · rw [if_pos hne] at h
    exact absurd h (by simp)
  · rw [if_neg hne] at h
    simp only [Option.bind_eq_bind, Option.some_bind] at h
    have c3 : ¬ cl = 3 := by omega
    have c4 : ¬ cl > 3 := by omega
    simp only [hcl, c3, c4, if_true, if_false, c_str_digits _ hd, Option.bind_some] at h
    unfold set_up_number at h
    cases hs : sscanf_d ln.dropLast with
    | none => rw [hs] at h; exact absurd h (by simp)
    | some scanned =>
      cases scanned with
      | none => rw [hs] at h; exact absurd h (by simp)
      | some v =>
        rw [hs] at h
        simp only [Option.bind_eq_bind, Option.some_bind] at h
        refine ⟨v, sscanf_d_digits_nonneg _ hd v hs, ?_⟩
        split_ifs at h ⊢ <;> simpa using h.symm

theorem make_board_built (b : RawBoard) (rows cols iterations : Int)
    (h1 : b.rows = some rows) (h2 : b.cols = some cols) (h3 : b.iterations = some iterations)
    (hr : 0 ≤ rows) (hc : 0 ≤ cols) :
    ∃ b2, make_board b = some b2 ∧ b2.Built rows cols iterations := by
  unfold make_board
  rw [h1, h2, h3]
  refine ⟨_, rfl, _, rfl, ?_⟩
  constructor
  · simp only [List.length_replicate]
    omega
  · intro ln hln
    rw [List.eq_of_mem_replicate hln]
    simp only [List.length_replicate]
    omega

/-- The board loaded from an accepted file is well formed and none of its
three numbers is negative. -/
theorem set_up_board_loaded (lines : List (List Char))
    (hv : validate_input_file lines = Run.ok ()) (b : Board)
    (h : set_up_board lines = some b) :
    b.WF ∧ 0 ≤ b.rows ∧ 0 ≤ b.cols ∧ 0 ≤ b.iterations := by
  obtain ⟨hlen, hlines⟩ := validate_input_file_ok lines hv
  match lines, hlen, hlines, h with
  | l0 :: l1 :: l2 :: l3 :: rest, _, hlines, h =>
    have d0 := (hlines 0 l0 rfl).2.1 (by omega)
    have d1 := (hlines 1 l1 rfl).2.1 (by omega)
    have d2 := (hlines 2 l2 rfl).2.1 (by omega)
    have n3 := (hlines 3 l3 (by simp)).1
    unfold set_up_board at h
    simp only [set_up_lines, Option.bind_eq_bind, Option.bind_eq_some] at h
    obtain ⟨bfin, ⟨b1, h0, b2, h1, b3, h2, b4, h3, hrest⟩, hfin⟩ := h
    obtain ⟨v0, hv0, e0⟩ := set_up_line_number 0 (by omega) _ b1 l0 d0 h0
    simp only [if_true] at e0
    subst e0
    obtain ⟨v1, hv1, e1⟩ := set_up_line_number (0 + 1) (by omega) _ b2 l1 d1 h1
    rw [if_neg (by omega), if_pos (by omega)] at e1
    subst e1
    obtain ⟨v2, hv2, e2⟩ := set_up_line_number (0 + 1 + 1) (by omega) _ b3 l2 d2 h2
    rw [if_neg (by omega), if_neg (by omega), if_pos (by omega)] at e2
    subst e2
    have hb4 : b4.Built v0 v1 v2 := by
      unfold set_up_line strip_last at h3
      rw [if_neg n3] at h3
      simp only [Option.bind_eq_bind, Option.some_bind] at h3
      have c2 : ¬ ((0 : Int) + 1 + 1 + 1 < 3) := by omega
      have c3 : (0 : Int) + 1 + 1 + 1 = 3 := by omega
      have c4 : ¬ ((0 : Int) + 1 + 1 + 1 > 3) := by omega
      simp only [c2, c3, c4, if_true, if_false, Option.some_bind, Option.bind_some] at h3
      have h3b : make_board (⟨some v0, some v1, some v2, none⟩ : RawBoard) = some b4 := h3
      obtain ⟨b5, hmk, hbuilt⟩ := make_board_built ⟨some v0, some v1, some v2, none⟩ v0 v1 v2
        rfl rfl rfl hv0 hv1
      rw [hmk] at h3b
      have : b5 = b4 := by simpa using h3b
      rw [← this]
      exact hbuilt
    obtain ⟨grid, rfl, hwf⟩ := set_up_lines_built rest (0 + 1 + 1 + 1 + 1) (by omega) b4 bfin
      v0 v1 v2 hb4 hrest
    simp only [Option.some.injEq, exists_eq_left'] at hfin
    rw [← hfin]
    exact ⟨hwf, hv0, hv1, hv2⟩

/-- C13: the file with the lines `3`, `3`, `1`, `1`, `5 5` is accepted by
`validate_input_file`, although the pair `5 5` is out of bounds for its 3x3
board; `set_up_board` then executes `b->board[5][5] = 'X'`, a write outside the
board, and the run of `main` is undefined.  The file with the lines `0`, `3`,
`1`, `0` is accepted too, loaded as a board with `rows = 0`, and `main` runs
its generation on it. -/
theorem validate_input_file_accepts_unusable :
    validate_input_file [txt "3\n", txt "3\n", txt "1\n", txt "1\n", txt "5 5\n"] = Run.ok () ∧
    (strtok_space (c_str (txt "5 5"))).map sscanf_d = [some (some 5), some (some 5)] ∧
    ¬ ((5 : Int) < 3) ∧
    make_board ⟨some 3, some 3, some 1, none⟩
      = some ⟨some 3, some 3, some 1,
          some [['-', '-', '-'], ['-', '-', '-'], ['-', '-', '-']]⟩ ∧
    board_set ⟨3, 3, 1, [['-', '-', '-'], ['-', '-', '-'], ['-', '-', '-']]⟩ 5 5 'X' = none ∧
    set_up_board [txt "3\n", txt "3\n", txt "1\n", txt "1\n", txt "5 5\n"] = none ∧
    main [txt "tgol", txt "board", txt "1"]
      (fun _ => some [txt "3\n", txt "3\n", txt "1\n", txt "1\n", txt "5 5\n"]) (fun _ => [])
      = Run.undefined ∧
    validate_input_file [txt "0\n", txt "3\n", txt "1\n", txt "0\n"] = Run.ok () ∧
    set_up_board [txt "0\n", txt "3\n", txt "1\n", txt "0\n"] = some ⟨0, 3, 1, []⟩ ∧
    ¬ ((0 : Int) < (⟨0, 3, 1, []⟩ : Board).rows) ∧
    main [txt "tgol", txt "board", txt "1"]
      (fun _ => some [txt "0\n", txt "3\n", txt "1\n", txt "0\n"]) (fun _ => [])
      = Run.ok (⟨0, 3, 1, []⟩, Globals.init, [txt "\n\n"]) := by
  decide

/-! ## C15: the shape of the row ranges -/

/-- C15: for `rows ≥ 1` and `nWorkers ≥ 1`, with `baseSize = rows / nWorkers`,
worker `k < nWorkers-1` is handed `[k*baseSize, (k+1)*baseSize)` and the last
worker `[(nWorkers-1)*baseSize, rows)`; the last range has length
`baseSize + rows mod nWorkers`, so when `rows` is not divisible by `nWorkers` it
is strictly longer than the range of every other worker. -/
theorem thread_ranges_shape (b : Board) (nthids : Int)
    (hr : 1 ≤ b.rows) (hn : 1 ≤ nthids) :
    (∀ k : Int, 0 ≤ k → k < nthids - 1 →
      (prepare_thread_args b nthids k (Int.tdiv b.rows nthids)).min_i
        = k * Int.tdiv b.rows nthids ∧
      (prepare_thread_args b nthids k (Int.tdiv b.rows nthids)).max_i
        = (k + 1) * Int.tdiv b.rows nthids) ∧
    (prepare_thread_args b nthids (nthids - 1) (Int.tdiv b.rows nthids)).min_i
      = (nthids - 1) * Int.tdiv b.rows nthids ∧
    (prepare_thread_args b nthids (nthids - 1) (Int.tdiv b.rows nthids)).max_i = b.rows ∧
    b.rows - (nthids - 1) * Int.tdiv b.rows nthids
      = Int.tdiv b.rows nthids + Int.tmod b.rows nthids ∧
    (Int.tmod b.rows nthids ≠ 0 → ∀ k : Int, 0 ≤ k → k < nthids - 1 →
      (prepare_thread_args b nthids k (Int.tdiv b.rows nthids)).max_i
        - (prepare_thread_args b nthids k (Int.tdiv b.rows nthids)).min_i
      < (prepare_thread_args b nthids (nthids - 1) (Int.tdiv b.rows nthids)).max_i
        - (prepare_thread_args b nthids (nthids - 1) (Int.tdiv b.rows nthids)).min_i) := by
  have hmin : ∀ k : Int, (prepare_thread_args b nthids k (Int.tdiv b.rows nthids)).min_i
      = k * Int.tdiv b.rows nthids := fun k => thread_args_min b nthids k
  have hmax : ∀ k : Int, k ≠ nthids - 1 →
      (prepare_thread_args b nthids k (Int.tdiv b.rows nthids)).max_i
        = k * Int.tdiv b.rows nthids + Int.tdiv b.rows nthids :=
    fun k hk => thread_args_max_other b nthids k hk
  have hlast : (prepare_thread_args b nthids (nthids - 1) (Int.tdiv b.rows nthids)).max_i
      = b.rows := thread_args_max_last b nthids
  have hdm := Int.tdiv_add_tmod b.rows nthids
  have hm0 : 0 ≤ Int.tmod b.rows nthids := by
    rw [Int.tmod_eq_emod (by omega) (by omega)]
    exact Int.emod_nonneg _ (by omega)
  have elen : b.rows - (nthids - 1) * Int.tdiv b.rows nthids
      = Int.tdiv b.rows nthids + Int.tmod b.rows nthids := by
    have e : (nthids - 1) * Int.tdiv b.rows nthids
        = nthids * Int.tdiv b.rows nthids - Int.tdiv b.rows nthids := by ring
    omega
  refine ⟨?_, hmin _, hlast, elen, ?_⟩
  · intro k _ hk
    refine ⟨hmin k, ?_⟩
    rw [hmax k (by omega)]
    ring
  · intro hne k _ hk
    rw [hmin k, hmax k (by omega), hlast, hmin (nthids - 1), elen]
    omega

/-- Witness for C15: three rows shared between two workers. -/
theorem thread_ranges_shape_witness :
    ((1 : Int) ≤ board_row3.rows ∧ (1 : Int) ≤ 2) ∧
    ((∀ k : Int, 0 ≤ k → k < 2 - 1 →
      (prepare_thread_args board_row3 2 k (Int.tdiv board_row3.rows 2)).min_i
        = k * Int.tdiv board_row3.rows 2 ∧
      (prepare_thread_args board_row3 2 k (Int.tdiv board_row3.rows 2)).max_i
        = (k + 1) * Int.tdiv board_row3.rows 2) ∧
    (prepare_thread_args board_row3 2 (2 - 1) (Int.tdiv board_row3.rows 2)).min_i
      = (2 - 1) * Int.tdiv board_row3.rows 2 ∧
    (prepare_thread_args board_row3 2 (2 - 1) (Int.tdiv board_row3.rows 2)).max_i
      = board_row3.rows ∧
    board_row3.rows - (2 - 1) * Int.tdiv board_row3.rows 2
      = Int.tdiv board_row3.rows 2 + Int.tmod board_row3.rows 2 ∧
    (Int.tmod board_row3.rows 2 ≠ 0 → ∀ k : Int, 0 ≤ k → k < 2 - 1 →
      (prepare_thread_args board_row3 2 k (Int.tdiv board_row3.rows 2)).max_i
        - (prepare_thread_args board_row3 2 k (Int.tdiv board_row3.rows 2)).min_i
      < (prepare_thread_args board_row3 2 (2 - 1) (Int.tdiv board_row3.rows 2)).max_i
        - (prepare_thread_args board_row3 2 (2 - 1) (Int.tdiv board_row3.rows 2)).min_i)) :=
  ⟨by decide, thread_ranges_shape board_row3 2 (by decide) (by decide)⟩

/-! ## C16: more workers than rows -/

/-- A worker with an empty range executes no critical section. -/
theorem check_rows_empty (b : Board) (lo hi : Int) (h : hi ≤ lo) :
    check_rows ⟨b, lo, hi⟩ = some [] := by
  simp [check_rows, for_loop, int_range_empty lo hi h]

/-- One call of `update_board` on a board whose cell count is an `int` applies
the rule of the game to every in-range cell, whatever the number of workers
and the execution order. -/
theorem update_board_rule (b : Board) (hwf : b.WF) (hr : 1 ≤ b.rows) (hc : 1 ≤ b.cols)
    (hsz : b.rows * b.cols ≤ 2147483647) (n : Int) (hn : 1 ≤ n) (sched : List Nat) (g : Globals)
    (hd : g.curr_death = 0) (hl : g.curr_living = 0) :
    ∃ b2 g2, update_board b n sched g = some (b2, g2) ∧ b2.WF ∧
      b2.rows = b.rows ∧ b2.cols = b.cols ∧
      ∀ r c : Int, 0 ≤ r → r < b.rows → 0 ≤ c → c < b.cols →
        (board_get b2 r c = some 'X' ↔
          (board_get b r c = some 'X' ∧
            (calculate_live_neighbors b r c = some 2 ∨ calculate_live_neighbors b r c = some 3))
          ∨ (board_get b r c ≠ some 'X' ∧ calculate_live_neighbors b r c = some 3)) := by
  obtain ⟨b2, hup, hwf2, hr2, hc2, _, hget⟩ :=
    update_board_spec b hwf hr hc hsz n hn sched g hd hl
  refine ⟨b2, Globals.init, hup, hwf2, hr2, hc2, ?_⟩
  intro r c hr0 hr1 hc0 hc1
  obtain ⟨ch, hcell⟩ := board_get_isSome b hwf r c hr0 hr1 hc0 hc1
  rw [hget, calculate_live_neighbors_eq b hwf hr hc r c hr0 hr1 hc0 hc1]
  simp only [next_cell, hcell, Option.map_some', Option.some.injEq, next_char, ne_eq]
  by_cases h1 : ch = 'X'
  · by_cases h2 : neighbor_sum b r c < 2 ∨ neighbor_sum b r c > 3
    · simp only [h1, h2, if_true, true_and, not_true_eq_false, false_and, or_false]
      constructor
      · intro h; exact absurd h (by decide)
      · intro h; omega
    · simp only [h1, h2, if_true, if_false, true_and, not_true_eq_false, false_and, or_false,
        true_iff]
      omega
  · by_cases h3 : neighbor_sum b r c = 3
    · simp [h1, h3]
    · simp [h1, h3]

/-- C16: with more workers than rows the generation does not return the next
board when the board has more than `2^31 - 1` cells: on the board of 9 rows and
238609295 columns with `(0,0)` alive and 10 workers, the base size of a range
is 0, the nine non-last workers have the range `[0,0)` and record nothing, the
last worker has all nine rows, and `update_board` returns no board, for every
execution order. -/
theorem degenerate_ranges_large_board :
    validate_input_file
      [txt "9\n", txt "238609295\n", txt "1\n", txt "1\n", txt "0 0\n"] = Run.ok () ∧
    arg_to_int (txt "10") = Run.ok 10 ∧
    board_wide.WF ∧ (1 : Int) ≤ board_wide.rows ∧ (1 : Int) ≤ board_wide.cols ∧
    board_wide.rows < 10 ∧ Int.tdiv board_wide.rows 10 = 0 ∧
    (∀ k : Int, 0 ≤ k → k < 10 - 1 →
      check_rows (prepare_thread_args board_wide 10 k (Int.tdiv board_wide.rows 10))
        = some []) ∧
    (prepare_thread_args board_wide 10 (10 - 1) (Int.tdiv board_wide.rows 10)).min_i = 0 ∧
    (prepare_thread_args board_wide 10 (10 - 1) (Int.tdiv board_wide.rows 10)).max_i = 9 ∧
    (2147483647 : Int) < board_wide.rows * board_wide.cols ∧
    ∀ (sched : List Nat) (g : Globals), update_board board_wide 10 sched g = none := by
  have hz : Int.tdiv board_wide.rows 10 = 0 := by decide
  refine ⟨by decide, by decide, board_of_wf 9 238609295 1 _ (by decide) (by decide), by decide,
    by decide, by decide, hz, ?_, ?_, ?_, by decide, ?_⟩
  · intro k _ hk
    have heta : prepare_thread_args board_wide 10 k (Int.tdiv board_wide.rows 10)
        = ⟨board_wide, 0, 0⟩ := by
      unfold prepare_thread_args
      rw [if_neg (by omega), hz]
      simp
    rw [heta]
    exact check_rows_empty board_wide 0 0 (le_refl _)
  · have h := thread_args_min board_wide 10 (10 - 1)
    unfold thread_args at h
    rw [h, hz, mul_zero]
  · have h := thread_args_max_last board_wide 10
    unfold thread_args at h
    rw [h]
    rfl
  · intro sched g
    exact update_board_overflow board_wide 10 sched g (by decide)

/-- The property of C16, with the next board on the boards whose cell count is
an `int`: for `rows ≥ 1` and `nWorkers ≥ 1`, the range of a non-last
worker is empty iff `nWorkers > rows`; then every non-last worker has the range
`[0,0)` and its run returns without recording a cell, while the range of the
last worker is never empty and is then all of `[0, rows)`; on a board of at
most `2^31 - 1` cells the generation still returns the next board. -/
theorem degenerate_ranges (b : Board) (nthids : Int) (sched : List Nat) (g : Globals)
    (hwf : b.WF) (hr : 1 ≤ b.rows) (hc : 1 ≤ b.cols) (hsz : b.rows * b.cols ≤ 2147483647)
    (hn : 1 ≤ nthids) (hd : g.curr_death = 0) (hl : g.curr_living = 0) :
    (∀ k : Int, 0 ≤ k → k < nthids - 1 →
      ((prepare_thread_args b nthids k (Int.tdiv b.rows nthids)).min_i
        = (prepare_thread_args b nthids k (Int.tdiv b.rows nthids)).max_i ↔ b.rows < nthids)) ∧
    (b.rows < nthids → ∀ k : Int, 0 ≤ k → k < nthids - 1 →
      (prepare_thread_args b nthids k (Int.tdiv b.rows nthids)).min_i = 0 ∧
      (prepare_thread_args b nthids k (Int.tdiv b.rows nthids)).max_i = 0 ∧
      check_rows (prepare_thread_args b nthids k (Int.tdiv b.rows nthids)) = some []) ∧
    (prepare_thread_args b nthids (nthids - 1) (Int.tdiv b.rows nthids)).min_i
      < (prepare_thread_args b nthids (nthids - 1) (Int.tdiv b.rows nthids)).max_i ∧
    (b.rows < nthids →
      (prepare_thread_args b nthids (nthids - 1) (Int.tdiv b.rows nthids)).min_i = 0 ∧
      (prepare_thread_args b nthids (nthids - 1) (Int.tdiv b.rows nthids)).max_i = b.rows) ∧
    ∃ b2 g2, update_board b nthids sched g = some (b2, g2) ∧ b2.WF ∧
      b2.rows = b.rows ∧ b2.cols = b.cols ∧
      ∀ r c : Int, 0 ≤ r → r < b.rows → 0 ≤ c → c < b.cols →
        (board_get b2 r c = some 'X' ↔
          (board_get b r c = some 'X' ∧
            (calculate_live_neighbors b r c = some 2 ∨ calculate_live_neighbors b r c = some 3))
          ∨ (board_get b r c ≠ some 'X' ∧ calculate_live_neighbors b r c = some 3)) := by
  have hmin : ∀ k : Int, (prepare_thread_args b nthids k (Int.tdiv b.rows nthids)).min_i
      = k * Int.tdiv b.rows nthids := fun k => thread_args_min b nthids k
  have hmax : ∀ k : Int, k ≠ nthids - 1 →
      (prepare_thread_args b nthids k (Int.tdiv b.rows nthids)).max_i
        = k * Int.tdiv b.rows nthids + Int.tdiv b.rows nthids :=
    fun k hk => thread_args_max_other b nthids k hk
  have hlast : (prepare_thread_args b nthids (nthids - 1) (Int.tdiv b.rows nthids)).max_i
      = b.rows := thread_args_max_last b nthids
  obtain ⟨h0, h1, h2⟩ := tdiv_facts b.rows nthids (by omega) hn
  have hzero : Int.tdiv b.rows nthids = 0 ↔ b.rows < nthids := by
    constructor
    · intro h
      rw [h] at h2
      omega
    · intro h
      by_contra hne
      have hpos : 1 ≤ Int.tdiv b.rows nthids := by omega
      have : 1 * nthids ≤ Int.tdiv b.rows nthids * nthids :=
        Int.mul_le_mul_of_nonneg_right hpos (by omega)
      omega
  refine ⟨?_, ?_, ?_, ?_, ?_⟩
  · intro k _ hk
    rw [hmin k, hmax k (by omega), ← hzero]
    omega
  · intro hlt k _ hk
    have hz := hzero.mpr hlt
    have e1 : (prepare_thread_args b nthids k (Int.tdiv b.rows nthids)).min_i = 0 := by
      rw [hmin k, hz, mul_zero]
    have e2 : (prepare_thread_args b nthids k (Int.tdiv b.rows nthids)).max_i = 0 := by
      rw [hmax k (by omega), hz, mul_zero, add_zero]
    refine ⟨e1, e2, ?_⟩
    have heta : prepare_thread_args b nthids k (Int.tdiv b.rows nthids) = ⟨b, 0, 0⟩ := by
      unfold prepare_thread_args
      rw [if_neg (by omega), hz]
      simp
    rw [heta]
    exact check_rows_empty b 0 0 (le_refl _)
  · rw [hmin, hlast]
    have e : (nthids - 1) * Int.tdiv b.rows nthids
        = Int.tdiv b.rows nthids * nthids - Int.tdiv b.rows nthids := by ring
    by_cases hz : Int.tdiv b.rows nthids = 0
    · rw [hz, mul_zero]
      omega
    · omega
  · intro hlt
    rw [hmin, hlast, hzero.mpr hlt, mul_zero]
    exact ⟨rfl, rfl⟩
  · exact update_board_rule b hwf hr hc hsz nthids hn sched g hd hl

/-- An instance of `degenerate_ranges`: three rows and five workers. -/
theorem degenerate_ranges_witness :
    (board_row3.WF ∧ (1 : Int) ≤ board_row3.rows ∧ (1 : Int) ≤ board_row3.cols ∧
      board_row3.rows * board_row3.cols ≤ 2147483647 ∧ (1 : Int) ≤ 5 ∧ Globals.init.curr_death = 0 ∧ Globals.init.curr_living = 0) ∧
    ((∀ k : Int, 0 ≤ k → k < 5 - 1 →
      ((prepare_thread_args board_row3 5 k (Int.tdiv board_row3.rows 5)).min_i
        = (prepare_thread_args board_row3 5 k (Int.tdiv board_row3.rows 5)).max_i
        ↔ board_row3.rows < 5)) ∧
    (board_row3.rows < 5 → ∀ k : Int, 0 ≤ k → k < 5 - 1 →
      (prepare_thread_args board_row3 5 k (Int.tdiv board_row3.rows 5)).min_i = 0 ∧
      (prepare_thread_args board_row3 5 k (Int.tdiv board_row3.rows 5)).max_i = 0 ∧
      check_rows (prepare_thread_args board_row3 5 k (Int.tdiv board_row3.rows 5))
        = some []) ∧
    (prepare_thread_args board_row3 5 (5 - 1) (Int.tdiv board_row3.rows 5)).min_i
      < (prepare_thread_args board_row3 5 (5 - 1) (Int.tdiv board_row3.rows 5)).max_i ∧
    (board_row3.rows < 5 →
      (prepare_thread_args board_row3 5 (5 - 1) (Int.tdiv board_row3.rows 5)).min_i = 0 ∧
      (prepare_thread_args board_row3 5 (5 - 1) (Int.tdiv board_row3.rows 5)).max_i
        = board_row3.rows) ∧
    ∃ b2 g2, update_board board_row3 5 [4, 0] Globals.init = some (b2, g2) ∧ b2.WF ∧
      b2.rows = board_row3.rows ∧ b2.cols = board_row3.cols ∧
      ∀ r c : Int, 0 ≤ r → r < board_row3.rows → 0 ≤ c → c < board_row3.cols →
        (board_get b2 r c = some 'X' ↔
          (board_get board_row3 r c = some 'X' ∧
            (calculate_live_neighbors board_row3 r c = some 2 ∨
              calculate_live_neighbors board_row3 r c = some 3))
          ∨ (board_get board_row3 r c ≠ some 'X' ∧
            calculate_live_neighbors board_row3 r c = some 3))) :=
  ⟨by decide, degenerate_ranges board_row3 5 [4, 0] Globals.init (by decide) (by decide)
    (by decide) (by decide) (by decide) rfl rfl⟩

/-! ## C17: the wrap keeps every read in bounds -/

/-- The function `calculate_live_neighbors` is the sequence of the reads at
`neighbor_positions`, failing at the first read out of bounds, followed by the
count of the `'X'` read. -/
theorem calculate_live_neighbors_reads (b : Board) (i j : Int) :
    calculate_live_neighbors b i j =
      ((neighbor_positions b i j).mapM (fun p => board_get b p.row p.col)).map
        (fun cs => ((cs.countP (fun c => c = 'X') : Nat) : Int)) := by
  unfold calculate_live_neighbors neighbor_positions
  simp only [List.mapM_cons, List.mapM_nil, Option.bind_eq_bind, Option.pure_def]
  cases board_get b (safe_wrap (i + 1) b.rows) j with
  | none => rfl
  | some c1 =>
  cases board_get b (safe_wrap (i - 1) b.rows) j with
  | none => rfl
  | some c2 =>
  cases board_get b i (safe_wrap (j + 1) b.cols) with
  | none => rfl
  | some c3 =>
  cases board_get b i (safe_wrap (j - 1) b.cols) with
  | none => rfl
  | some c4 =>
  cases board_get b (safe_wrap (i + 1) b.rows) (safe_wrap (j + 1) b.cols) with
  | none => rfl
  | some c5 =>
  cases board_get b (safe_wrap (i + 1) b.rows) (safe_wrap (j - 1) b.cols) with
  | none => rfl
  | some c6 =>
  cases board_get b (safe_wrap (i - 1) b.rows) (safe_wrap (j + 1) b.cols) with
  | none => rfl
  | some c7 =>
  cases board_get b (safe_wrap (i - 1) b.rows) (safe_wrap (j - 1) b.cols) with
  | none => rfl
  | some c8 =>
  simp only [Option.some_bind, Option.map_some', List.countP_cons, List.countP_nil,
    decide_eq_true_eq, Option.some.injEq]
  push_cast
  simp only [ite_live, ite_live_zero, zero_add]
  unfold live
  simp only [Option.some.injEq]
  ring

theorem neighbor_positions_in_range (b : Board) (hr : 1 ≤ b.rows) (hc : 1 ≤ b.cols)
    (i j : Int) (hi0 : 0 ≤ i) (hi : i < b.rows) (hj0 : 0 ≤ j) (hj : j < b.cols) :
    ∀ p ∈ neighbor_positions b i j,
      (0 ≤ p.row ∧ p.row < b.rows) ∧ (0 ≤ p.col ∧ p.col < b.cols) := by
  have ip := safe_wrap_range (i + 1) b.rows hr (by omega) (by omega)
  have im := safe_wrap_range (i - 1) b.rows hr (by omega) (by omega)
  have jp := safe_wrap_range (j + 1) b.cols hc (by omega) (by omega)
  have jm := safe_wrap_range (j - 1) b.cols hc (by omega) (by omega)
  intro p hp
  simp only [neighbor_positions, List.mem_cons, List.mem_singleton, List.not_mem_nil,
    or_false] at hp
  rcases hp with h | h | h | h | h | h | h | h <;> subst h <;> simp only <;>
    exact ⟨by omega, by omega⟩

/-- C17: for `max ≥ 1` and `-1 ≤ x ≤ max`, `safe_wrap x max` is `x mod max`
(`max-1` for a negative `x`, `0` for `x ≥ max`) and lies in `[0, max)`; hence
on a board with `rows ≥ 1` and `cols ≥ 1` every position read by
`calculate_live_neighbors` at an in-range cell is in bounds, every read
succeeds and the function returns a value. -/
theorem safe_wrap_in_bounds (b : Board) (i j : Int)
    (hwf : b.WF) (hr : 1 ≤ b.rows) (hc : 1 ≤ b.cols)
    (hi0 : 0 ≤ i) (hi : i < b.rows) (hj0 : 0 ≤ j) (hj : j < b.cols) :
    (∀ max_i x : Int, 1 ≤ max_i → -1 ≤ x → x ≤ max_i →
      safe_wrap x max_i = x % max_i ∧ 0 ≤ safe_wrap x max_i ∧ safe_wrap x max_i < max_i ∧
      (x < 0 → safe_wrap x max_i = max_i - 1) ∧ (x ≥ max_i → safe_wrap x max_i = 0)) ∧
    (∀ p ∈ neighbor_positions b i j,
      (0 ≤ p.row ∧ p.row < b.rows) ∧ (0 ≤ p.col ∧ p.col < b.cols) ∧
      ∃ ch, board_get b p.row p.col = some ch) ∧
    ∃ k, calculate_live_neighbors b i j = some k := by
  refine ⟨?_, ?_, ?_⟩
  · intro max_i x hmax hlo hhi
    refine ⟨safe_wrap_eq_emod x max_i hmax hlo hhi, (safe_wrap_range x max_i hmax hlo hhi).1,
      (safe_wrap_range x max_i hmax hlo hhi).2, ?_, ?_⟩
    · intro h
      simp [safe_wrap, h]
    · intro h
      have h2 : ¬ x < 0 := by omega
      simp [safe_wrap, h, h2]
  · intro p hp
    have h := neighbor_positions_in_range b hr hc i j hi0 hi hj0 hj p hp
    exact ⟨h.1, h.2, board_get_isSome b hwf p.row p.col h.1.1 h.1.2 h.2.1 h.2.2⟩
  · exact ⟨_, calculate_live_neighbors_eq b hwf hr hc i j hi0 hi hj0 hj⟩

/-- Witness for C17: the corner `(2, 2)` of a 3x3 board. -/
theorem safe_wrap_in_bounds_witness :
    (board_corner3.WF ∧ (1 : Int) ≤ board_corner3.rows ∧ (1 : Int) ≤ board_corner3.cols ∧
      (0 : Int) ≤ 2 ∧ (2 : Int) < board_corner3.rows ∧ (2 : Int) < board_corner3.cols) ∧
    ((∀ max_i x : Int, 1 ≤ max_i → -1 ≤ x → x ≤ max_i →
      safe_wrap x max_i = x % max_i ∧ 0 ≤ safe_wrap x max_i ∧ safe_wrap x max_i < max_i ∧
      (x < 0 → safe_wrap x max_i = max_i - 1) ∧ (x ≥ max_i → safe_wrap x max_i = 0)) ∧
    (∀ p ∈ neighbor_positions board_corner3 2 2,
      (0 ≤ p.row ∧ p.row < board_corner3.rows) ∧ (0 ≤ p.col ∧ p.col < board_corner3.cols) ∧
      ∃ ch, board_get board_corner3 p.row p.col = some ch) ∧
    ∃ k, calculate_live_neighbors board_corner3 2 2 = some k) :=
  ⟨by decide, safe_wrap_in_bounds board_corner3 2 2 (by decide) (by decide) (by decide)
    (by decide) (by decide) (by decide) (by decide)⟩

/-! ## C18: the buffers are large enough -/

theorem points_length (l : List Append) :
    (dead_points l).length + (alive_points l).length = l.length := by
  induction l with
  | nil => rfl
  | cons e l ih =>
    cases e with
    | dead p =>
      have hdp : dead_points (Append.dead p :: l) = p :: dead_points l := by
        simp [dead_points]
      have hap : alive_points (Append.dead p :: l) = alive_points l := by
        simp [alive_points]
      rw [hdp, hap, List.length_cons, List.length_cons]
      omega
    | alive p =>
      have hdp : dead_points (Append.alive p :: l) = dead_points l := by
        simp [dead_points]
      have hap : alive_points (Append.alive p :: l) = p :: alive_points l := by
        simp [alive_points]
      rw [hdp, hap, List.length_cons, List.length_cons]
      omega

theorem buffer_length (pts : List Point) (k : Nat) : (buffer pts k).length = pts.length + k := by
  simp [buffer]

/-- C18: the buffers do not have `rows*cols` elements on a board of more than
`2^31 - 1` cells: on the
46341 x 46341 board with `(0,0)` alive the product `b->rows * b->cols` that
sizes the two buffers is not an `int`, so `update_board` allocates no buffer of
`rows*cols` elements and the run of the workers is undefined, for every worker
count and execution order, although both counters start at 0. -/
theorem accumulators_fit_large_board :
    board_large.WF ∧ (1 : Int) ≤ board_large.rows ∧ (1 : Int) ≤ board_large.cols ∧
    Globals.init.curr_death = 0 ∧ Globals.init.curr_living = 0 ∧
    board_large.rows * board_large.cols = 2147488281 ∧
    int_mul board_large.rows board_large.cols = none ∧
    ∀ (n : Int) (sched : List Nat), run_workers board_large n sched Globals.init = none :=
  ⟨board_large_wf, by decide, by decide, rfl, rfl, by decide,
    int_mul_overflow _ _ board_large_cells,
    fun n sched => run_workers_overflow board_large n sched Globals.init board_large_cells⟩

/-- The property of C18 on the boards whose cell count is an `int`: in a
generation of a board with `rows ≥ 1`, `cols ≥ 1` and at most `2^31 - 1` cells, with `n ≥ 1` workers, that starts with both counters
at 0, under every execution order, both buffers are allocated with `rows*cols`
elements and the workers execute at most `rows*cols` critical sections; before
each of them `curr_death + curr_living` is the number of critical sections
executed so far, hence smaller than `rows*cols`, so every write
`dead[curr_death++]` and `alive[curr_living++]` is inside its buffer and all of
them succeed; at the join `curr_death + curr_living ≤ rows*cols`. -/
theorem accumulators_fit (b : Board) (n : Int) (sched : List Nat) (g : Globals)
    (hwf : b.WF) (hr : 1 ≤ b.rows) (hc : 1 ≤ b.cols) (hsz : b.rows * b.cols ≤ 2147483647)
    (hn : 1 ≤ n) (hd : g.curr_death = 0) (hl : g.curr_living = 0) :
    int_mul b.rows b.cols = some (b.rows * b.cols) ∧
    ∃ (l : List Append) (g2 : Globals),
      run_workers b n sched g = l.foldlM Globals.append
        ⟨malloc (b.rows * b.cols), malloc (b.rows * b.cols), g.curr_death, g.curr_living⟩ ∧
      run_workers b n sched g = some g2 ∧
      (l.length : Int) ≤ b.rows * b.cols ∧
      g2.curr_death + g2.curr_living = (l.length : Int) ∧
      ∀ k : Nat, k < l.length →
        ∃ gk, (l.take k).foldlM Globals.append
            ⟨malloc (b.rows * b.cols), malloc (b.rows * b.cols), g.curr_death, g.curr_living⟩
            = some gk ∧
          (gk.dead.length : Int) = b.rows * b.cols ∧
          (gk.alive.length : Int) = b.rows * b.cols ∧
          0 ≤ gk.curr_death ∧ 0 ≤ gk.curr_living ∧
          gk.curr_death + gk.curr_living = (k : Int) ∧
          gk.curr_death < b.rows * b.cols ∧ gk.curr_living < b.rows * b.cols := by
  have hperm : (interleave sched (worker_traces b n)).Perm (board_events b) := by
    have := interleave_perm sched (worker_traces b n)
    rwa [worker_traces_flatten b n (by omega) hn] at this
  have hlen := board_events_length b (by omega) (by omega)
  rw [← hperm.length_eq] at hlen
  have hpos : 0 ≤ b.rows * b.cols := Int.mul_nonneg (by omega) (by omega)
  have hstart : (⟨malloc (b.rows * b.cols), malloc (b.rows * b.cols), g.curr_death,
      g.curr_living⟩ : Globals) = ⟨buffer [] (b.rows * b.cols).toNat,
        buffer [] (b.rows * b.cols).toNat, (([] : List Point).length : Int),
        (([] : List Point).length : Int)⟩ := by
    simp [hd, hl, buffer, malloc]
  have hprefix : ∀ l2 : List Append, l2.length ≤ (b.rows * b.cols).toNat →
      l2.foldlM Globals.append
        ⟨malloc (b.rows * b.cols), malloc (b.rows * b.cols), g.curr_death, g.curr_living⟩
      = some ⟨buffer (dead_points l2) ((b.rows * b.cols).toNat - (dead_points l2).length),
          buffer (alive_points l2) ((b.rows * b.cols).toNat - (alive_points l2).length),
          ((dead_points l2).length : Int), ((alive_points l2).length : Int)⟩ := by
    intro l2 hl2
    have hsum := points_length l2
    rw [hstart, run_appends l2 [] [] _ _ (by omega) (by omega)]
    simp
  have hrun : run_workers b n sched g = (interleave sched (worker_traces b n)).foldlM
      Globals.append
        ⟨malloc (b.rows * b.cols), malloc (b.rows * b.cols), g.curr_death, g.curr_living⟩ := by
    unfold run_workers
    rw [int_mul_eq _ _ hpos hsz]
    simp only [Option.some_bind]
    rw [if_neg (by omega), check_rows_workers b hwf hr hc n hn]
    rfl
  refine ⟨int_mul_eq _ _ hpos hsz, interleave sched (worker_traces b n),
    ⟨buffer (dead_points (interleave sched (worker_traces b n)))
        ((b.rows * b.cols).toNat - (dead_points (interleave sched (worker_traces b n))).length),
      buffer (alive_points (interleave sched (worker_traces b n)))
        ((b.rows * b.cols).toNat - (alive_points (interleave sched (worker_traces b n))).length),
      ((dead_points (interleave sched (worker_traces b n))).length : Int),
      ((alive_points (interleave sched (worker_traces b n))).length : Int)⟩,
    hrun, ?_, ?_, ?_, ?_⟩
  · rw [hrun]
    exact hprefix _ hlen
  · omega
  · have hsum := points_length (interleave sched (worker_traces b n))
    simp only
    omega
  · intro k hk
    have hk2 : ((interleave sched (worker_traces b n)).take k).length = k := by
      rw [List.length_take]
      omega
    have hsum := points_length ((interleave sched (worker_traces b n)).take k)
    refine ⟨_, hprefix _ (by omega), ?_, ?_, ?_, ?_, ?_, ?_, ?_⟩
    · simp only [buffer_length]
      omega
    · simp only [buffer_length]
      omega
    · simp only
      omega
    · simp only
      omega
    · simp only
      omega
    · simp only
      omega
    · simp only
      omega

/-- An instance of `accumulators_fit`: the 3x3 board with a live middle row,
two workers. -/
theorem accumulators_fit_witness :
    (board_row3.WF ∧ (1 : Int) ≤ board_row3.rows ∧ (1 : Int) ≤ board_row3.cols ∧
      board_row3.rows * board_row3.cols ≤ 2147483647 ∧
      (1 : Int) ≤ 2 ∧ Globals.init.curr_death = 0 ∧ Globals.init.curr_living = 0) ∧
    int_mul board_row3.rows board_row3.cols = some (board_row3.rows * board_row3.cols) ∧
    ∃ (l : List Append) (g2 : Globals),
      run_workers board_row3 2 [0, 1, 1] Globals.init = l.foldlM Globals.append
        ⟨malloc (board_row3.rows * board_row3.cols), malloc (board_row3.rows * board_row3.cols),
          Globals.init.curr_death, Globals.init.curr_living⟩ ∧
      run_workers board_row3 2 [0, 1, 1] Globals.init = some g2 ∧
      (l.length : Int) ≤ board_row3.rows * board_row3.cols ∧
      g2.curr_death + g2.curr_living = (l.length : Int) ∧
      ∀ k : Nat, k < l.length →
        ∃ gk, (l.take k).foldlM Globals.append
            ⟨malloc (board_row3.rows * board_row3.cols),
              malloc (board_row3.rows * board_row3.cols),
              Globals.init.curr_death, Globals.init.curr_living⟩ = some gk ∧
          (gk.dead.length : Int) = board_row3.rows * board_row3.cols ∧
          (gk.alive.length : Int) = board_row3.rows * board_row3.cols ∧
          0 ≤ gk.curr_death ∧ 0 ≤ gk.curr_living ∧
          gk.curr_death + gk.curr_living = (k : Int) ∧
          gk.curr_death < board_row3.rows * board_row3.cols ∧
          gk.curr_living < board_row3.rows * board_row3.cols :=
  ⟨by decide, accumulators_fit board_row3 2 [0, 1, 1] Globals.init (by decide) (by decide)
    (by decide) (by decide) (by decide) rfl rfl⟩

/-! ## C19: a generation commutes with translation -/

theorem shift_wf (dr dc : Int) (b : Board) (hr : 0 ≤ b.rows) (hc : 0 ≤ b.cols) :
    (shift dr dc b).WF := by
  unfold Board.WF shift
  constructor
  · simp only [List.length_map, int_range_length]
    omega
  · intro ln hln
    simp only [List.mem_map] at hln
    obtain ⟨i, _, rfl⟩ := hln
    simp only [List.length_map, int_range_length]
    omega

theorem shift_get (dr dc : Int) (b : Board) (hwf : b.WF) (hr : 1 ≤ b.rows) (hc : 1 ≤ b.cols)
    (i j : Int) (hi0 : 0 ≤ i) (hi : i < b.rows) (hj0 : 0 ≤ j) (hj : j < b.cols) :
    board_get (shift dr dc b) i j = board_get b ((i - dr) % b.rows) ((j - dc) % b.cols) := by
  have h1 := Int.emod_nonneg (i - dr) (show b.rows ≠ 0 by omega)
  have h2 := Int.emod_lt_of_pos (i - dr) (show 0 < b.rows by omega)
  have h3 := Int.emod_nonneg (j - dc) (show b.cols ≠ 0 by omega)
  have h4 := Int.emod_lt_of_pos (j - dc) (show 0 < b.cols by omega)
  obtain ⟨ch, hch⟩ := board_get_isSome b hwf _ _ h1 h2 h3 h4
  rw [hch]
  have ei : (0 : Int) + (i.toNat : Int) = i := by omega
  have ej : (0 : Int) + (j.toNat : Int) = j := by omega
  simp only [board_get, shift, arr_get, hi0, hj0, if_true, Option.bind_eq_bind,
    List.getElem?_map, int_range_getElem? 0 b.rows i.toNat (by omega), Option.map_some',
    Option.some_bind, int_range_getElem? 0 b.cols j.toNat (by omega), ei, ej]
  have := hch
  simp only [board_get, arr_get, Option.bind_eq_bind] at this
  rw [this]
  rfl

theorem emod_shift (i d dr r : Int) : ((i + d) % r - dr) % r = ((i - dr) % r + d) % r := by
  rw [Int.emod_add_emod, Int.sub_eq_add_neg, Int.emod_add_emod]
  congr 1
  ring

theorem torus_count_shift (dr dc : Int) (b : Board) (hwf : b.WF) (hr : 1 ≤ b.rows)
    (hc : 1 ≤ b.cols) (i j : Int) :
    torus_count (shift dr dc b) i j = torus_count b ((i - dr) % b.rows) ((j - dc) % b.cols) := by
  unfold torus_count
  congr 2
  funext d
  have h1 := Int.emod_nonneg (i + d.1) (show b.rows ≠ 0 by omega)
  have h2 := Int.emod_lt_of_pos (i + d.1) (show 0 < b.rows by omega)
  have h3 := Int.emod_nonneg (j + d.2) (show b.cols ≠ 0 by omega)
  have h4 := Int.emod_lt_of_pos (j + d.2) (show 0 < b.cols by omega)
  have hs : (shift dr dc b).rows = b.rows ∧ (shift dr dc b).cols = b.cols := ⟨rfl, rfl⟩
  rw [hs.1, hs.2, shift_get dr dc b hwf hr hc _ _ h1 h2 h3 h4, emod_shift, emod_shift]

theorem next_cell_shift (dr dc : Int) (b : Board) (hwf : b.WF) (hr : 1 ≤ b.rows)
    (hc : 1 ≤ b.cols) (i j : Int) (hi0 : 0 ≤ i) (hi : i < b.rows) (hj0 : 0 ≤ j)
    (hj : j < b.cols) :
    next_cell (shift dr dc b) i j = next_cell b ((i - dr) % b.rows) ((j - dc) % b.cols) := by
  have h1 := Int.emod_nonneg (i - dr) (show b.rows ≠ 0 by omega)
  have h2 := Int.emod_lt_of_pos (i - dr) (show 0 < b.rows by omega)
  have h3 := Int.emod_nonneg (j - dc) (show b.cols ≠ 0 by omega)
  have h4 := Int.emod_lt_of_pos (j - dc) (show 0 < b.cols by omega)
  unfold next_cell
  rw [shift_get dr dc b hwf hr hc i j hi0 hi hj0 hj,
    neighbor_sum_eq_torus_count (shift dr dc b) hr hc i j hi0 hi hj0 hj,
    neighbor_sum_eq_torus_count b hr hc _ _ h1 h2 h3 h4,
    torus_count_shift dr dc b hwf hr hc i j]

/-- The property of C19 on the boards whose cell count is an `int`: for every
board with `rows ≥ 1`, `cols ≥ 1` and at most `2^31 - 1` cells, every shift `(dr, dc)`, every worker count `n ≥ 1` and all
execution orders, `update_board` applied to the shifted board returns the shift
of what it returns on the board. -/
theorem update_board_commutes_with_shift (b : Board) (dr dc n : Int) (s1 s2 : List Nat)
    (g : Globals) (hwf : b.WF) (hr : 1 ≤ b.rows) (hc : 1 ≤ b.cols)
    (hsz : b.rows * b.cols ≤ 2147483647) (hn : 1 ≤ n)
    (hd : g.curr_death = 0) (hl : g.curr_living = 0) :
    ∃ b2 g2, update_board b n s1 g = some (b2, g2) ∧
      update_board (shift dr dc b) n s2 g = some (shift dr dc b2, g2) := by
  obtain ⟨b2, hup, hwf2, hr2, hc2, hit2, hget2⟩ :=
    update_board_spec b hwf hr hc hsz n hn s1 g hd hl
  obtain ⟨b3, hup3, hwf3, hr3, hc3, hit3, hget3⟩ :=
    update_board_spec (shift dr dc b) (shift_wf dr dc b (by omega) (by omega)) hr hc hsz n hn
      s2 g hd hl
  have : b3 = shift dr dc b2 := by
    apply board_ext (shift dr dc b2) b3 (shift_wf dr dc b2 (by omega) (by omega)) hwf3
    · exact hr3.trans hr2.symm
    · exact hc3.trans hc2.symm
    · exact hit3.trans hit2.symm
    · intro i j hi0 hi hj0 hj
      have hi' : i < b.rows := by
        have : (shift dr dc b2).rows = b2.rows := rfl
        omega
      have hj' : j < b.cols := by
        have : (shift dr dc b2).cols = b2.cols := rfl
        omega
      rw [hget3, next_cell_shift dr dc b hwf hr hc i j hi0 hi' hj0 hj',
        shift_get dr dc b2 hwf2 (by omega) (by omega) i j hi0 (by omega) hj0 (by omega),
        hget2, hr2, hc2]
  rw [this] at hup3
  exact ⟨b2, Globals.init, hup, hup3⟩

/-- An instance of `update_board_commutes_with_shift`: the 3x3 board with one
live corner shifted by
`(1, -2)`. -/
theorem update_board_commutes_with_shift_witness :
    (board_corner3.WF ∧ (1 : Int) ≤ board_corner3.rows ∧ (1 : Int) ≤ board_corner3.cols ∧
      board_corner3.rows * board_corner3.cols ≤ 2147483647 ∧ (1 : Int) ≤ 2 ∧ Globals.init.curr_death = 0 ∧ Globals.init.curr_living = 0) ∧
    ∃ b2 g2, update_board board_corner3 2 [0, 1] Globals.init = some (b2, g2) ∧
      update_board (shift 1 (-2) board_corner3) 2 [1] Globals.init
        = some (shift 1 (-2) b2, g2) :=
  ⟨by decide, update_board_commutes_with_shift board_corner3 1 (-2) 2 [0, 1] [1] Globals.init
    (by decide) (by decide) (by decide) (by decide) (by decide) rfl rfl⟩

/-! ## C20: the eight neighbours are distinct on boards of at least 3x3 -/

theorem neighbor_sum_eq_countP (b : Board) (hwf : b.WF) (hr : 1 ≤ b.rows) (hc : 1 ≤ b.cols)
    (i j : Int) (hi0 : 0 ≤ i) (hi : i < b.rows) (hj0 : 0 ≤ j) (hj : j < b.cols) :
    calculate_live_neighbors b i j = some (((neighbor_positions b i j).countP
      (fun p => board_get b p.row p.col = some 'X') : Nat) : Int) := by
  rw [calculate_live_neighbors_eq b hwf hr hc i j hi0 hi hj0 hj]
  unfold neighbor_sum neighbor_positions live
  simp only [List.countP_cons, List.countP_nil, decide_eq_true_eq]
  push_cast
  congr 1
  ring

/-- C20: on a board with `rows ≥ 3` and `cols ≥ 3` the eight positions read by
`calculate_live_neighbors` at an in-range cell `(i, j)` are pairwise distinct
and none of them is `(i, j)`, so the result is the number of distinct live
positions among them; on the 1x3 board `board_line3` the positions coincide,
`(0, 0)` is read as its own neighbour and is counted twice. -/
theorem neighbor_positions_distinct (b : Board) (i j : Int)
    (hwf : b.WF) (hr : 3 ≤ b.rows) (hc : 3 ≤ b.cols)
    (hi0 : 0 ≤ i) (hi : i < b.rows) (hj0 : 0 ≤ j) (hj : j < b.cols) :
    (neighbor_positions b i j).Nodup ∧
    make_point i j ∉ neighbor_positions b i j ∧
    calculate_live_neighbors b i j = some ((((neighbor_positions b i j).filter
      (fun p => board_get b p.row p.col = some 'X')).toFinset.card : Nat) : Int) ∧
    (board_line3.WF ∧ board_line3.rows < 3 ∧
      ¬ (neighbor_positions board_line3 0 0).Nodup ∧
      make_point 0 0 ∈ neighbor_positions board_line3 0 0 ∧
      calculate_live_neighbors board_line3 0 0 = some 2 ∧
      (((neighbor_positions board_line3 0 0).filter
        (fun p => board_get board_line3 p.row p.col = some 'X')).toFinset.card = 1)) := by
  have hnodup : (neighbor_positions b i j).Nodup := by
    have w1 := safe_wrap_cases (i + 1) b.rows
    have w2 := safe_wrap_cases (i - 1) b.rows
    have w3 := safe_wrap_cases (j + 1) b.cols
    have w4 := safe_wrap_cases (j - 1) b.cols
    have a1 : safe_wrap (i + 1) b.rows ≠ i := by omega
    have a2 : safe_wrap (i - 1) b.rows ≠ i := by omega
    have a3 : safe_wrap (i + 1) b.rows ≠ safe_wrap (i - 1) b.rows := by omega
    have c1 : safe_wrap (j + 1) b.cols ≠ j := by omega
    have c2 : safe_wrap (j - 1) b.cols ≠ j := by omega
    have c3 : safe_wrap (j + 1) b.cols ≠ safe_wrap (j - 1) b.cols := by omega
    simp only [neighbor_positions, List.nodup_cons, List.mem_cons, List.mem_singleton,
      Point.mk.injEq, List.not_mem_nil, List.nodup_nil, or_false, and_true]
    refine ⟨?_, ?_, ?_, ?_, ?_, ?_, ?_⟩ <;>
      first | omega | (simp only [true_and, not_false_eq_true, and_true]; omega)
  have hself : make_point i j ∉ neighbor_positions b i j := by
    have w1 := safe_wrap_cases (i + 1) b.rows
    have w2 := safe_wrap_cases (i - 1) b.rows
    have w3 := safe_wrap_cases (j + 1) b.cols
    have w4 := safe_wrap_cases (j - 1) b.cols
    simp only [neighbor_positions, make_point, List.mem_cons, List.mem_singleton,
      Point.mk.injEq, List.not_mem_nil, or_false]
    omega
  refine ⟨hnodup, hself, ?_, by decide⟩
  rw [neighbor_sum_eq_countP b hwf (by omega) (by omega) i j hi0 hi hj0 hj,
    List.toFinset_card_of_nodup (hnodup.filter _), List.countP_eq_length_filter]

/-- Witness for C20: the corner `(0, 0)` of a 3x3 board. -/
theorem neighbor_positions_distinct_witness :
    (board_corner3.WF ∧ (3 : Int) ≤ board_corner3.rows ∧ (3 : Int) ≤ board_corner3.cols ∧
      (0 : Int) ≤ 0 ∧ (0 : Int) < board_corner3.rows ∧ (0 : Int) < board_corner3.cols) ∧
    ((neighbor_positions board_corner3 0 0).Nodup ∧
    make_point 0 0 ∉ neighbor_positions board_corner3 0 0 ∧
    calculate_live_neighbors board_corner3 0 0 = some ((((neighbor_positions board_corner3 0 0).filter
      (fun p => board_get board_corner3 p.row p.col = some 'X')).toFinset.card : Nat) : Int) ∧
    (board_line3.WF ∧ board_line3.rows < 3 ∧
      ¬ (neighbor_positions board_line3 0 0).Nodup ∧
      make_point 0 0 ∈ neighbor_positions board_line3 0 0 ∧
      calculate_live_neighbors board_line3 0 0 = some 2 ∧
      (((neighbor_positions board_line3 0 0).filter
        (fun p => board_get board_line3 p.row p.col = some 'X')).toFinset.card = 1))) :=
  ⟨by decide, neighbor_positions_distinct board_corner3 0 0 (by decide) (by decide) (by decide)
    (by decide) (by decide) (by decide) (by decide)⟩

end Tgol
